import Mathlib

/-!
Verification of the session-listing subsystem (`session_manager.rs`) and the
config patcher (`config_edit.rs`) of this repository.

The Rust code is shallowly embedded: pure functions become Lean functions,
filesystem state becomes explicit data (directory listings are lists in an
arbitrary enumeration order; fallible reads are `Option`), and fallible
operations return `Except`.  External library calls (the `time` parser for
the fixed `YYYY-MM-DDThh-mm-ss` format, the `uuid` textual parser, and
`serde_json`) are modelled at the level of detail the spec fixes: exact
fixed-width zero-padded timestamp fields with calendar validation, the four
textual UUID shapes (simple, hyphenated, braced, urn) with case-insensitive
hex, and an abstract JSON value parser passed as a parameter.
-/

namespace SessionList

/-! ## Characters and digits -/

/-- Numeric value of a decimal digit character. -/
def digVal (c : Char) : Nat := c.toNat - 48

/-- The decimal digit character for `n < 10` (clamped at `'9'`). -/
def digCh : Nat → Char
  | 0 => '0' | 1 => '1' | 2 => '2' | 3 => '3' | 4 => '4'
  | 5 => '5' | 6 => '6' | 7 => '7' | 8 => '8' | _ => '9'

/-- Decimal digit recognizer (code points 48–57). -/
def isDigitCh (c : Char) : Bool := 48 ≤ c.toNat && c.toNat ≤ 57

/-- Hex digit recognizer, case-insensitive, as accepted by the uuid
textual parser (code-point ranges of `0-9`, `a-f`, `A-F`). -/
def isHexCh (c : Char) : Bool :=
  (48 ≤ c.toNat && c.toNat ≤ 57) || (97 ≤ c.toNat && c.toNat ≤ 102) ||
    (65 ≤ c.toNat && c.toNat ≤ 70)

/-- Numeric value of a hex digit character. -/
def hexVal (c : Char) : Nat :=
  if 48 ≤ c.toNat && c.toNat ≤ 57 then c.toNat - 48
  else if 97 ≤ c.toNat then c.toNat - 87
  else c.toNat - 55

/-- The lowercase hex digit character for `n < 16` (clamped). -/
def hexCh : Nat → Char
  | 0 => '0' | 1 => '1' | 2 => '2' | 3 => '3' | 4 => '4'
  | 5 => '5' | 6 => '6' | 7 => '7' | 8 => '8' | 9 => '9'
  | 10 => 'a' | 11 => 'b' | 12 => 'c' | 13 => 'd' | 14 => 'e' | _ => 'f'

/-! ## List-of-characters utilities (modelling `str` operations) -/

/-- Model of `str::strip_prefix`: remove the leading pattern `p` or fail. -/
def stripPre : List Char → List Char → Option (List Char)
  | [], cs => some cs
  | _ :: _, [] => none
  | p :: ps, c :: cs => if c = p then stripPre ps cs else none

/-- Model of `str::strip_suffix`: remove the trailing pattern or fail. -/
def stripSuf (suf cs : List Char) : Option (List Char) :=
  (stripPre suf.reverse cs.reverse).map List.reverse

/-- All splits of `cs` at a `'-'` character, in left-to-right order of the
hyphen: one pair `(before, after)` per hyphen occurrence.  Models
`str::match_indices('-')` with each index replaced by the two sides. -/
def hyphSplits : List Char → List (List Char × List Char)
  | [] => []
  | c :: cs =>
    (if c = '-' then [(([] : List Char), cs)] else []) ++
      (hyphSplits cs).map fun p => (c :: p.1, p.2)

/-- Split a character list at the first `'|'`, as `str::split_once('|')`. -/
def splitOnceBar : List Char → Option (List Char × List Char)
  | [] => none
  | c :: cs =>
    if c = '|' then some ([], cs)
    else (splitOnceBar cs).map fun p => (c :: p.1, p.2)

/-- Model of `str::trim` (whitespace removed from both ends). -/
def trimChars (cs : List Char) : List Char :=
  ((cs.dropWhile Char.isWhitespace).reverse.dropWhile Char.isWhitespace).reverse

/-! ## Timestamps

The rollout timestamp is parsed by the `time` crate with the fixed format
`[year]-[month]-[day]T[hour]-[minute]-[second]`: zero-padded fixed-width
decimal fields with calendar validation (per the spec: "zero-padded,
24-hour, second precision"). -/

/-- Calendar timestamp with second precision. -/
structure Ts where
  year : Nat
  month : Nat
  day : Nat
  hour : Nat
  minute : Nat
  second : Nat
deriving DecidableEq

/-- Gregorian leap-year rule. -/
def isLeap (y : Nat) : Bool := y % 4 = 0 && (y % 100 ≠ 0 || y % 400 = 0)

/-- Number of days in a month of a given year. -/
def daysInMonth (y m : Nat) : Nat :=
  if m = 2 then (if isLeap y then 29 else 28)
  else if m = 4 || m = 6 || m = 9 || m = 11 then 30
  else 31

/-- Calendar validity of a timestamp, as enforced by the `time` parser. -/
def Ts.valid (t : Ts) : Bool :=
  t.year ≤ 9999 && 1 ≤ t.month && t.month ≤ 12 &&
    1 ≤ t.day && t.day ≤ daysInMonth t.year t.month &&
    t.hour ≤ 23 && t.minute ≤ 59 && t.second ≤ 59

/-- Parse exactly two decimal digit characters. -/
def d2 (a b : Char) : Option Nat :=
  if isDigitCh a && isDigitCh b then some (digVal a * 10 + digVal b) else none

/-- Parse exactly four decimal digit characters. -/
def d4 (a b c d : Char) : Option Nat :=
  if isDigitCh a && isDigitCh b && isDigitCh c && isDigitCh d then
    some (digVal a * 1000 + digVal b * 100 + digVal c * 10 + digVal d)
  else none

/-- Parse the fixed 19-character `YYYY-MM-DDThh-mm-ss` layout, with
calendar validation; the whole input must be consumed. -/
def parseTsChars (cs : List Char) : Option Ts :=
  match cs with
  | [y1, y2, y3, y4, '-', m1, m2, '-', e1, e2, 'T', h1, h2, '-', n1, n2, '-', s1, s2] => do
    let y ← d4 y1 y2 y3 y4
    let mo ← d2 m1 m2
    let dy ← d2 e1 e2
    let h ← d2 h1 h2
    let mi ← d2 n1 n2
    let s ← d2 s1 s2
    let t : Ts := ⟨y, mo, dy, h, mi, s⟩
    if t.valid then some t else none
  | _ => none

/-- Zero-pad a number to two decimal digits. -/
def pad2 (n : Nat) : List Char := [digCh (n / 10 % 10), digCh (n % 10)]

/-- Zero-pad a number to four decimal digits. -/
def pad4 (n : Nat) : List Char :=
  [digCh (n / 1000 % 10), digCh (n / 100 % 10), digCh (n / 10 % 10), digCh (n % 10)]

/-- Format a timestamp in the same fixed zero-padded layout used for
filenames and cursors. -/
def Ts.fmt (t : Ts) : List Char :=
  pad4 t.year ++ '-' :: pad2 t.month ++ '-' :: pad2 t.day ++
    'T' :: pad2 t.hour ++ '-' :: pad2 t.minute ++ '-' :: pad2 t.second

/-- Chronological encoding of a timestamp as a single natural number; on
calendar-valid timestamps this is exactly the chronological order the
`time` crate compares with, and it is injective there. -/
def Ts.key (t : Ts) : Nat :=
  ((((t.year * 13 + t.month) * 32 + t.day) * 24 + t.hour) * 60 + t.minute) * 60 + t.second

/-! ## UUIDs

`Uuid::parse_str` accepts four textual shapes: simple (32 hex digits),
hyphenated (8-4-4-4-12), braced hyphenated, and the URN form; hex digits
are case-insensitive.  The parsed value is the 128-bit integer. -/

/-- Consume exactly `n` hex digits, returning their big-endian value and
the rest of the input. -/
def parseHexN : Nat → List Char → Option (Nat × List Char)
  | 0, cs => some (0, cs)
  | _ + 1, [] => none
  | n + 1, c :: cs =>
    if isHexCh c then (parseHexN n cs).map fun p => (hexVal c * 16 ^ n + p.1, p.2)
    else none

/-- Expect one specific character at the head of the input. -/
def expectCh (c : Char) : List Char → Option (List Char)
  | [] => none
  | d :: cs => if d = c then some cs else none

/-- Parse the hyphenated `8-4-4-4-12` UUID body, returning the 128-bit
value and the remaining input. -/
def parseUuidHyphRest (cs : List Char) : Option (Nat × List Char) := do
  let (a, cs) ← parseHexN 8 cs
  let cs ← expectCh '-' cs
  let (b, cs) ← parseHexN 4 cs
  let cs ← expectCh '-' cs
  let (g, cs) ← parseHexN 4 cs
  let cs ← expectCh '-' cs
  let (d, cs) ← parseHexN 4 cs
  let cs ← expectCh '-' cs
  let (e, cs) ← parseHexN 12 cs
  some ((((a * 16 ^ 4 + b) * 16 ^ 4 + g) * 16 ^ 4 + d) * 16 ^ 12 + e, cs)

/-- Simple 32-hex-digit UUID shape (whole input). -/
def parseUuidSimple (cs : List Char) : Option Nat := do
  let (v, rest) ← parseHexN 32 cs
  match rest with
  | [] => some v
  | _ :: _ => none

/-- Hyphenated UUID shape (whole input). -/
def parseUuidHyph (cs : List Char) : Option Nat := do
  let (v, rest) ← parseUuidHyphRest cs
  match rest with
  | [] => some v
  | _ :: _ => none

/-- Braced hyphenated UUID shape (whole input). -/
def parseUuidBraced (cs : List Char) : Option Nat := do
  let cs ← expectCh '{' cs
  let (v, rest) ← parseUuidHyphRest cs
  match rest with
  | ['}'] => some v
  | _ => none

/-- URN UUID shape (whole input). -/
def parseUuidUrn (cs : List Char) : Option Nat := do
  let cs ← stripPre "urn:uuid:".data cs
  parseUuidHyph cs

/-- Model of `Uuid::parse_str` on a character list. -/
def uuidParse (cs : List Char) : Option Nat :=
  (parseUuidSimple cs).or ((parseUuidHyph cs).or
    ((parseUuidBraced cs).or (parseUuidUrn cs)))

/-- Format `w` hex digits of `v`, most significant first (lowercase), as
the `Display` form of a UUID field does. -/
def toHexN : Nat → Nat → List Char
  | 0, _ => []
  | w + 1, v => hexCh (v / 16 ^ w) :: toHexN w (v % 16 ^ w)

/-- Model of the hyphenated lowercase `Display` form of a UUID. -/
def uuidFmt (v : Nat) : List Char :=
  toHexN 8 (v / 2 ^ 96) ++ '-' :: toHexN 4 (v / 2 ^ 80 % 2 ^ 16) ++
    '-' :: toHexN 4 (v / 2 ^ 64 % 2 ^ 16) ++ '-' :: toHexN 4 (v / 2 ^ 48 % 2 ^ 16) ++
    '-' :: toHexN 12 (v % 2 ^ 48)

/-! ## Rollout keys -/

/-- Ordering/identity key of a rollout file: timestamp plus 128-bit id. -/
structure RKey where
  ts : Ts
  id : Nat
deriving DecidableEq

/-- Strict "older than" comparison used by the anchor test in
`traverse_directories_for_paths`:
`ts < anchor_ts || (ts == anchor_ts && sid < anchor_id)`, with the
timestamp comparison rendered through the chronological encoding. -/
def keyLt (a b : RKey) : Bool :=
  a.ts.key < b.ts.key || (a.ts.key == b.ts.key && a.id < b.id)

/-- Single-number encoding of a key, ordering by timestamp then id; used
to express the `(Reverse ts, Reverse id)` sort of the source. -/
def RKey.code (k : RKey) : Nat := k.ts.key * 2 ^ 128 + k.id

/-- A key is valid when its timestamp is calendar-valid and its id fits in
128 bits; every key produced by the parsers is valid. -/
def ValidKey (k : RKey) : Prop := k.ts.valid = true ∧ k.id < 2 ^ 128

instance (k : RKey) : Decidable (ValidKey k) := by
  unfold ValidKey; infer_instance

/-- The Unix-epoch default anchor `(OffsetDateTime::UNIX_EPOCH, Uuid::nil())`
substituted when no cursor is given (it is never compared in that case). -/
def nilKey : RKey := ⟨⟨1970, 1, 1, 0, 0, 0⟩, 0⟩

/-! ## Filename codec (`parse_timestamp_uuid_from_filename`) -/

/-- Embedding of `parse_timestamp_uuid_from_filename`: strip the
`rollout-` and `.jsonl` affixes, scan the hyphens of the core from the
right for the first split whose suffix parses as a UUID, then parse the
prefix of that split as a timestamp. -/
def parseRollName (name : String) : Option RKey := do
  let a ← stripPre "rollout-".data name.data
  let core ← stripSuf ".jsonl".data a
  let pu ← (hyphSplits core).reverse.findSome? fun p =>
    (uuidParse p.2).map fun u => (p.1, u)
  let t ← parseTsChars pu.1
  some ⟨t, pu.2⟩

/-- Modelled from the spec (§4.1), for comparison with `parseRollName`:
scan candidate split points from the right end of the stripped core,
accepting the first split whose suffix parses as a valid identifier and
whose prefix parses as a valid timestamp. -/
def specRollDecode (name : String) : Option RKey := do
  let a ← stripPre "rollout-".data name.data
  let core ← stripSuf ".jsonl".data a
  (hyphSplits core).reverse.findSome? fun p => do
    let u ← uuidParse p.2
    let t ← parseTsChars p.1
    some (⟨t, u⟩ : RKey)

/-! ## Cursor codec (`parse_cursor` / `build_next_cursor`) -/

/-- Embedding of `parse_cursor`: split the token at the first `|`, parse
the right half as a UUID and the left half as a timestamp; any failure
yields `none` (no anchor). -/
def parseCursor (token : String) : Option RKey := do
  let pr ← splitOnceBar token.data
  let u ← uuidParse pr.2
  let t ← parseTsChars pr.1
  some ⟨t, u⟩

/-- The `"{ts}|{id}"` cursor text for a key, with the timestamp in the
fixed zero-padded layout and the id in hyphenated lowercase form. -/
def encodeCursor (k : RKey) : String := String.mk (k.ts.fmt ++ '|' :: uuidFmt k.id)

/-! ## Filesystem model

A directory listing is a list of entries in an arbitrary enumeration
order; `none` in place of a listing or a file body models a failing
`read_dir` / `File::open`.  A file body is a list of lines, each line
`none` when the line iterator yields an error for it. -/

/-- Body of a file as seen by the head reader. -/
abbrev Content := Option (List (Option String))

/-- Entry of a day directory: a rollout candidate file, or a stray
subdirectory (skipped by `collect_files`). -/
inductive DEnt where
  | file (name : String) (content : Content)
  | dir (name : String)
deriving DecidableEq

/-- Entry of a month directory: a day subdirectory (with its listing, or
`none` when reading it fails), or a stray file. -/
inductive MEnt where
  | dir (name : String) (sub : Option (List DEnt))
  | file (name : String)
deriving DecidableEq

/-- Entry of a year directory. -/
inductive YEnt where
  | dir (name : String) (sub : Option (List MEnt))
  | file (name : String)
deriving DecidableEq

/-- Entry of the sessions root directory. -/
inductive REnt where
  | dir (name : String) (sub : Option (List YEnt))
  | file (name : String)
deriving DecidableEq

/-- Model of `str::parse` for an unsigned integer type with maximum
`bound` (`u16` for years, `u8` for months and days): optional leading
`+`, one or more decimal digits, overflow rejected. -/
def parseRustUInt (bound : Nat) (s : String) : Option Nat :=
  let cs := match s.data with
    | '+' :: rest => rest
    | cs => cs
  if cs ≠ [] ∧ cs.all isDigitCh then
    let v := cs.foldl (fun a c => a * 10 + digVal c) 0
    if v ≤ bound then some v else none
  else none

/-- Descending stable sort by the first component, as
`vec.sort_by_key(|(v, _)| Reverse(*v))` does. -/
def sortDescByFst {α : Type} (l : List (Nat × α)) : List (Nat × α) :=
  l.mergeSort fun x y => y.1 ≤ x.1

/-- Embedding of `collect_dirs_desc` at the root: keep directory entries
whose names parse as `u16`, sorted descending by the parsed value. -/
def collectYears (ents : List REnt) : List (Nat × Option (List YEnt)) :=
  sortDescByFst <| ents.filterMap fun e =>
    match e with
    | REnt.dir n sub => (parseRustUInt 65535 n).map fun v => (v, sub)
    | REnt.file _ => none

/-- Embedding of `collect_dirs_desc` inside a year directory (`u8`). -/
def collectMonths (ents : List YEnt) : List (Nat × Option (List MEnt)) :=
  sortDescByFst <| ents.filterMap fun e =>
    match e with
    | YEnt.dir n sub => (parseRustUInt 255 n).map fun v => (v, sub)
    | YEnt.file _ => none

/-- Embedding of `collect_dirs_desc` inside a month directory (`u8`). -/
def collectDays (ents : List MEnt) : List (Nat × Option (List DEnt)) :=
  sortDescByFst <| ents.filterMap fun e =>
    match e with
    | MEnt.dir n sub => (parseRustUInt 255 n).map fun v => (v, sub)
    | MEnt.file _ => none

/-- Embedding of the `collect_files` call of the traversal: keep files
whose names carry the `rollout-`/`.jsonl` affixes and decode, then sort
by `(Reverse ts, Reverse id)` (stable), rendered through `RKey.code`. -/
def collectDayFiles (ents : List DEnt) : List (RKey × String × Content) :=
  (ents.filterMap fun e =>
    match e with
    | DEnt.file n c =>
      if (stripPre "rollout-".data n.data).isSome ∧ (stripSuf ".jsonl".data n.data).isSome then
        (parseRollName n).map fun k => (k, n, c)
      else none
    | DEnt.dir _ => none).mergeSort fun x y => RKey.code y.1 ≤ RKey.code x.1

/-! ## Head reader (`read_first_jsonl_records`) -/

/-- Per-line treatment of the head reader's loop body: an erroring line
is skipped, the line is trimmed, a blank line is skipped, and the parsed
JSON value is kept when parsing succeeds. -/
def lineParse {J : Type} (pj : String → Option J) (o : Option String) : Option J :=
  match o with
  | none => none
  | some l =>
    if trimChars l.data = [] then none else pj (String.mk (trimChars l.data))

/-- Embedding of `read_first_jsonl_records`: iterate the first
`maxRecords` results of the line iterator; skip erroring lines, skip
lines blank after trimming, keep the values of lines that parse.  The
JSON parser `pj` is a parameter (serde_json is external to this slice). -/
def readFirstJsonlRecords {J : Type} (pj : String → Option J)
    (lines : List (Option String)) (maxRecords : Nat) : List J :=
  (lines.take maxRecords).filterMap (lineParse pj)

/-- Modelled from the spec (§4.5), for comparison with
`readFirstJsonlRecords`: read lines sequentially and stop only after
collecting `fuel` parsed records, skipping blank and unparsable lines
without ending the collection. -/
def specHeadRead {J : Type} (pj : String → Option J) :
    List (Option String) → Nat → List J
  | _, 0 => []
  | [], _ + 1 => []
  | o :: rest, n + 1 =>
    match lineParse pj o with
    | none => specHeadRead pj rest (n + 1)
    | some v => v :: specHeadRead pj rest n

/-- Head of an item: `read_first_jsonl_records(&path, 5).unwrap_or_default()`
(an unopenable file yields an empty head). -/
def headOf {J : Type} (pj : String → Option J) (c : Content) : List J :=
  match c with
  | none => []
  | some lines => readFirstJsonlRecords pj lines 5

/-! ## Page builder (`traverse_directories_for_paths`) -/

/-- The hard scan cap `MAX_SCAN_FILES`. -/
def MAX_SCAN_FILES : Nat := 50000

/-- Summary of one conversation rollout file: file name (standing for the
path, whose final component it is) and parsed head. -/
structure Item (J : Type) where
  name : String
  head : List J
deriving DecidableEq

/-- Returned page of conversation summaries. -/
structure Page (J : Type) where
  items : List (Item J)
  next_cursor : Option String
  scanned_files : Nat
  reached_scan_cap : Bool
deriving DecidableEq

/-- Mutable state of the traversal loops. -/
structure TravSt (J : Type) where
  items : List (Item J)
  scanned : Nat
  anchorPassed : Bool
  stop : Bool
deriving DecidableEq

/-- Embedding of the per-file loop body (the `for (ts, sid, _, path)`
loop): count the file; break when the cap is hit with a full page; skip
files at or newer than the anchor until it is passed; break when the page
is full; otherwise read the head and push the item.  `stop` records that
a `break 'outer` has happened. -/
def stepFile {J : Type} (pj : String → Option J) (ps : Nat) (a : RKey)
    (s : TravSt J) (f : RKey × String × Content) : TravSt J :=
  if s.stop then s
  else if MAX_SCAN_FILES ≤ s.scanned + 1 ∧ ps ≤ s.items.length then
    ⟨s.items, s.scanned + 1, s.anchorPassed, true⟩
  else if ¬s.anchorPassed ∧ ¬keyLt f.1 a then ⟨s.items, s.scanned + 1, s.anchorPassed, false⟩
  else if s.items.length = ps then ⟨s.items, s.scanned + 1, true, true⟩
  else ⟨s.items ++ [⟨f.2.1, headOf pj f.2.2⟩], s.scanned + 1, true, false⟩

/-- One day's sorted file list, folded through `stepFile`. -/
def processDay {J : Type} (pj : String → Option J) (ps : Nat) (a : RKey)
    (files : List (RKey × String × Content)) (s : TravSt J) : TravSt J :=
  files.foldl (stepFile pj ps a) s

/-- The day-directory loop: before each day, `break 'outer` if the cap is
reached; otherwise list the day (propagating a read failure) and fold its
files. -/
def processDays {J : Type} (pj : String → Option J) (ps : Nat) (a : RKey) :
    List (Nat × Option (List DEnt)) → TravSt J → Except Unit (TravSt J)
  | [], s => .ok s
  | (_, sub) :: rest, s =>
    if s.stop then .ok s
    else if MAX_SCAN_FILES ≤ s.scanned then .ok ⟨s.items, s.scanned, s.anchorPassed, true⟩
    else match sub with
      | none => .error ()
      | some ents => processDays pj ps a rest (processDay pj ps a (collectDayFiles ents) s)

/-- The month-directory loop. -/
def processMonths {J : Type} (pj : String → Option J) (ps : Nat) (a : RKey) :
    List (Nat × Option (List MEnt)) → TravSt J → Except Unit (TravSt J)
  | [], s => .ok s
  | (_, sub) :: rest, s =>
    if s.stop then .ok s
    else if MAX_SCAN_FILES ≤ s.scanned then .ok ⟨s.items, s.scanned, s.anchorPassed, true⟩
    else match sub with
      | none => .error ()
      | some ents => do
        let s' ← processDays pj ps a (collectDays ents) s
        processMonths pj ps a rest s'

/-- The year-directory loop. -/
def processYears {J : Type} (pj : String → Option J) (ps : Nat) (a : RKey) :
    List (Nat × Option (List YEnt)) → TravSt J → Except Unit (TravSt J)
  | [], s => .ok s
  | (_, sub) :: rest, s =>
    if s.stop then .ok s
    else if MAX_SCAN_FILES ≤ s.scanned then .ok ⟨s.items, s.scanned, s.anchorPassed, true⟩
    else match sub with
      | none => .error ()
      | some ents => do
        let s' ← processMonths pj ps a (collectMonths ents) s
        processYears pj ps a rest s'

/-- Embedding of `build_next_cursor`: re-decode the last item's file name
and format `"{ts}|{id}"`. -/
def buildNextCursor {J : Type} (items : List (Item J)) : Option String :=
  match items.getLast? with
  | none => none
  | some it => (parseRollName it.name).map encodeCursor

/-- Embedding of `traverse_directories_for_paths`.  The root listing is
`none` when reading the sessions directory fails. -/
def traverse {J : Type} (pj : String → Option J) (root : Option (List REnt))
    (ps : Nat) (anchor : Option RKey) : Except Unit (Page J) :=
  match root with
  | none => .error ()
  | some rents => do
    let a := anchor.getD nilKey
    let s0 : TravSt J := ⟨[], 0, anchor.isNone, false⟩
    let s ← processYears pj ps a (collectYears rents) s0
    .ok ⟨s.items, buildNextCursor s.items, s.scanned, decide (MAX_SCAN_FILES ≤ s.scanned)⟩

/-- Embedding of `get_conversations`: the outer `Option` is absence of
the sessions root (an empty page, not an error); otherwise the cursor is
decoded leniently and the traversal runs. -/
def getConversations {J : Type} (pj : String → Option J)
    (root : Option (Option (List REnt))) (ps : Nat) (cursor : Option String) :
    Except Unit (Page J) :=
  match root with
  | none => .ok ⟨[], none, 0, false⟩
  | some r => traverse pj r ps (cursor.bind parseCursor)

/-! ## Auxiliary predicates on trees -/

/-- Lift a predicate under `Option`: `False` on `none`. -/
def optP {α : Type} (P : α → Prop) : Option α → Prop
  | none => False
  | some x => P x

instance {α : Type} (P : α → Prop) [inst : ∀ x, Decidable (P x)] :
    (o : Option α) → Decidable (optP P o)
  | none => isFalse fun h => h
  | some x => inst x

/-- Every day listing under a year directory is readable. -/
def AllOkY (yents : List YEnt) : Prop :=
  ∀ p ∈ collectMonths yents, optP (fun ml => ∀ q ∈ collectDays ml, q.2.isSome = true) p.2

/-- Every shard listing under the root is readable. -/
def AllOkR (rents : List REnt) : Prop :=
  ∀ p ∈ collectYears rents, optP AllOkY p.2

/-- Well-formed day directory of shard `(y, m, d)`: decoded keys are
valid, pairwise distinct, and dated on that shard's day (the layout
convention of spec §6, maintained by the external writer). -/
def WfDay (y m d : Nat) (dents : List DEnt) : Prop :=
  ((collectDayFiles dents).map (·.1)).Nodup ∧
    ∀ f ∈ collectDayFiles dents, ValidKey f.1 ∧
      f.1.ts.year = y ∧ f.1.ts.month = m ∧ f.1.ts.day = d

/-- Well-formed month directory: readable day shards with distinct
parsed day numbers, each well-formed. -/
def WfMonth (y m : Nat) (ments : List MEnt) : Prop :=
  ((collectDays ments).map (·.1)).Nodup ∧
    ∀ p ∈ collectDays ments, optP (WfDay y m p.1) p.2

/-- Well-formed year directory. -/
def WfYear (y : Nat) (yents : List YEnt) : Prop :=
  ((collectMonths yents).map (·.1)).Nodup ∧
    ∀ p ∈ collectMonths yents, optP (WfMonth y p.1) p.2

/-- Well-formed sessions root: the spec's layout and writer invariants
(date sharding, unique keys, readable listings). -/
def WfRoot (rents : List REnt) : Prop :=
  ((collectYears rents).map (·.1)).Nodup ∧
    ∀ p ∈ collectYears rents, optP (WfYear p.1) p.2

instance (yents : List YEnt) : Decidable (AllOkY yents) := by
  unfold AllOkY
  infer_instance

instance (rents : List REnt) : Decidable (AllOkR rents) := by
  unfold AllOkR
  infer_instance

instance (y m d : Nat) (dents : List DEnt) : Decidable (WfDay y m d dents) := by
  unfold WfDay
  infer_instance

instance (y m : Nat) (ments : List MEnt) : Decidable (WfMonth y m ments) := by
  unfold WfMonth
  infer_instance

instance (y : Nat) (yents : List YEnt) : Decidable (WfYear y yents) := by
  unfold WfYear
  infer_instance

instance (rents : List REnt) : Decidable (WfRoot rents) := by
  unfold WfRoot
  infer_instance

/-! ## The traversal's visit order, flattened -/

/-- Files of one (possibly unreadable) day listing. -/
def flatDay (sub : Option (List DEnt)) : List (RKey × String × Content) :=
  match sub with
  | none => []
  | some l => collectDayFiles l

/-- Files of a month directory in visit order. -/
def flatMonth (sub : Option (List MEnt)) : List (RKey × String × Content) :=
  match sub with
  | none => []
  | some ml => (collectDays ml).flatMap fun p => flatDay p.2

/-- Files of a year directory in visit order. -/
def flatYear (sub : Option (List YEnt)) : List (RKey × String × Content) :=
  match sub with
  | none => []
  | some yl => (collectMonths yl).flatMap fun p => flatMonth p.2

/-- All decodable files of the tree in the exact order the traversal
visits them (shards descending, files descending within a day). -/
def visitAll (rents : List REnt) : List (RKey × String × Content) :=
  (collectYears rents).flatMap fun p => flatYear p.2

/-- The keys of the visit order. -/
def visitKeys (rents : List REnt) : List RKey := (visitAll rents).map (·.1)

/-! ## Day-size bounds (for the scan cap) -/

/-- Number of decoded files in one day listing. -/
def dayCount (sub : Option (List DEnt)) : Nat := (flatDay sub).length

/-- Largest day size below a month directory. -/
def maxDayM (sub : Option (List MEnt)) : Nat :=
  match sub with
  | none => 0
  | some ml => (collectDays ml).foldr (fun p m => max (dayCount p.2) m) 0

/-- Largest day size below a year directory. -/
def maxDayY (sub : Option (List YEnt)) : Nat :=
  match sub with
  | none => 0
  | some yl => (collectMonths yl).foldr (fun p m => max (maxDayM p.2) m) 0

/-- Largest day size in the tree ("one day's worth of files"). -/
def maxDayR (rents : List REnt) : Nat :=
  (collectYears rents).foldr (fun p m => max (maxDayY p.2) m) 0

/-! ## The traversal invariant -/

/-- The anchor filter: with no anchor every key is kept; with an anchor
only keys strictly smaller than it are. -/
def keepB (anchor : Option RKey) (k : RKey) : Bool :=
  match anchor with
  | none => true
  | some a => keyLt k a

/-- Invariant of the traversal state after the files with keys `doneK`
(in visit order) have been scanned: the scan counter equals the number of
scanned files; `anchorPassed` is sound; the items are exactly the first
`page_size` kept keys among the scanned ones (each item re-decoding to
its key); and a stop happened only with a full page or a reached cap. -/
def TravInv {J : Type} (ps : Nat) (anchor : Option RKey) (doneK : List RKey)
    (s : TravSt J) : Prop :=
  s.scanned = doneK.length ∧
  (anchor = none → s.anchorPassed = true) ∧
  (s.anchorPassed = true → anchor = none ∨ ∃ k ∈ doneK, keepB anchor k = true) ∧
  s.items.map (fun it => parseRollName it.name) =
    ((doneK.filter (keepB anchor)).take ps).map some ∧
  (s.stop = true →
    ps ≤ (doneK.filter (keepB anchor)).length ∨ MAX_SCAN_FILES ≤ s.scanned)

/-! ## Equality of trees up to directory-enumeration order (for C8) -/

/-- Lists equal up to permutation, with elements compared by `R`. -/
def permMod {α : Type} (R : α → α → Prop) (l₁ l₂ : List α) : Prop :=
  ∃ l', l₁.Perm l' ∧ List.Forall₂ R l' l₂

/-- Relate two `Option`s componentwise. -/
def optRel {α : Type} (R : α → α → Prop) : Option α → Option α → Prop
  | none, none => True
  | some a, some b => R a b
  | _, _ => False

/-- Month entries equal up to enumeration order of the day listing. -/
def MEq : MEnt → MEnt → Prop
  | .dir n₁ s₁, .dir n₂ s₂ => n₁ = n₂ ∧ optRel (permMod Eq) s₁ s₂
  | .file n₁, .file n₂ => n₁ = n₂
  | _, _ => False

/-- Year entries equal up to enumeration order below. -/
def YEq : YEnt → YEnt → Prop
  | .dir n₁ s₁, .dir n₂ s₂ => n₁ = n₂ ∧ optRel (permMod MEq) s₁ s₂
  | .file n₁, .file n₂ => n₁ = n₂
  | _, _ => False

/-- Root entries equal up to enumeration order below. -/
def REq : REnt → REnt → Prop
  | .dir n₁ s₁, .dir n₂ s₂ => n₁ = n₂ ∧ optRel (permMod YEq) s₁ s₂
  | .file n₁, .file n₂ => n₁ = n₂
  | _, _ => False

/-- Whole request inputs equal up to enumeration order at every level:
same root contents, every directory listed in an arbitrary order. -/
def rootsEquiv : Option (Option (List REnt)) → Option (Option (List REnt)) → Prop :=
  optRel (optRel (permMod REq))

/-- Two collected day shards whose listings evaluate to the same sorted
file list (the only way the traversal consumes them). -/
def DayRel (p q : Nat × Option (List DEnt)) : Prop :=
  p.1 = q.1 ∧ p.2.map collectDayFiles = q.2.map collectDayFiles

/-- Two collected month shards whose collected day shards are `DayRel`
pointwise. -/
def MonRel (p q : Nat × Option (List MEnt)) : Prop :=
  p.1 = q.1 ∧
    optRel (fun m₁ m₂ => List.Forall₂ DayRel (collectDays m₁) (collectDays m₂)) p.2 q.2

/-- Two collected year shards whose collected month shards are `MonRel`
pointwise. -/
def YrRel (p q : Nat × Option (List YEnt)) : Prop :=
  p.1 = q.1 ∧
    optRel (fun y₁ y₂ => List.Forall₂ MonRel (collectMonths y₁) (collectMonths y₂)) p.2 q.2

end SessionList

namespace ConfigEdit

/-!
Model of `persist_overrides` (`config_edit.rs`).  The parsed document
type, the toml parser/serializer and the override application are
parameters: `toml_edit`, `crate::config` and the concrete override list
are external to the claim, which is about the I/O protocol.  The
filesystem is reduced to the two locations the function touches: the
target `config.toml` and the temporary file.
-/

/-- Contents of the two file locations involved. -/
structure CfgSt where
  config : Option String
  tmp : Option String
deriving DecidableEq

/-- The effectful steps `persist_overrides` performs after the document
is ready: create the temp file in the same directory, write the full
serialized document to it, rename it over `config.toml`. -/
inductive FsOp where
  | createTmp
  | writeTmp (content : String)
  | renameTmpOverConfig
deriving DecidableEq

/-- Effect of one step on the filesystem. -/
def opApply (st : CfgSt) : FsOp → CfgSt
  | .createTmp => ⟨st.config, some ""⟩
  | .writeTmp c => ⟨st.config, some c⟩
  | .renameTmpOverConfig => ⟨st.tmp, none⟩

/-- Run a sequence of steps. -/
def runOps (st : CfgSt) (ops : List FsOp) : CfgSt := ops.foldl opApply st

/-- Modelled from the spec and the source's read/parse phase
(`std::fs::read_to_string` + `DocumentMut` parse; `toml_edit` is
external): a transient read failure or a parse failure is an error; a
missing file yields a fresh empty document. -/
def loadDoc {Doc : Type} (parseToml : String → Option Doc) (newDoc : Doc)
    (readFails : Bool) (config : Option String) : Except Unit Doc :=
  if readFails then .error ()
  else match config with
    | some s =>
      match parseToml s with
      | some d => .ok d
      | none => .error ()
    | none => .ok newDoc

/-- The step sequence `persist_overrides` emits: nothing on a read/parse
error, else temp-file-then-rename of the updated serialized document. -/
def persistOps {Doc : Type} (parseToml : String → Option Doc) (newDoc : Doc)
    (applyOv : Doc → Doc) (serialize : Doc → String)
    (readFails : Bool) (config : Option String) : Except Unit (List FsOp) :=
  (loadDoc parseToml newDoc readFails config).map fun d =>
    [.createTmp, .writeTmp (serialize (applyOv d)), .renameTmpOverConfig]

/-- Full run: the result together with the final filesystem state
(starting with no temp file present). -/
def persistRun {Doc : Type} (parseToml : String → Option Doc) (newDoc : Doc)
    (applyOv : Doc → Doc) (serialize : Doc → String)
    (readFails : Bool) (config : Option String) : Except Unit Unit × CfgSt :=
  match persistOps parseToml newDoc applyOv serialize readFails config with
  | .error e => (.error e, ⟨config, none⟩)
  | .ok ops => (.ok (), runOps ⟨config, none⟩ ops)

end ConfigEdit

namespace Fx

/-! Concrete inputs used by the witness theorems. -/

open SessionList

/-- A concrete stand-in line parser for witnesses (numeric JSON scalars). -/
def pjNum (s : String) : Option Nat := parseRustUInt 1000000000 s

/-- Name of the newer rollout file of the witness tree. -/
def n1 : String := "rollout-2024-01-02T10-00-00-aaaaaaaa-aaaa-aaaa-aaaa-aaaaaaaaaaab.jsonl"

/-- Name of the older rollout file of the witness tree. -/
def n2 : String := "rollout-2024-01-02T09-00-00-aaaaaaaa-aaaa-aaaa-aaaa-aaaaaaaaaaaa.jsonl"

/-- The key `n1` encodes. -/
def key1 : RKey := ⟨⟨2024, 1, 2, 10, 0, 0⟩, 0xaaaaaaaaaaaaaaaaaaaaaaaaaaaaaaab⟩

/-- The key `n2` encodes. -/
def key2 : RKey := ⟨⟨2024, 1, 2, 9, 0, 0⟩, 0xaaaaaaaaaaaaaaaaaaaaaaaaaaaaaaaa⟩

/-- Newer rollout file of the witness tree. -/
def f1 : DEnt := .file n1 (some [some "1"])

/-- Older rollout file of the witness tree. -/
def f2 : DEnt := .file n2 (some [some "2"])

/-- Day shard `02` holding both files (enumerated oldest first). -/
def day2 : MEnt := .dir "02" (some [f2, f1])

/-- Month shard `01`. -/
def mon1 : YEnt := .dir "01" (some [day2])

/-- Year shard `2024`. -/
def yr : REnt := .dir "2024" (some [mon1])

/-- The witness root listing. -/
def rents : List REnt := [yr]

/-- The same tree with the day listing enumerated in the other order. -/
def rentsB : List REnt :=
  [.dir "2024" (some [.dir "01" (some [.dir "02" (some [f1, f2])])])]

/-- The cursor produced by a one-item first page on the witness tree. -/
def cursor1 : String := "2024-01-02T10-00-00|aaaaaaaa-aaaa-aaaa-aaaa-aaaaaaaaaaab"

/-- The cursor a full first page on the witness tree ends with. -/
def cursor2 : String := "2024-01-02T09-00-00|aaaaaaaa-aaaa-aaaa-aaaa-aaaaaaaaaaaa"

/-- The page the witness tree yields at page size 5 with no cursor. -/
def page1 : Page Nat := ⟨[⟨n1, [1]⟩, ⟨n2, [2]⟩], some cursor2, 2, false⟩

end Fx

namespace SessionList

/-! # Lemmas -/

/-! ## Digits, hex digits, formatting -/

theorem digVal_lt {c : Char} (h : isDigitCh c = true) : digVal c ≤ 9 := by
  unfold isDigitCh at h
  simp only [Bool.and_eq_true, decide_eq_true_eq] at h
  unfold digVal
  omega

theorem digCh_isDigit {n : Nat} (h : n < 10) : isDigitCh (digCh n) = true := by
  interval_cases n <;> decide

theorem digVal_digCh {n : Nat} (h : n < 10) : digVal (digCh n) = n := by
  interval_cases n <;> decide

theorem hexVal_lt {c : Char} (h : isHexCh c = true) : hexVal c ≤ 15 := by
  unfold isHexCh at h
  unfold hexVal
  simp only [Bool.or_eq_true, Bool.and_eq_true, decide_eq_true_eq] at h ⊢
  split_ifs with h1 h2 <;> omega

theorem hexCh_isHex {n : Nat} (h : n < 16) : isHexCh (hexCh n) = true := by
  interval_cases n <;> decide

theorem hexVal_hexCh {n : Nat} (h : n < 16) : hexVal (hexCh n) = n := by
  interval_cases n <;> decide

/-! ## Timestamp validity, ordering, injectivity -/

theorem daysInMonth_le (y m : Nat) : daysInMonth y m ≤ 31 := by
  unfold daysInMonth
  split
  · split <;> omega
  · split <;> omega

theorem ts_valid_bounds {t : Ts} (h : t.valid = true) :
    t.year ≤ 9999 ∧ 1 ≤ t.month ∧ t.month ≤ 12 ∧ 1 ≤ t.day ∧ t.day ≤ 31 ∧
      t.hour ≤ 23 ∧ t.minute ≤ 59 ∧ t.second ≤ 59 := by
  have hd := daysInMonth_le t.year t.month
  unfold Ts.valid at h
  simp only [Bool.and_eq_true, decide_eq_true_eq] at h
  omega

theorem ts_key_lt_shard {a b : Ts} (ha : a.valid = true) (hb : b.valid = true)
    (h : a.year < b.year ∨ (a.year = b.year ∧ a.month < b.month) ∨
      (a.year = b.year ∧ a.month = b.month ∧ a.day < b.day)) :
    a.key < b.key := by
  have h1 := ts_valid_bounds ha
  have h2 := ts_valid_bounds hb
  unfold Ts.key
  omega

theorem ts_key_inj {a b : Ts} (ha : a.valid = true) (hb : b.valid = true)
    (h : a.key = b.key) : a = b := by
  have h1 := ts_valid_bounds ha
  have h2 := ts_valid_bounds hb
  unfold Ts.key at h
  obtain ⟨y1, mo1, d1, hr1, mi1, s1⟩ := a
  obtain ⟨y2, mo2, d2, hr2, mi2, s2⟩ := b
  simp only at h1 h2 h
  simp only [Ts.mk.injEq]
  omega

/-! ## Rollout-key ordering through the single-number code -/

theorem keyLt_iff_code {a b : RKey} (ha : ValidKey a) (hb : ValidKey b) :
    keyLt a b = true ↔ a.code < b.code := by
  obtain ⟨-, ha2⟩ := ha
  obtain ⟨-, hb2⟩ := hb
  unfold keyLt RKey.code
  simp only [Bool.or_eq_true, Bool.and_eq_true, decide_eq_true_eq, beq_iff_eq]
  have hp : (2 : Nat) ^ 128 = 340282366920938463463374607431768211456 := by norm_num
  rw [hp] at *
  omega

theorem code_inj {a b : RKey} (ha : ValidKey a) (hb : ValidKey b)
    (h : a.code = b.code) : a = b := by
  obtain ⟨ha1, ha2⟩ := ha
  obtain ⟨hb1, hb2⟩ := hb
  unfold RKey.code at h
  have hp : (2 : Nat) ^ 128 = 340282366920938463463374607431768211456 := by norm_num
  rw [hp] at h ha2 hb2
  have hts : a.ts.key = b.ts.key := by omega
  have hid : a.id = b.id := by omega
  obtain ⟨ats, aid⟩ := a
  obtain ⟨bts, bid⟩ := b
  simp only at hts hid ha1 hb1
  simp only [RKey.mk.injEq]
  exact ⟨ts_key_inj ha1 hb1 hts, hid⟩

end SessionList

namespace SessionList

/-! ## Hex-group parser: specification and round trips -/

theorem parseHexN_spec : ∀ {n : Nat} {cs : List Char} {v : Nat} {r : List Char},
    parseHexN n cs = some (v, r) →
      v < 16 ^ n ∧ ∃ t, cs = t ++ r ∧ t.length = n ∧ ∀ c ∈ t, isHexCh c = true := by
  intro n
  induction n with
  | zero =>
    intro cs v r h
    unfold parseHexN at h
    simp only [Option.some.injEq, Prod.mk.injEq] at h
    obtain ⟨hv, hr⟩ := h
    subst hv hr
    exact ⟨by norm_num, [], rfl, rfl, by simp⟩
  | succ n ih =>
    intro cs v r h
    match cs with
    | [] => simp [parseHexN] at h
    | c :: cs' =>
      unfold parseHexN at h
      split at h
      · rename_i hc
        simp only [Option.map_eq_some'] at h
        obtain ⟨⟨v', r'⟩, hp, he⟩ := h
        simp only [Prod.mk.injEq] at he
        obtain ⟨hv, hr⟩ := he
        subst hv hr
        obtain ⟨hb, t, hcs, hlen, hhex⟩ := ih hp
        refine ⟨?_, c :: t, by simp [hcs], by simp [hlen], ?_⟩
        · have := hexVal_lt hc
          have h16 : 16 ^ (n + 1) = 16 * 16 ^ n := by ring
          have hpow : 0 < (16 : Nat) ^ n := Nat.pos_pow_of_pos n (by norm_num)
          nlinarith
        · intro d hd
          rcases List.mem_cons.mp hd with h | h
          · subst h; exact hc
          · exact hhex d h
      · exact absurd h (by simp)

theorem parseHexN_zero (cs : List Char) : parseHexN 0 cs = some (0, cs) := rfl

theorem parseHexN_succ_nil (n : Nat) : parseHexN (n + 1) [] = none := rfl

theorem parseHexN_succ_cons (n : Nat) (c : Char) (cs : List Char) :
    parseHexN (n + 1) (c :: cs) =
      if isHexCh c then (parseHexN n cs).map fun p => (hexVal c * 16 ^ n + p.1, p.2)
      else none := rfl

theorem parseHexN_toHex {w v : Nat} (hv : v < 16 ^ w) (rest : List Char) :
    parseHexN w (toHexN w v ++ rest) = some (v, rest) := by
  induction w generalizing v with
  | zero =>
    simp only [Nat.pow_zero, Nat.lt_one_iff] at hv
    subst hv
    rfl
  | succ w ih =>
    have hdiv : v / 16 ^ w < 16 := by
      have h16 : (16 : Nat) ^ (w + 1) = 16 ^ w * 16 := by ring
      rw [h16] at hv
      exact Nat.div_lt_of_lt_mul hv
    have hmod : v % 16 ^ w < 16 ^ w :=
      Nat.mod_lt _ (Nat.pos_pow_of_pos w (by norm_num))
    unfold toHexN
    simp only [List.cons_append]
    rw [parseHexN_succ_cons, if_pos (hexCh_isHex hdiv), ih hmod]
    simp only [Option.map_some', Option.some.injEq, Prod.mk.injEq]
    rw [hexVal_hexCh hdiv]
    exact ⟨Nat.div_add_mod' v (16 ^ w), trivial⟩

theorem parseHexN_split {m : Nat} : ∀ (n : Nat) (cs : List Char),
    parseHexN (n + m) cs =
      (parseHexN n cs).bind fun p =>
        (parseHexN m p.2).map fun q => (p.1 * 16 ^ m + q.1, q.2) := by
  intro n
  induction n with
  | zero =>
    intro cs
    rw [Nat.zero_add, parseHexN_zero]
    simp only [Option.some_bind]
    cases h : parseHexN m cs with
    | none => rfl
    | some q => simp
  | succ n ih =>
    intro cs
    match cs with
    | [] =>
      rw [Nat.succ_add, parseHexN_succ_nil, parseHexN_succ_nil]
      rfl
    | c :: cs' =>
      rw [Nat.succ_add, parseHexN_succ_cons, parseHexN_succ_cons]
      by_cases hc : isHexCh c = true
      · rw [if_pos hc, if_pos hc, ih cs']
        cases h : parseHexN n cs' with
        | none => rfl
        | some p =>
          simp only [Option.some_bind, Option.map_some']
          cases h2 : parseHexN m p.2 with
          | none => rfl
          | some q =>
            simp only [Option.map_some', Option.some.injEq, Prod.mk.injEq]
            refine ⟨?_, trivial⟩
            rw [Nat.pow_add]
            ring
      · rw [if_neg hc, if_neg hc]
        rfl

end SessionList

namespace SessionList

/-! ## String-utility inversions -/

theorem expectCh_eq_some {c : Char} {cs r : List Char} :
    expectCh c cs = some r ↔ cs = c :: r := by
  cases cs with
  | nil => simp [expectCh]
  | cons d cs' =>
    simp only [expectCh, List.cons.injEq]
    split <;> rename_i h <;> simp [h]

theorem stripPre_iff {p cs r : List Char} : stripPre p cs = some r ↔ cs = p ++ r := by
  induction p generalizing cs with
  | nil => simp [stripPre]
  | cons x p' ih =>
    cases cs with
    | nil => simp [stripPre]
    | cons c cs' =>
      simp only [stripPre, List.cons_append, List.cons.injEq]
      split <;> rename_i h
      · subst h; rw [ih]; simp
      · simp [h]

/-! ## UUID shape inversions -/

theorem hexNoHyph {t : List Char} (h : ∀ c ∈ t, isHexCh c = true) :
    ∀ c ∈ t, c ≠ '-' := by
  intro c hc he
  subst he
  exact absurd (h _ hc) (by decide)

theorem split_avoid : ∀ (t rest xs ys : List Char), (∀ c ∈ t, c ≠ '-') →
    t ++ rest = xs ++ '-' :: ys → ∃ xs', xs = t ++ xs' ∧ rest = xs' ++ '-' :: ys := by
  intro t
  induction t with
  | nil =>
    intro rest xs ys _ h
    exact ⟨xs, rfl, h⟩
  | cons c t' ih =>
    intro rest xs ys hav h
    match xs with
    | [] =>
      simp only [List.cons_append, List.nil_append] at h
      have hc : c = '-' := by injection h
      exact absurd hc (hav c (by simp))
    | x :: xs'' =>
      simp only [List.cons_append] at h
      injection h with h1 h2
      subst h1
      obtain ⟨xs', hxs, hrest⟩ := ih rest xs'' ys (fun d hd => hav d (by simp [hd])) h2
      exact ⟨xs', by simp [hxs], hrest⟩

theorem step_split {t R xs ys : List Char} (hhex : ∀ c ∈ t, isHexCh c = true)
    (h : t ++ '-' :: R = xs ++ '-' :: ys) :
    ys = R ∨ ∃ xs', R = xs' ++ '-' :: ys := by
  obtain ⟨xs', hxs, hr⟩ := split_avoid t _ xs ys (hexNoHyph hhex) h
  match xs' with
  | [] =>
    left
    simp only [List.nil_append] at hr
    injection hr with _ h2
    exact h2.symm
  | y :: xs'' =>
    right
    simp only [List.cons_append] at hr
    injection hr with _ h2
    exact ⟨xs'', h2⟩

theorem parseUuidHyphRest_spec {cs : List Char} {v : Nat} {r : List Char}
    (h : parseUuidHyphRest cs = some (v, r)) :
    v < 2 ^ 128 ∧ ∃ t1 t2 t3 t4 t5 : List Char,
      cs = t1 ++ '-' :: (t2 ++ '-' :: (t3 ++ '-' :: (t4 ++ '-' :: (t5 ++ r)))) ∧
      t1.length = 8 ∧ t2.length = 4 ∧ t3.length = 4 ∧ t4.length = 4 ∧ t5.length = 12 ∧
      (∀ c ∈ t1, isHexCh c = true) ∧ (∀ c ∈ t2, isHexCh c = true) ∧
      (∀ c ∈ t3, isHexCh c = true) ∧ (∀ c ∈ t4, isHexCh c = true) ∧
      (∀ c ∈ t5, isHexCh c = true) := by
  unfold parseUuidHyphRest at h
  simp only [Option.bind_eq_bind, Option.bind_eq_some] at h
  obtain ⟨⟨a, cs1⟩, h1, h⟩ := h
  obtain ⟨cs2, h2, h⟩ := h
  obtain ⟨⟨b, cs3⟩, h3, h⟩ := h
  obtain ⟨cs4, h4, h⟩ := h
  obtain ⟨⟨g, cs5⟩, h5, h⟩ := h
  obtain ⟨cs6, h6, h⟩ := h
  obtain ⟨⟨d, cs7⟩, h7, h⟩ := h
  obtain ⟨cs8, h8, h⟩ := h
  obtain ⟨⟨e, cs9⟩, h9, h⟩ := h
  simp only [Option.some.injEq, Prod.mk.injEq] at h
  obtain ⟨hv, hr⟩ := h
  subst hr
  obtain ⟨ha, t1, hcs, hl1, hx1⟩ := parseHexN_spec h1
  obtain ⟨hb, t2, hcs2, hl2, hx2⟩ := parseHexN_spec h3
  obtain ⟨hg, t3, hcs3, hl3, hx3⟩ := parseHexN_spec h5
  obtain ⟨hd, t4, hcs4, hl4, hx4⟩ := parseHexN_spec h7
  obtain ⟨he, t5, hcs5, hl5, hx5⟩ := parseHexN_spec h9
  rw [expectCh_eq_some] at h2 h4 h6 h8
  subst hcs h2 hcs2 h4 hcs3 h6 hcs4 h8 hcs5
  constructor
  · subst hv
    have p4 : (16 : Nat) ^ 4 = 65536 := by norm_num
    have p8 : (16 : Nat) ^ 8 = 4294967296 := by norm_num
    have p12 : (16 : Nat) ^ 12 = 281474976710656 := by norm_num
    have p128 : (2 : Nat) ^ 128 = 340282366920938463463374607431768211456 := by norm_num
    rw [p4] at hb hg hd
    rw [p8] at ha
    rw [p12] at he
    rw [p4, p12, p128]
    omega
  · exact ⟨t1, t2, t3, t4, t5, rfl, hl1, hl2, hl3, hl4, hl5, hx1, hx2, hx3, hx4, hx5⟩

theorem parseUuidHyph_spec {cs : List Char} {v : Nat}
    (h : parseUuidHyph cs = some v) : parseUuidHyphRest cs = some (v, []) := by
  unfold parseUuidHyph at h
  simp only [Option.bind_eq_bind, Option.bind_eq_some] at h
  obtain ⟨⟨v', rest⟩, h1, h2⟩ := h
  match rest with
  | [] =>
    simp only [Option.some.injEq] at h2
    subst h2
    exact h1
  | _ :: _ => simp at h2

theorem parseUuidSimple_spec {cs : List Char} {v : Nat}
    (h : parseUuidSimple cs = some v) :
    v < 2 ^ 128 ∧ cs.length = 32 ∧ ∀ c ∈ cs, isHexCh c = true := by
  unfold parseUuidSimple at h
  simp only [Option.bind_eq_bind, Option.bind_eq_some] at h
  obtain ⟨⟨v', rest⟩, h1, h2⟩ := h
  match rest with
  | [] =>
    simp only [Option.some.injEq] at h2
    subst h2
    obtain ⟨hb, t, hcs, hlen, hhex⟩ := parseHexN_spec h1
    rw [List.append_nil] at hcs
    subst hcs
    have : (16 : Nat) ^ 32 = 2 ^ 128 := by norm_num
    exact ⟨this ▸ hb, hlen, hhex⟩
  | _ :: _ => simp at h2

theorem parseUuidBraced_spec {cs : List Char} {v : Nat}
    (h : parseUuidBraced cs = some v) :
    ∃ cs', cs = '{' :: cs' ∧ parseUuidHyphRest cs' = some (v, ['}']) := by
  unfold parseUuidBraced at h
  simp only [Option.bind_eq_bind, Option.bind_eq_some] at h
  obtain ⟨cs', h1, h⟩ := h
  rw [expectCh_eq_some] at h1
  obtain ⟨⟨v', rest⟩, h2, h3⟩ := h
  refine ⟨cs', h1, ?_⟩
  match rest with
  | ['}'] =>
    simp only [Option.some.injEq] at h3
    subst h3
    exact h2
  | [] => simp at h3
  | c :: d :: t => simp at h3
  | [c] =>
    by_cases hc : c = '}'
    · subst hc
      simp only [Option.some.injEq] at h3
      subst h3
      exact h2
    · exact absurd h3 (by simp [hc])

theorem parseUuidUrn_spec {cs : List Char} {v : Nat}
    (h : parseUuidUrn cs = some v) :
    ∃ cs', cs = "urn:uuid:".data ++ cs' ∧ parseUuidHyph cs' = some v := by
  unfold parseUuidUrn at h
  simp only [Option.bind_eq_bind, Option.bind_eq_some] at h
  obtain ⟨cs', h1, h2⟩ := h
  rw [stripPre_iff] at h1
  exact ⟨cs', h1, h2⟩

theorem uuidParse_lt {cs : List Char} {v : Nat} (h : uuidParse cs = some v) :
    v < 2 ^ 128 := by
  unfold uuidParse at h
  simp only [Option.or_eq_some] at h
  rcases h with h | ⟨-, h | ⟨-, h | ⟨-, h⟩⟩⟩
  · exact (parseUuidSimple_spec h).1
  · exact (parseUuidHyphRest_spec (parseUuidHyph_spec h)).1
  · obtain ⟨cs', -, h2⟩ := parseUuidBraced_spec h
    exact (parseUuidHyphRest_spec h2).1
  · obtain ⟨cs', -, h2⟩ := parseUuidUrn_spec h
    exact (parseUuidHyphRest_spec (parseUuidHyph_spec h2)).1

theorem uuidParse_length {cs : List Char} {v : Nat} (h : uuidParse cs = some v) :
    cs.length = 32 ∨ cs.length = 36 ∨ cs.length = 38 ∨ cs.length = 45 := by
  unfold uuidParse at h
  simp only [Option.or_eq_some] at h
  rcases h with h | ⟨-, h | ⟨-, h | ⟨-, h⟩⟩⟩
  · exact Or.inl (parseUuidSimple_spec h).2.1
  · obtain ⟨-, t1, t2, t3, t4, t5, hcs, hl1, hl2, hl3, hl4, hl5, -⟩ :=
      parseUuidHyphRest_spec (parseUuidHyph_spec h)
    subst hcs
    simp [List.length_append, hl1, hl2, hl3, hl4, hl5]
  · obtain ⟨cs', hcs, h2⟩ := parseUuidBraced_spec h
    obtain ⟨-, t1, t2, t3, t4, t5, hcs2, hl1, hl2, hl3, hl4, hl5, -⟩ :=
      parseUuidHyphRest_spec h2
    subst hcs hcs2
    simp [List.length_append, hl1, hl2, hl3, hl4, hl5]
  · obtain ⟨cs', hcs, h2⟩ := parseUuidUrn_spec h
    obtain ⟨-, t1, t2, t3, t4, t5, hcs2, hl1, hl2, hl3, hl4, hl5, -⟩ :=
      parseUuidHyphRest_spec (parseUuidHyph_spec h2)
    subst hcs hcs2
    simp [List.length_append, hl1, hl2, hl3, hl4, hl5]

end SessionList

namespace SessionList

/-! ## No hyphen-tail of a UUID string is itself a UUID string -/

theorem hyphRest_split {cs : List Char} {v : Nat} {r xs ys : List Char}
    (h : parseUuidHyphRest cs = some (v, r)) (hsplit : cs = xs ++ '-' :: ys) :
    ys.length = 27 + r.length ∨ ys.length = 22 + r.length ∨
      ys.length = 17 + r.length ∨ ys.length = 12 + r.length ∨
      ∃ xs', r = xs' ++ '-' :: ys := by
  obtain ⟨-, t1, t2, t3, t4, t5, hcs, hl1, hl2, hl3, hl4, hl5, hx1, hx2, hx3, hx4, hx5⟩ :=
    parseUuidHyphRest_spec h
  rw [hcs] at hsplit
  rcases step_split hx1 hsplit with he | ⟨xs1, hs1⟩
  · subst he
    simp only [List.length_append, List.length_cons, hl2, hl3, hl4, hl5]
    omega
  · rcases step_split hx2 hs1 with he | ⟨xs2, hs2⟩
    · subst he
      simp only [List.length_append, List.length_cons, hl3, hl4, hl5]
      omega
    · rcases step_split hx3 hs2 with he | ⟨xs3, hs3⟩
      · subst he
        simp only [List.length_append, List.length_cons, hl4, hl5]
        omega
      · rcases step_split hx4 hs3 with he | ⟨xs4, hs4⟩
        · subst he
          refine Or.inr (Or.inr (Or.inr (Or.inl ?_)))
          simp [List.length_append, hl5]
        · obtain ⟨xs5, -, hr⟩ := split_avoid t5 r xs4 ys (hexNoHyph hx5) hs4
          exact Or.inr (Or.inr (Or.inr (Or.inr ⟨xs5, hr⟩)))

theorem uuidParse_tail_none {xs ys : List Char} {u : Nat}
    (h : uuidParse (xs ++ '-' :: ys) = some u) : uuidParse ys = none := by
  cases hy : uuidParse ys with
  | none => rfl
  | some u' =>
    exfalso
    have hylen := uuidParse_length hy
    unfold uuidParse at h
    simp only [Option.or_eq_some] at h
    rcases h with h | ⟨-, h | ⟨-, h | ⟨-, h⟩⟩⟩
    · obtain ⟨-, -, hhex⟩ := parseUuidSimple_spec h
      exact absurd (hhex '-' (by simp)) (by decide)
    · have h2 := parseUuidHyph_spec h
      rcases hyphRest_split h2 rfl with hl | hl | hl | hl | ⟨xs', hr⟩
      · simp at hl; omega
      · simp at hl; omega
      · simp at hl; omega
      · simp at hl; omega
      · have := congrArg List.length hr
        simp at this
        omega
    · obtain ⟨cs', hcs, h2⟩ := parseUuidBraced_spec h
      match xs, hcs with
      | x :: xs0, hcs =>
        simp only [List.cons_append, List.cons.injEq] at hcs
        obtain ⟨hx, hcs'⟩ := hcs
        rcases hyphRest_split h2 hcs'.symm with hl | hl | hl | hl | ⟨xs', hr⟩
        · simp at hl; omega
        · simp at hl; omega
        · simp at hl; omega
        · simp at hl; omega
        · have := congrArg List.length hr
          simp at this
          omega
      | [], hcs =>
        simp only [List.nil_append, List.cons.injEq] at hcs
        exact absurd hcs.1 (by decide)
    · obtain ⟨cs', hcs, h2⟩ := parseUuidUrn_spec h
      have hpre : ∀ c ∈ "urn:uuid:".data, c ≠ '-' := by decide
      obtain ⟨xs', -, hr⟩ := split_avoid "urn:uuid:".data cs' xs ys hpre hcs.symm
      have h3 := parseUuidHyph_spec h2
      rcases hyphRest_split h3 hr with hl | hl | hl | hl | ⟨xs'', hrr⟩
      · simp at hl; omega
      · simp at hl; omega
      · simp at hl; omega
      · simp at hl; omega
      · have := congrArg List.length hrr
        simp at this
        omega

end SessionList

namespace SessionList

/-! ## Split membership and uniqueness of the UUID-valid split -/

theorem hyphSplits_mem : ∀ {cs : List Char} {p : List Char × List Char},
    p ∈ hyphSplits cs ↔ cs = p.1 ++ '-' :: p.2 := by
  intro cs
  induction cs with
  | nil =>
    intro p
    simp only [hyphSplits, List.not_mem_nil, false_iff]
    intro h
    have hl := congrArg List.length h
    simp only [List.length_nil, List.length_append, List.length_cons] at hl
    omega
  | cons c cs' ih =>
    intro p
    simp only [hyphSplits, List.mem_append, List.mem_map]
    constructor
    · rintro (h | ⟨q, hq, hmap⟩)
      · split at h
        · rename_i hc
          subst hc
          simp only [List.mem_singleton] at h
          subst h
          rfl
        · simp at h
      · subst hmap
        simp only [List.cons_append]
        rw [ih] at hq
        rw [← hq]
    · intro h
      match p, h with
      | (a, b), h =>
        match a with
        | [] =>
          simp only [List.nil_append] at h ⊢
          injection h with h1 h2
          subst h1 h2
          left
          simp
        | x :: a' =>
          simp only [List.cons_append] at h
          injection h with h1 h2
          subst h1
          right
          exact ⟨(a', b), ih.mpr h2, rfl⟩

theorem split_lt_tail {a₁ b₁ a₂ b₂ : List Char}
    (h : a₁ ++ '-' :: b₁ = a₂ ++ '-' :: b₂) (hlt : a₁.length < a₂.length) :
    ∃ z, b₁ = z ++ '-' :: b₂ := by
  induction a₁ generalizing a₂ with
  | nil =>
    match a₂ with
    | [] => simp at hlt
    | c :: a₂' =>
      simp only [List.nil_append, List.cons_append] at h
      injection h with h1 h2
      exact ⟨a₂', h2⟩
  | cons c a₁' ih =>
    match a₂ with
    | [] => simp at hlt
    | d :: a₂' =>
      simp only [List.cons_append] at h
      injection h with h1 h2
      exact ih h2 (by simpa using hlt)

theorem splits_uuid_unique {cs : List Char} {p q : List Char × List Char}
    (hp : p ∈ hyphSplits cs) (hq : q ∈ hyphSplits cs)
    (hup : (uuidParse p.2).isSome = true) (huq : (uuidParse q.2).isSome = true) :
    p = q := by
  rw [hyphSplits_mem] at hp hq
  obtain ⟨u₁, hu₁⟩ := Option.isSome_iff_exists.mp hup
  obtain ⟨u₂, hu₂⟩ := Option.isSome_iff_exists.mp huq
  rcases Nat.lt_trichotomy p.1.length q.1.length with hlt | heq | hgt
  · obtain ⟨z, hz⟩ := split_lt_tail (hp.symm.trans hq) hlt
    rw [hz] at hu₁
    exact absurd hu₂ (by simp [uuidParse_tail_none hu₁])
  · obtain ⟨h1, h2⟩ := List.append_inj (hp.symm.trans hq) heq
    injection h2 with _ h3
    obtain ⟨pa, pb⟩ := p
    obtain ⟨qa, qb⟩ := q
    simp only at h1 h3
    simp [h1, h3]
  · obtain ⟨z, hz⟩ := split_lt_tail (hq.symm.trans hp) hgt
    rw [hz] at hu₂
    exact absurd hu₁ (by simp [uuidParse_tail_none hu₂])

/-! ## The decode scan checks the timestamp only at the unique UUID-valid split -/

theorem findSome_split (L : List (List Char × List Char))
    (huniq : ∀ p ∈ L, ∀ q ∈ L,
      (uuidParse p.2).isSome = true → (uuidParse q.2).isSome = true → p = q) :
    ((L.findSome? fun p => (uuidParse p.2).map fun u => (p.1, u)).bind fun pu =>
        (parseTsChars pu.1).bind fun t => some (⟨t, pu.2⟩ : RKey)) =
      L.findSome? fun p => (uuidParse p.2).bind fun u =>
        (parseTsChars p.1).bind fun t => some (⟨t, u⟩ : RKey) := by
  induction L with
  | nil => rfl
  | cons p L' ih =>
    have huniq' : ∀ a ∈ L', ∀ b ∈ L',
        (uuidParse a.2).isSome = true → (uuidParse b.2).isSome = true → a = b :=
      fun a ha b hb h1 h2 => huniq a (by simp [ha]) b (by simp [hb]) h1 h2
    rw [List.findSome?_cons, List.findSome?_cons]
    cases hu : uuidParse p.2 with
    | none =>
      simp only [Option.map_none', Option.none_bind]
      exact ih huniq'
    | some u =>
      simp only [Option.map_some', Option.some_bind]
      cases ht : parseTsChars p.1 with
      | some t => simp [ht]
      | none =>
        simp only [ht, Option.none_bind]
        symm
        rw [List.findSome?_eq_none_iff]
        intro q hq
        cases hq2 : uuidParse q.2 with
        | none => simp [hq2]
        | some u₂ =>
          have hqp : q = p :=
            huniq q (by simp [hq]) p (by simp) (by simp [hq2]) (by simp [hu])
          subst hqp
          simp [hq2, ht]

theorem parseRollName_eq_spec (name : String) :
    parseRollName name = specRollDecode name := by
  unfold parseRollName specRollDecode
  simp only [Option.bind_eq_bind]
  cases h1 : stripPre "rollout-".data name.data with
  | none => simp
  | some a =>
    simp only [Option.some_bind]
    cases h2 : stripSuf ".jsonl".data a with
    | none => simp
    | some core =>
      simp only [Option.some_bind]
      exact findSome_split ((hyphSplits core).reverse) fun p hp q hq h1 h2 =>
        splits_uuid_unique (List.mem_reverse.mp hp) (List.mem_reverse.mp hq) h1 h2

end SessionList

namespace SessionList

/-! ## Validity of parsed timestamps, keys and cursors -/

theorem parseTsChars_valid {cs : List Char} {t : Ts}
    (h : parseTsChars cs = some t) : t.valid = true := by
  unfold parseTsChars at h
  split at h
  · simp only [Option.bind_eq_bind, Option.bind_eq_some] at h
    obtain ⟨y, -, h⟩ := h
    obtain ⟨mo, -, h⟩ := h
    obtain ⟨dy, -, h⟩ := h
    obtain ⟨hh, -, h⟩ := h
    obtain ⟨mi, -, h⟩ := h
    obtain ⟨sec, -, h⟩ := h
    split at h
    · rename_i hv
      injection h with h
      subst h
      exact hv
    · exact absurd h (by simp)
  · exact absurd h (by simp)

theorem parseRollName_valid {name : String} {k : RKey}
    (h : parseRollName name = some k) : ValidKey k := by
  unfold parseRollName at h
  simp only [Option.bind_eq_bind, Option.bind_eq_some] at h
  obtain ⟨a, -, h⟩ := h
  obtain ⟨core, -, h⟩ := h
  obtain ⟨pu, hfind, h⟩ := h
  obtain ⟨t, ht, h⟩ := h
  injection h with h
  subst h
  obtain ⟨p, -, hp⟩ := List.exists_of_findSome?_eq_some hfind
  simp only [Option.map_eq_some'] at hp
  obtain ⟨u, hu, he⟩ := hp
  have hid : pu.2 = u := by rw [← he]
  exact ⟨parseTsChars_valid ht, hid ▸ uuidParse_lt hu⟩

theorem parseCursor_valid {token : String} {k : RKey}
    (h : parseCursor token = some k) : ValidKey k := by
  unfold parseCursor at h
  simp only [Option.bind_eq_bind, Option.bind_eq_some] at h
  obtain ⟨pr, -, h⟩ := h
  obtain ⟨u, hu, h⟩ := h
  obtain ⟨t, ht, h⟩ := h
  injection h with h
  subst h
  exact ⟨parseTsChars_valid ht, uuidParse_lt hu⟩

/-! ## Round trip: format then parse -/

theorem d2_pad {n : Nat} (h : n ≤ 99) :
    d2 (digCh (n / 10 % 10)) (digCh (n % 10)) = some n := by
  have h1 : n / 10 % 10 < 10 := Nat.mod_lt _ (by norm_num)
  have h2 : n % 10 < 10 := Nat.mod_lt _ (by norm_num)
  unfold d2
  rw [digCh_isDigit h1, digCh_isDigit h2, digVal_digCh h1, digVal_digCh h2]
  simp only [Bool.and_self, if_true]
  congr 1
  omega

theorem d4_pad {n : Nat} (h : n ≤ 9999) :
    d4 (digCh (n / 1000 % 10)) (digCh (n / 100 % 10)) (digCh (n / 10 % 10))
      (digCh (n % 10)) = some n := by
  have h1 : n / 1000 % 10 < 10 := Nat.mod_lt _ (by norm_num)
  have h2 : n / 100 % 10 < 10 := Nat.mod_lt _ (by norm_num)
  have h3 : n / 10 % 10 < 10 := Nat.mod_lt _ (by norm_num)
  have h4 : n % 10 < 10 := Nat.mod_lt _ (by norm_num)
  unfold d4
  rw [digCh_isDigit h1, digCh_isDigit h2, digCh_isDigit h3, digCh_isDigit h4,
    digVal_digCh h1, digVal_digCh h2, digVal_digCh h3, digVal_digCh h4]
  simp only [Bool.and_self, if_true]
  congr 1
  omega

theorem parseTsChars_app (y1 y2 y3 y4 m1 m2 e1 e2 k1 k2 n1 n2 s1 s2 : Char) :
    parseTsChars [y1, y2, y3, y4, '-', m1, m2, '-', e1, e2, 'T', k1, k2, '-',
        n1, n2, '-', s1, s2] =
      (do
        let y ← d4 y1 y2 y3 y4
        let mo ← d2 m1 m2
        let dy ← d2 e1 e2
        let h ← d2 k1 k2
        let mi ← d2 n1 n2
        let s ← d2 s1 s2
        let t : Ts := ⟨y, mo, dy, h, mi, s⟩
        if t.valid then some t else none) := rfl

theorem parseTs_fmt {t : Ts} (h : t.valid = true) : parseTsChars t.fmt = some t := by
  obtain ⟨h1, h2, h3, h4, h5, h6, h7, h8⟩ := ts_valid_bounds h
  unfold Ts.fmt pad4 pad2
  simp only [List.cons_append, List.nil_append]
  rw [parseTsChars_app]
  rw [d4_pad h1, d2_pad (by omega : t.month ≤ 99), d2_pad (by omega : t.day ≤ 99),
    d2_pad (by omega : t.hour ≤ 99), d2_pad (by omega : t.minute ≤ 99),
    d2_pad (by omega : t.second ≤ 99)]
  simp only [Option.bind_eq_bind, Option.some_bind]
  rw [if_pos h]

theorem uuidFmt_no_bar {v : Nat} : ∀ c ∈ uuidFmt v, c ≠ '|' := by
  have hhex : ∀ w x : Nat, ∀ c ∈ toHexN w x, c ≠ '|' := by
    intro w
    induction w with
    | zero => intro x c hc; simp [toHexN] at hc
    | succ w ih =>
      intro x c hc
      simp only [toHexN, List.mem_cons] at hc
      rcases hc with hc | hc
      · subst hc
        rcases Nat.lt_or_ge (x / 16 ^ w) 16 with hlt | hge
        · intro hb
          have := hexCh_isHex hlt
          rw [hb] at this
          exact absurd this (by decide)
        · have : hexCh (x / 16 ^ w) = 'f' := by
            unfold hexCh
            repeat' split
            all_goals first | rfl | omega
          rw [this]
          decide
      · exact ih _ c hc
  intro c hc
  unfold uuidFmt at hc
  simp only [List.mem_append, List.mem_cons] at hc
  rcases hc with (((hc | hc | hc) | hc | hc) | hc | hc) | hc | hc
  · exact hhex _ _ c hc
  · subst hc; decide
  · exact hhex _ _ c hc
  · subst hc; decide
  · exact hhex _ _ c hc
  · subst hc; decide
  · exact hhex _ _ c hc
  · subst hc; decide
  · exact hhex _ _ c hc

end SessionList

namespace SessionList

/-! ## UUID format round trip -/

theorem expectCh_same (c : Char) (cs : List Char) : expectCh c (c :: cs) = some cs := by
  simp [expectCh]

theorem parseUuidHyphRest_fmt {v : Nat} (hv : v < 2 ^ 128) :
    parseUuidHyphRest (uuidFmt v) = some (v, []) := by
  have ha : v / 2 ^ 96 < 16 ^ 8 := by
    have h8 : (16 : Nat) ^ 8 = 2 ^ 32 := by norm_num
    rw [h8]
    omega
  have hb : v / 2 ^ 80 % 2 ^ 16 < 16 ^ 4 := by
    have h4 : (16 : Nat) ^ 4 = 2 ^ 16 := by norm_num
    rw [h4]
    exact Nat.mod_lt _ (by norm_num)
  have hg : v / 2 ^ 64 % 2 ^ 16 < 16 ^ 4 := by
    have h4 : (16 : Nat) ^ 4 = 2 ^ 16 := by norm_num
    rw [h4]
    exact Nat.mod_lt _ (by norm_num)
  have hd : v / 2 ^ 48 % 2 ^ 16 < 16 ^ 4 := by
    have h4 : (16 : Nat) ^ 4 = 2 ^ 16 := by norm_num
    rw [h4]
    exact Nat.mod_lt _ (by norm_num)
  have he : v % 2 ^ 48 < 16 ^ 12 := by
    have h12 : (16 : Nat) ^ 12 = 2 ^ 48 := by norm_num
    rw [h12]
    exact Nat.mod_lt _ (by norm_num)
  unfold uuidFmt parseUuidHyphRest
  simp only [List.append_assoc, List.cons_append]
  rw [parseHexN_toHex ha]
  simp only [Option.bind_eq_bind, Option.some_bind, expectCh_same]
  rw [parseHexN_toHex hb]
  simp only [Option.some_bind, expectCh_same]
  rw [parseHexN_toHex hg]
  simp only [Option.some_bind, expectCh_same]
  rw [parseHexN_toHex hd]
  simp only [Option.some_bind, expectCh_same]
  rw [show (toHexN 12 (v % 2 ^ 48) : List Char) = toHexN 12 (v % 2 ^ 48) ++ [] by simp]
  rw [parseHexN_toHex he]
  simp only [Option.some_bind, Option.some.injEq, Prod.mk.injEq]
  constructor
  · have p4 : (16 : Nat) ^ 4 = 65536 := by norm_num
    have p12 : (16 : Nat) ^ 12 = 281474976710656 := by norm_num
    rw [p4, p12]
    have q96 : (2 : Nat) ^ 96 = 79228162514264337593543950336 := by norm_num
    have q80 : (2 : Nat) ^ 80 = 1208925819614629174706176 := by norm_num
    have q64 : (2 : Nat) ^ 64 = 18446744073709551616 := by norm_num
    have q48 : (2 : Nat) ^ 48 = 281474976710656 := by norm_num
    have q16 : (2 : Nat) ^ 16 = 65536 := by norm_num
    have q128 : (2 : Nat) ^ 128 = 340282366920938463463374607431768211456 := by norm_num
    rw [q96, q80, q64, q48, q16] at *
    omega
  · trivial

theorem parseUuidSimple_fmt {v : Nat} (hv : v < 2 ^ 128) :
    parseUuidSimple (uuidFmt v) = none := by
  have ha : v / 2 ^ 96 < 16 ^ 8 := by
    have h8 : (16 : Nat) ^ 8 = 2 ^ 32 := by norm_num
    rw [h8]
    omega
  unfold parseUuidSimple uuidFmt
  simp only [List.append_assoc, List.cons_append]
  rw [show (32 : Nat) = 8 + 24 from rfl, parseHexN_split, parseHexN_toHex ha]
  simp only [Option.some_bind]
  rw [show (24 : Nat) = 23 + 1 from rfl, parseHexN_succ_cons, if_neg (by decide)]
  rfl

theorem uuidParse_fmt {v : Nat} (hv : v < 2 ^ 128) :
    uuidParse (uuidFmt v) = some v := by
  unfold uuidParse parseUuidHyph
  rw [parseUuidSimple_fmt hv]
  rw [parseUuidHyphRest_fmt hv]
  rfl

/-! ## Cursor round trip -/

theorem digCh_ne_bar (n : Nat) : digCh n ≠ '|' := by
  rcases n with _|_|_|_|_|_|_|_|_|n
  · decide
  · decide
  · decide
  · decide
  · decide
  · decide
  · decide
  · decide
  · decide
  · exact (by decide : ('9' : Char) ≠ '|')

theorem fmt_no_bar {t : Ts} : ∀ c ∈ t.fmt, c ≠ '|' := by
  intro c hc
  unfold Ts.fmt pad4 pad2 at hc
  simp only [List.append_assoc, List.cons_append, List.nil_append, List.mem_cons] at hc
  rcases hc with hc|hc|hc|hc|hc|hc|hc|hc|hc|hc|hc|hc|hc|hc|hc|hc|hc|hc|hc|hc
  all_goals first
    | (subst hc; apply digCh_ne_bar)
    | (subst hc; decide)
    | simp at hc

theorem splitOnceBar_app : ∀ {xs ys : List Char}, (∀ c ∈ xs, c ≠ '|') →
    splitOnceBar (xs ++ '|' :: ys) = some (xs, ys) := by
  intro xs
  induction xs with
  | nil =>
    intro ys _
    simp [splitOnceBar]
  | cons x xs' ih =>
    intro ys hx
    have hxb : x ≠ '|' := hx x (by simp)
    rw [show (x :: xs') ++ '|' :: ys = x :: (xs' ++ '|' :: ys) from rfl]
    rw [show splitOnceBar (x :: (xs' ++ '|' :: ys)) =
      (if x = '|' then some ([], xs' ++ '|' :: ys)
       else (splitOnceBar (xs' ++ '|' :: ys)).map fun p => (x :: p.1, p.2)) from rfl]
    rw [if_neg hxb, ih fun c hc => hx c (by simp [hc])]
    rfl

theorem parseCursor_encode {k : RKey} (hk : ValidKey k) :
    parseCursor (encodeCursor k) = some k := by
  obtain ⟨hts, hid⟩ := hk
  unfold parseCursor encodeCursor
  have hdata : (String.mk (k.ts.fmt ++ '|' :: uuidFmt k.id)).data =
      k.ts.fmt ++ '|' :: uuidFmt k.id := rfl
  rw [hdata, splitOnceBar_app fmt_no_bar]
  simp only [Option.bind_eq_bind, Option.some_bind]
  rw [uuidParse_fmt hid]
  simp only [Option.some_bind]
  rw [parseTs_fmt hts]
  rfl

end SessionList


namespace SessionList

/-! ## Reduced equations for the traversal loops -/

theorem exceptBind_ok {α β : Type} (x : α) (f : α → Except Unit β) :
    (Except.ok x : Except Unit α) >>= f = f x := rfl

theorem processDays_cons_none {J : Type} (pj : String → Option J) (ps : Nat) (a : RKey)
    (d : Nat) (rest : List (Nat × Option (List DEnt))) (s : TravSt J) :
    processDays pj ps a ((d, none) :: rest) s =
      if s.stop then .ok s
      else if MAX_SCAN_FILES ≤ s.scanned then .ok ⟨s.items, s.scanned, s.anchorPassed, true⟩
      else .error () := rfl

theorem processDays_cons_some {J : Type} (pj : String → Option J) (ps : Nat) (a : RKey)
    (d : Nat) (ents : List DEnt) (rest : List (Nat × Option (List DEnt))) (s : TravSt J) :
    processDays pj ps a ((d, some ents) :: rest) s =
      if s.stop then .ok s
      else if MAX_SCAN_FILES ≤ s.scanned then .ok ⟨s.items, s.scanned, s.anchorPassed, true⟩
      else processDays pj ps a rest (processDay pj ps a (collectDayFiles ents) s) := rfl

theorem processMonths_cons_none {J : Type} (pj : String → Option J) (ps : Nat) (a : RKey)
    (d : Nat) (rest : List (Nat × Option (List MEnt))) (s : TravSt J) :
    processMonths pj ps a ((d, none) :: rest) s =
      if s.stop then .ok s
      else if MAX_SCAN_FILES ≤ s.scanned then .ok ⟨s.items, s.scanned, s.anchorPassed, true⟩
      else .error () := rfl

theorem processMonths_cons_some {J : Type} (pj : String → Option J) (ps : Nat) (a : RKey)
    (d : Nat) (ml : List MEnt) (rest : List (Nat × Option (List MEnt))) (s : TravSt J) :
    processMonths pj ps a ((d, some ml) :: rest) s =
      if s.stop then .ok s
      else if MAX_SCAN_FILES ≤ s.scanned then .ok ⟨s.items, s.scanned, s.anchorPassed, true⟩
      else (processDays pj ps a (collectDays ml) s) >>= fun s' =>
        processMonths pj ps a rest s' := rfl

theorem processYears_cons_none {J : Type} (pj : String → Option J) (ps : Nat) (a : RKey)
    (d : Nat) (rest : List (Nat × Option (List YEnt))) (s : TravSt J) :
    processYears pj ps a ((d, none) :: rest) s =
      if s.stop then .ok s
      else if MAX_SCAN_FILES ≤ s.scanned then .ok ⟨s.items, s.scanned, s.anchorPassed, true⟩
      else .error () := rfl

theorem processYears_cons_some {J : Type} (pj : String → Option J) (ps : Nat) (a : RKey)
    (d : Nat) (yl : List YEnt) (rest : List (Nat × Option (List YEnt))) (s : TravSt J) :
    processYears pj ps a ((d, some yl) :: rest) s =
      if s.stop then .ok s
      else if MAX_SCAN_FILES ≤ s.scanned then .ok ⟨s.items, s.scanned, s.anchorPassed, true⟩
      else (processMonths pj ps a (collectMonths yl) s) >>= fun s' =>
        processYears pj ps a rest s' := rfl

theorem traverse_some {J : Type} (pj : String → Option J) (rents : List REnt)
    (ps : Nat) (anchor : Option RKey) :
    traverse pj (some rents) ps anchor =
      (processYears pj ps (anchor.getD nilKey) (collectYears rents)
        ⟨[], 0, anchor.isNone, false⟩).map fun s =>
          (⟨s.items, buildNextCursor s.items, s.scanned,
            decide (MAX_SCAN_FILES ≤ s.scanned)⟩ : Page J) := by
  have key : ∀ (x : Except Unit (TravSt J)),
      (x >>= fun s => Except.ok
        (⟨s.items, buildNextCursor s.items, s.scanned,
          decide (MAX_SCAN_FILES ≤ s.scanned)⟩ : Page J)) =
        x.map fun s => ⟨s.items, buildNextCursor s.items, s.scanned,
          decide (MAX_SCAN_FILES ≤ s.scanned)⟩ := by
    intro x
    cases x <;> rfl
  exact key _

end SessionList

namespace SessionList

/-! ## The traversal never errors on readable trees -/

theorem processDays_ok {J : Type} (pj : String → Option J) (ps : Nat) (a : RKey) :
    ∀ (l : List (Nat × Option (List DEnt))) (s : TravSt J),
      (∀ p ∈ l, p.2.isSome = true) →
      ∃ s', processDays pj ps a l s = .ok s' := by
  intro l
  induction l with
  | nil => exact fun s _ => ⟨s, rfl⟩
  | cons p rest ih =>
    intro s hok
    obtain ⟨d, sub⟩ := p
    obtain ⟨ents, hents⟩ := Option.isSome_iff_exists.mp (hok (d, sub) (by simp))
    subst hents
    rw [processDays_cons_some]
    by_cases hs : s.stop = true
    · exact ⟨s, by rw [if_pos hs]⟩
    · rw [if_neg hs]
      by_cases hc : MAX_SCAN_FILES ≤ s.scanned
      · exact ⟨_, by rw [if_pos hc]⟩
      · rw [if_neg hc]
        exact ih _ fun q hq => hok q (by simp [hq])

theorem processMonths_ok {J : Type} (pj : String → Option J) (ps : Nat) (a : RKey) :
    ∀ (l : List (Nat × Option (List MEnt))) (s : TravSt J),
      (∀ p ∈ l, optP (fun ml => ∀ q ∈ collectDays ml, q.2.isSome = true) p.2) →
      ∃ s', processMonths pj ps a l s = .ok s' := by
  intro l
  induction l with
  | nil => exact fun s _ => ⟨s, rfl⟩
  | cons p rest ih =>
    intro s hok
    obtain ⟨d, sub⟩ := p
    have hps := hok (d, sub) (by simp)
    match sub, hps with
    | some ml, hps =>
      rw [processMonths_cons_some]
      by_cases hs : s.stop = true
      · exact ⟨s, by rw [if_pos hs]⟩
      · rw [if_neg hs]
        by_cases hc : MAX_SCAN_FILES ≤ s.scanned
        · exact ⟨_, by rw [if_pos hc]⟩
        · rw [if_neg hc]
          obtain ⟨s1, hs1⟩ := processDays_ok pj ps a (collectDays ml) s hps
          rw [hs1, exceptBind_ok]
          exact ih _ fun q hq => hok q (by simp [hq])

theorem processYears_ok {J : Type} (pj : String → Option J) (ps : Nat) (a : RKey) :
    ∀ (l : List (Nat × Option (List YEnt))) (s : TravSt J),
      (∀ p ∈ l, optP AllOkY p.2) →
      ∃ s', processYears pj ps a l s = .ok s' := by
  intro l
  induction l with
  | nil => exact fun s _ => ⟨s, rfl⟩
  | cons p rest ih =>
    intro s hok
    obtain ⟨d, sub⟩ := p
    have hps := hok (d, sub) (by simp)
    match sub, hps with
    | some yl, hps =>
      rw [processYears_cons_some]
      by_cases hs : s.stop = true
      · exact ⟨s, by rw [if_pos hs]⟩
      · rw [if_neg hs]
        by_cases hc : MAX_SCAN_FILES ≤ s.scanned
        · exact ⟨_, by rw [if_pos hc]⟩
        · rw [if_neg hc]
          obtain ⟨s1, hs1⟩ := processMonths_ok pj ps a (collectMonths yl) s hps
          rw [hs1, exceptBind_ok]
          exact ih _ fun q hq => hok q (by simp [hq])

theorem traverse_ok {J : Type} (pj : String → Option J) (rents : List REnt)
    (ps : Nat) (anchor : Option RKey) (hok : AllOkR rents) :
    ∃ p, traverse pj (some rents) ps anchor = .ok p := by
  rw [traverse_some]
  obtain ⟨s', hs'⟩ :=
    processYears_ok pj ps (anchor.getD nilKey) (collectYears rents)
      ⟨[], 0, anchor.isNone, false⟩ hok
  rw [hs']
  exact ⟨_, rfl⟩

/-! ## Scanned-file accounting -/

theorem le_foldr_max {α : Type} (f : α → Nat) :
    ∀ (l : List α), ∀ x ∈ l, f x ≤ l.foldr (fun p m => max (f p) m) 0 := by
  intro l
  induction l with
  | nil => simp
  | cons y l' ih =>
    intro x hx
    rcases List.mem_cons.mp hx with h | h
    · subst h
      exact le_max_left _ _
    · exact le_trans (ih x h) (le_max_right _ _)

theorem stepFile_scanned {J : Type} (pj : String → Option J) (ps : Nat) (a : RKey)
    (s : TravSt J) (f : RKey × String × Content) :
    s.scanned ≤ (stepFile pj ps a s f).scanned ∧
      (stepFile pj ps a s f).scanned ≤ s.scanned + 1 := by
  unfold stepFile
  split_ifs <;> simp

theorem processDay_scanned {J : Type} (pj : String → Option J) (ps : Nat) (a : RKey) :
    ∀ (files : List (RKey × String × Content)) (s : TravSt J),
      s.scanned ≤ (processDay pj ps a files s).scanned ∧
        (processDay pj ps a files s).scanned ≤ s.scanned + files.length := by
  intro files
  induction files with
  | nil => exact fun s => ⟨le_refl _, by simp [processDay]⟩
  | cons f rest ih =>
    intro s
    have h1 := stepFile_scanned pj ps a s f
    have h2 := ih (stepFile pj ps a s f)
    unfold processDay at h2 ⊢
    simp only [List.foldl_cons, List.length_cons]
    omega

theorem processDays_scanned {J : Type} (pj : String → Option J) (ps : Nat) (a : RKey)
    (D : Nat) : ∀ (l : List (Nat × Option (List DEnt))) (s s' : TravSt J),
      processDays pj ps a l s = .ok s' → (∀ p ∈ l, dayCount p.2 ≤ D) →
      s'.scanned ≤ max s.scanned (MAX_SCAN_FILES - 1 + D) := by
  intro l
  induction l with
  | nil =>
    intro s s' h _
    injection h with h
    subst h
    exact le_max_left _ _
  | cons p rest ih =>
    intro s s' h hD
    obtain ⟨d, sub⟩ := p
    match sub, h, hD with
    | none, h, hD =>
      rw [processDays_cons_none] at h
      split at h
      · injection h with h
        subst h
        exact le_max_left _ _
      · split at h
        · injection h with h
          subst h
          exact le_max_left _ _
        · exact absurd h (by simp)
    | some ents, h, hD =>
      rw [processDays_cons_some] at h
      split at h
      · injection h with h
        subst h
        exact le_max_left _ _
      · split at h
        · injection h with h
          subst h
          exact le_max_left _ _
        · rename_i hs hc
          have hday := processDay_scanned pj ps a (collectDayFiles ents) s
          have hd1 : dayCount (some ents) ≤ D := hD (d, some ents) (by simp)
          simp only [dayCount, flatDay] at hd1
          have hrec := ih _ _ h fun q hq => hD q (by simp [hq])
          have hcap : ¬ MAX_SCAN_FILES ≤ s.scanned := hc
          omega

theorem processMonths_scanned {J : Type} (pj : String → Option J) (ps : Nat) (a : RKey)
    (D : Nat) : ∀ (l : List (Nat × Option (List MEnt))) (s s' : TravSt J),
      processMonths pj ps a l s = .ok s' → (∀ p ∈ l, maxDayM p.2 ≤ D) →
      s'.scanned ≤ max s.scanned (MAX_SCAN_FILES - 1 + D) := by
  intro l
  induction l with
  | nil =>
    intro s s' h _
    injection h with h
    subst h
    exact le_max_left _ _
  | cons p rest ih =>
    intro s s' h hD
    obtain ⟨d, sub⟩ := p
    match sub, h, hD with
    | none, h, hD =>
      rw [processMonths_cons_none] at h
      split at h
      · injection h with h
        subst h
        exact le_max_left _ _
      · split at h
        · injection h with h
          subst h
          exact le_max_left _ _
        · exact absurd h (by simp)
    | some ml, h, hD =>
      rw [processMonths_cons_some] at h
      split at h
      · injection h with h
        subst h
        exact le_max_left _ _
      · split at h
        · injection h with h
          subst h
          exact le_max_left _ _
        · cases hdd : processDays pj ps a (collectDays ml) s with
          | error e =>
            rw [hdd] at h
            exact absurd h (by simp [Bind.bind, Except.bind])
          | ok s1 =>
            rw [hdd, exceptBind_ok] at h
            have hstep : s1.scanned ≤ max s.scanned (MAX_SCAN_FILES - 1 + D) := by
              apply processDays_scanned pj ps a D _ _ _ hdd
              intro q hq
              have hm : maxDayM (some ml) ≤ D := hD (d, some ml) (by simp)
              simp only [maxDayM] at hm
              exact le_trans (le_foldr_max (fun p => dayCount p.2) (collectDays ml) q hq) hm
            have hrec := ih _ _ h fun q hq => hD q (by simp [hq])
            omega

theorem processYears_scanned {J : Type} (pj : String → Option J) (ps : Nat) (a : RKey)
    (D : Nat) : ∀ (l : List (Nat × Option (List YEnt))) (s s' : TravSt J),
      processYears pj ps a l s = .ok s' → (∀ p ∈ l, maxDayY p.2 ≤ D) →
      s'.scanned ≤ max s.scanned (MAX_SCAN_FILES - 1 + D) := by
  intro l
  induction l with
  | nil =>
    intro s s' h _
    injection h with h
    subst h
    exact le_max_left _ _
  | cons p rest ih =>
    intro s s' h hD
    obtain ⟨d, sub⟩ := p
    match sub, h, hD with
    | none, h, hD =>
      rw [processYears_cons_none] at h
      split at h
      · injection h with h
        subst h
        exact le_max_left _ _
      · split at h
        · injection h with h
          subst h
          exact le_max_left _ _
        · exact absurd h (by simp)
    | some yl, h, hD =>
      rw [processYears_cons_some] at h
      split at h
      · injection h with h
        subst h
        exact le_max_left _ _
      · split at h
        · injection h with h
          subst h
          exact le_max_left _ _
        · cases hdd : processMonths pj ps a (collectMonths yl) s with
          | error e =>
            rw [hdd] at h
            exact absurd h (by simp [Bind.bind, Except.bind])
          | ok s1 =>
            rw [hdd, exceptBind_ok] at h
            have hstep : s1.scanned ≤ max s.scanned (MAX_SCAN_FILES - 1 + D) := by
              apply processMonths_scanned pj ps a D _ _ _ hdd
              intro q hq
              have hm : maxDayY (some yl) ≤ D := hD (d, some yl) (by simp)
              simp only [maxDayY] at hm
              exact le_trans (le_foldr_max (fun p => maxDayM p.2) (collectMonths yl) q hq) hm
            have hrec := ih _ _ h fun q hq => hD q (by simp [hq])
            omega

theorem traverse_scanned {J : Type} (pj : String → Option J) (rents : List REnt)
    (ps : Nat) (anchor : Option RKey) (p : Page J)
    (h : traverse pj (some rents) ps anchor = .ok p) :
    p.scanned_files ≤ MAX_SCAN_FILES - 1 + maxDayR rents ∧
      (p.reached_scan_cap = true ↔ MAX_SCAN_FILES ≤ p.scanned_files) := by
  rw [traverse_some] at h
  cases hy : processYears pj ps (anchor.getD nilKey) (collectYears rents)
      ⟨[], 0, anchor.isNone, false⟩ with
  | error e =>
    rw [hy] at h
    exact absurd h (by simp [Except.map])
  | ok s' =>
    rw [hy] at h
    simp only [Except.map] at h
    injection h with h
    subst h
    constructor
    · have hb := processYears_scanned pj ps (anchor.getD nilKey) (maxDayR rents) _ _ _ hy
        (fun q hq => le_foldr_max (fun p => maxDayY p.2) (collectYears rents) q hq)
      simpa using hb
    · simp

end SessionList

namespace SessionList

/-! ## Head reader: the spec-described collector on a bounded input -/

theorem specHeadRead_all {J : Type} (pj : String → Option J) :
    ∀ (lines : List (Option String)) (n : Nat), lines.length ≤ n →
      specHeadRead pj lines n = lines.filterMap (lineParse pj) := by
  intro lines
  induction lines with
  | nil =>
    intro n _
    cases n <;> rfl
  | cons o rest ih =>
    intro n hn
    match n, hn with
    | m + 1, hn =>
      simp only [specHeadRead, List.filterMap_cons]
      cases ho : lineParse pj o with
      | none => exact ih (m + 1) (by simp at hn; omega)
      | some v => rw [ih m (by simp at hn; omega)]

end SessionList

namespace SessionList

/-! ## Facts about the day-file collection -/

theorem collectDayFiles_decode {ents : List DEnt} :
    ∀ f ∈ collectDayFiles ents, parseRollName f.2.1 = some f.1 := by
  intro f hf
  unfold collectDayFiles at hf
  rw [List.mem_mergeSort] at hf
  obtain ⟨e, -, he⟩ := List.mem_filterMap.mp hf
  match e, he with
  | DEnt.file n c, he =>
    have he' : (if (stripPre "rollout-".data n.data).isSome = true ∧
        (stripSuf ".jsonl".data n.data).isSome = true then
        (parseRollName n).map fun k => (k, n, c) else none) = some f := he
    by_cases hg : (stripPre "rollout-".data n.data).isSome = true ∧
        (stripSuf ".jsonl".data n.data).isSome = true
    · rw [if_pos hg] at he'
      simp only [Option.map_eq_some'] at he'
      obtain ⟨k, hk, hke⟩ := he'
      subst hke
      simpa using hk
    · rw [if_neg hg] at he'
      exact absurd he' (by simp)
  | DEnt.dir n, he =>
    exact absurd (he : (none : Option (RKey × String × Content)) = some f) (by simp)

theorem collectDayFiles_sorted {ents : List DEnt} :
    List.Pairwise (fun x y : RKey × String × Content => y.1.code ≤ x.1.code)
      (collectDayFiles ents) := by
  unfold collectDayFiles
  have hs := @List.sorted_mergeSort _
    (fun x y : RKey × String × Content => decide (RKey.code y.1 ≤ RKey.code x.1))
    (fun a b c hab hbc => by
      simp only [decide_eq_true_eq] at *
      omega)
    (fun a b => by
      simp only [Bool.or_eq_true, decide_eq_true_eq]
      omega)
    (ents.filterMap fun e =>
      match e with
      | DEnt.file n c =>
        if (stripPre "rollout-".data n.data).isSome ∧ (stripSuf ".jsonl".data n.data).isSome then
          (parseRollName n).map fun k => (k, n, c)
        else none
      | DEnt.dir _ => none)
  exact hs.imp fun h => by simpa using h

theorem code_lt_of_ts_lt {a b : RKey} (ha : ValidKey a) (hb : ValidKey b)
    (h : a.ts.key < b.ts.key) : a.code < b.code := by
  obtain ⟨-, ha2⟩ := ha
  obtain ⟨-, hb2⟩ := hb
  unfold RKey.code
  have hp : (2 : Nat) ^ 128 = 340282366920938463463374607431768211456 := by norm_num
  rw [hp] at *
  nlinarith

theorem wfDay_sorted {y m d : Nat} {ents : List DEnt} (hwf : WfDay y m d ents) :
    List.Pairwise (fun x y : RKey × String × Content => y.1.code < x.1.code)
      (collectDayFiles ents) := by
  obtain ⟨hnd, hval⟩ := hwf
  have hge := @collectDayFiles_sorted ents
  have hne : List.Pairwise (fun x y : RKey × String × Content => x.1 ≠ y.1)
      (collectDayFiles ents) := by
    rw [← List.pairwise_map (f := fun f : RKey × String × Content => f.1)]
    exact hnd
  refine (hge.and hne).imp_of_mem ?_
  intro x y hx hy h
  obtain ⟨hle, hkne⟩ := h
  obtain ⟨hvx, -⟩ := hval x hx
  obtain ⟨hvy, -⟩ := hval y hy
  rcases Nat.lt_or_ge y.1.code x.1.code with hlt | hge2
  · exact hlt
  · exact absurd (code_inj hvx hvy (Nat.le_antisymm hge2 hle)) hkne

end SessionList

namespace SessionList

/-! ## Visit order is strictly descending on well-formed trees -/

theorem sortDescByFst_sorted {α : Type} (l : List (Nat × α)) :
    List.Pairwise (fun p q : Nat × α => q.1 ≤ p.1) (sortDescByFst l) := by
  unfold sortDescByFst
  have hs := @List.sorted_mergeSort _
    (fun x y : Nat × α => decide (y.1 ≤ x.1))
    (fun a b c hab hbc => by
      simp only [decide_eq_true_eq] at *
      omega)
    (fun a b => by
      simp only [Bool.or_eq_true, decide_eq_true_eq]
      omega)
    l
  exact hs.imp fun h => by simpa using h

theorem nodup_fst_pairwise {α : Type} {l : List (Nat × α)}
    (h : (l.map (·.1)).Nodup) : List.Pairwise (fun p q : Nat × α => p.1 ≠ q.1) l :=
  List.pairwise_map.mp h

theorem wfMonth_flat {y m : Nat} {ml : List MEnt} (hwf : WfMonth y m ml) :
    List.Pairwise (fun x z : RKey × String × Content => z.1.code < x.1.code)
      (flatMonth (some ml)) ∧
    ∀ f ∈ flatMonth (some ml), ValidKey f.1 ∧ f.1.ts.year = y ∧ f.1.ts.month = m ∧
      parseRollName f.2.1 = some f.1 := by
  obtain ⟨hnd, hdays⟩ := hwf
  have hmem : ∀ f ∈ flatMonth (some ml), ∃ p ∈ collectDays ml,
      ∃ dl, p.2 = some dl ∧ f ∈ collectDayFiles dl ∧ WfDay y m p.1 dl := by
    intro f hf
    simp only [flatMonth, List.mem_flatMap] at hf
    obtain ⟨p, hp, hf2⟩ := hf
    have hd := hdays p hp
    match p, hd, hf2 with
    | (d, some dl), hd, hf2 =>
      exact ⟨(d, some dl), hp, dl, rfl, by simpa [flatDay] using hf2, hd⟩
  constructor
  · simp only [flatMonth]
    rw [List.pairwise_flatMap]
    constructor
    · intro p hp
      have hd := hdays p hp
      match p, hd with
      | (d, some dl), hd => simpa [flatDay] using wfDay_sorted hd
    · have hstrict : List.Pairwise
          (fun p q : Nat × Option (List DEnt) => q.1 < p.1) (collectDays ml) := by
        refine ((sortDescByFst_sorted _).and (nodup_fst_pairwise hnd)).imp ?_
        intro p q h
        omega
      refine List.Pairwise.imp_of_mem ?_ hstrict
      intro p q hp hq hlt x hx z hz
      have hdp := hdays p hp
      have hdq := hdays q hq
      match p, hdp, hx with
      | (dp, some dlp), hdp, hx =>
        match q, hdq, hz with
        | (dq, some dlq), hdq, hz =>
          simp only [flatDay] at hx hz
          obtain ⟨hvx, hyx, hmx, hdx⟩ := hdp.2 x hx
          obtain ⟨hvz, hyz, hmz, hdz⟩ := hdq.2 z hz
          apply code_lt_of_ts_lt hvz hvx
          apply ts_key_lt_shard hvz.1 hvx.1
          simp only at hdx hdz hlt
          omega
  · intro f hf
    obtain ⟨p, -, dl, -, hfm, hwfd⟩ := hmem f hf
    obtain ⟨hv, hy, hm, hd⟩ := hwfd.2 f hfm
    exact ⟨hv, hy, hm, collectDayFiles_decode f hfm⟩

end SessionList

namespace SessionList

theorem wfYear_flat {y : Nat} {yl : List YEnt} (hwf : WfYear y yl) :
    List.Pairwise (fun x z : RKey × String × Content => z.1.code < x.1.code)
      (flatYear (some yl)) ∧
    ∀ f ∈ flatYear (some yl), ValidKey f.1 ∧ f.1.ts.year = y ∧
      parseRollName f.2.1 = some f.1 := by
  obtain ⟨hnd, hmonths⟩ := hwf
  constructor
  · simp only [flatYear]
    rw [List.pairwise_flatMap]
    constructor
    · intro p hp
      have hm := hmonths p hp
      match p, hm with
      | (mo, some ml), hm => simpa [flatMonth] using (wfMonth_flat hm).1
    · have hstrict : List.Pairwise
          (fun p q : Nat × Option (List MEnt) => q.1 < p.1) (collectMonths yl) := by
        refine ((sortDescByFst_sorted _).and (nodup_fst_pairwise hnd)).imp ?_
        intro p q h
        omega
      refine List.Pairwise.imp_of_mem ?_ hstrict
      intro p q hp hq hlt x hx z hz
      have hmp := hmonths p hp
      have hmq := hmonths q hq
      match p, hmp, hx with
      | (mp, some mlp), hmp, hx =>
        match q, hmq, hz with
        | (mq, some mlq), hmq, hz =>
          obtain ⟨hvx, hyx, hmx, -⟩ := (wfMonth_flat hmp).2 x hx
          obtain ⟨hvz, hyz, hmz, -⟩ := (wfMonth_flat hmq).2 z hz
          apply code_lt_of_ts_lt hvz hvx
          apply ts_key_lt_shard hvz.1 hvx.1
          simp only at hmx hmz hlt
          omega
  · intro f hf
    simp only [flatYear, List.mem_flatMap] at hf
    obtain ⟨p, hp, hf2⟩ := hf
    have hm := hmonths p hp
    match p, hm, hf2 with
    | (mo, some ml), hm, hf2 =>
      obtain ⟨hv, hy, -, hdec⟩ := (wfMonth_flat hm).2 f hf2
      exact ⟨hv, hy, hdec⟩

theorem wfRoot_flat {rents : List REnt} (hwf : WfRoot rents) :
    List.Pairwise (fun x z : RKey × String × Content => z.1.code < x.1.code)
      (visitAll rents) ∧
    ∀ f ∈ visitAll rents, ValidKey f.1 ∧ parseRollName f.2.1 = some f.1 := by
  obtain ⟨hnd, hyears⟩ := hwf
  constructor
  · unfold visitAll
    rw [List.pairwise_flatMap]
    constructor
    · intro p hp
      have hy := hyears p hp
      match p, hy with
      | (yv, some yl), hy => simpa [flatYear] using (wfYear_flat hy).1
    · have hstrict : List.Pairwise
          (fun p q : Nat × Option (List YEnt) => q.1 < p.1) (collectYears rents) := by
        refine ((sortDescByFst_sorted _).and (nodup_fst_pairwise hnd)).imp ?_
        intro p q h
        omega
      refine List.Pairwise.imp_of_mem ?_ hstrict
      intro p q hp hq hlt x hx z hz
      have hyp := hyears p hp
      have hyq := hyears q hq
      match p, hyp, hx with
      | (yp, some ylp), hyp, hx =>
        match q, hyq, hz with
        | (yq, some ylq), hyq, hz =>
          obtain ⟨hvx, hyx, -⟩ := (wfYear_flat hyp).2 x hx
          obtain ⟨hvz, hyz, -⟩ := (wfYear_flat hyq).2 z hz
          apply code_lt_of_ts_lt hvz hvx
          apply ts_key_lt_shard hvz.1 hvx.1
          simp only at hyx hyz hlt
          omega
  · intro f hf
    unfold visitAll at hf
    rw [List.mem_flatMap] at hf
    obtain ⟨p, hp, hf2⟩ := hf
    have hy := hyears p hp
    match p, hy, hf2 with
    | (yv, some yl), hy, hf2 =>
      obtain ⟨hv, -, hdec⟩ := (wfYear_flat hy).2 f hf2
      exact ⟨hv, hdec⟩

end SessionList

namespace SessionList

theorem keepB_lt {a₀ k : RKey} (hv : ValidKey k) (hva : ValidKey a₀)
    (h : keepB (some a₀) k = true) : k.code < a₀.code :=
  (keyLt_iff_code hv hva).mp (by simpa [keepB] using h)

theorem stepFile_inv {J : Type} (pj : String → Option J) (ps : Nat)
    (anchor : Option RKey) {doneK : List RKey} {s : TravSt J}
    (f : RKey × String × Content)
    (hstop : s.stop = false)
    (hinv : TravInv ps anchor doneK s)
    (hdec : parseRollName f.2.1 = some f.1)
    (hvf : ValidKey f.1)
    (hvdone : ∀ k ∈ doneK, ValidKey k)
    (hvanch : ∀ a₀, anchor = some a₀ → ValidKey a₀)
    (hdesc : ∀ k ∈ doneK, f.1.code < k.code) :
    TravInv ps anchor (doneK ++ [f.1]) (stepFile pj ps (anchor.getD nilKey) s f) := by
  obtain ⟨hsc, hA, hB, hit, hst⟩ := hinv
  have hlen : s.items.length = min ps (doneK.filter (keepB anchor)).length := by
    have hh := congrArg List.length hit
    simpa [List.length_take] using hh
  unfold stepFile
  rw [if_neg (by simp [hstop])]
  by_cases hc1 : MAX_SCAN_FILES ≤ s.scanned + 1 ∧ ps ≤ s.items.length
  · rw [if_pos hc1]
    have hpsF : ps ≤ (doneK.filter (keepB anchor)).length := by omega
    refine ⟨by simp [hsc], hA, ?_, ?_, ?_⟩
    · intro hap
      rcases hB hap with h | ⟨k, hk, hkeep⟩
      · exact Or.inl h
      · exact Or.inr ⟨k, by simp [hk], hkeep⟩
    · simp only [List.filter_append]
      rw [List.take_append_eq_append_take]
      have hz : ps - (doneK.filter (keepB anchor)).length = 0 := by omega
      rw [hz]
      simpa using hit
    · intro _
      left
      simp only [List.filter_append, List.length_append]
      omega
  · rw [if_neg hc1]
    by_cases hc2 : ¬s.anchorPassed = true ∧ ¬keyLt f.1 (anchor.getD nilKey) = true
    · rw [if_pos hc2]
      obtain ⟨hnap, hnlt⟩ := hc2
      cases anchor with
      | none => exact absurd (hA rfl) hnap
      | some a₀ =>
        have hkeepf : keepB (some a₀) f.1 = false := by
          simp only [keepB]
          simp only [Option.getD] at hnlt
          exact Bool.not_eq_true _ |>.mp hnlt
        refine ⟨by simp [hsc], by simp, ?_, ?_, by simp [hstop]⟩
        · intro hap
          exact absurd hap hnap
        · simp only [List.filter_append, List.filter_cons, hkeepf, List.filter_nil]
          simpa using hit
    · rw [if_neg hc2]
      have hkeepf : keepB anchor f.1 = true := by
        cases anchor with
        | none => rfl
        | some a₀ =>
          have hva := hvanch a₀ rfl
          simp only [keepB]
          by_cases hap : s.anchorPassed = true
          · rcases hB hap with h | ⟨k₀, hk₀, hkeep₀⟩
            · exact absurd h (by simp)
            · have hv₀ := hvdone k₀ hk₀
              have h1 : k₀.code < a₀.code := keepB_lt hv₀ hva hkeep₀
              have h2 : f.1.code < k₀.code := hdesc k₀ hk₀
              exact (keyLt_iff_code hvf hva).mpr (by omega)
          · have hlt : keyLt f.1 ((some a₀).getD nilKey) = true := by
              by_contra hn
              exact hc2 ⟨hap, hn⟩
            simpa [Option.getD] using hlt
      have hBnew : ∀ b : Bool, (b = true → anchor = none ∨
          ∃ k ∈ doneK, keepB anchor k = true) →
          (true = true → anchor = none ∨ ∃ k ∈ doneK ++ [f.1], keepB anchor k = true) := by
        intro b hb _
        exact Or.inr ⟨f.1, by simp, hkeepf⟩
      by_cases hc3 : s.items.length = ps
      · rw [if_pos hc3]
        have hpsF : ps ≤ (doneK.filter (keepB anchor)).length := by omega
        refine ⟨by simp [hsc], by simp, hBnew s.anchorPassed hB, ?_, ?_⟩
        · simp only [List.filter_append]
          rw [List.take_append_eq_append_take]
          have hz : ps - (doneK.filter (keepB anchor)).length = 0 := by omega
          rw [hz]
          simpa using hit
        · intro _
          left
          simp only [List.filter_append, List.length_append]
          omega
      · rw [if_neg hc3]
        have hFlt : (doneK.filter (keepB anchor)).length < ps := by omega
        have htake : (doneK.filter (keepB anchor)).take ps =
            doneK.filter (keepB anchor) := List.take_of_length_le (by omega)
        refine ⟨by simp [hsc], by simp, hBnew s.anchorPassed hB, ?_, by simp⟩
        simp only [List.filter_append, List.filter_cons, hkeepf, List.filter_nil]
        rw [List.take_append_eq_append_take, htake]
        have htake1 : ([f.1].take (ps - (doneK.filter (keepB anchor)).length)) = [f.1] :=
          List.take_of_length_le (by simp; omega)
        simp only [if_true]
        rw [htake1]
        simp only [List.map_append, List.map_cons, List.map_nil]
        rw [hit, htake]
        simp [hdec]

end SessionList

namespace SessionList

theorem processDay_stopped {J : Type} (pj : String → Option J) (ps : Nat) (a : RKey) :
    ∀ (files : List (RKey × String × Content)) (s : TravSt J), s.stop = true →
      processDay pj ps a files s = s := by
  intro files
  induction files with
  | nil => exact fun s _ => rfl
  | cons f rest ih =>
    intro s hs
    unfold processDay at ih ⊢
    simp only [List.foldl_cons]
    rw [show stepFile pj ps a s f = s by unfold stepFile; rw [if_pos hs]]
    exact ih s hs

theorem processDay_inv {J : Type} (pj : String → Option J) (ps : Nat)
    (anchor : Option RKey) :
    ∀ (files : List (RKey × String × Content)) (doneK : List RKey) (s : TravSt J),
      TravInv ps anchor doneK s →
      (∀ f ∈ files, parseRollName f.2.1 = some f.1) →
      (∀ k ∈ doneK ++ files.map (·.1), ValidKey k) →
      (∀ a₀, anchor = some a₀ → ValidKey a₀) →
      List.Pairwise (fun x y : RKey => y.code < x.code) (doneK ++ files.map (·.1)) →
      ∃ V₁ V₂ : List RKey, files.map (·.1) = V₁ ++ V₂ ∧
        TravInv ps anchor (doneK ++ V₁)
          (processDay pj ps (anchor.getD nilKey) files s) ∧
        ((processDay pj ps (anchor.getD nilKey) files s).stop = false → V₂ = []) ∧
        (s.stop = true → V₁ = [] ∧
          processDay pj ps (anchor.getD nilKey) files s = s) := by
  intro files
  induction files with
  | nil =>
    intro doneK s hinv _ _ _ _
    exact ⟨[], [], rfl, by simpa using hinv, fun _ => rfl, fun _ => ⟨rfl, rfl⟩⟩
  | cons f rest ih =>
    intro doneK s hinv hdec hval hvanch hpw
    by_cases hs : s.stop = true
    · refine ⟨[], f.1 :: rest.map (·.1), by simp, ?_, ?_, ?_⟩
      · rw [processDay_stopped pj ps _ _ s hs]
        simpa using hinv
      · rw [processDay_stopped pj ps _ _ s hs]
        intro h
        rw [h] at hs
        exact absurd hs (by simp)
      · exact fun _ => ⟨rfl, processDay_stopped pj ps _ _ s hs⟩
    · have hstop : s.stop = false := by
        cases h2 : s.stop
        · rfl
        · exact absurd h2 hs
      have hstep := stepFile_inv pj ps anchor f hstop hinv (hdec f (by simp))
        (hval f.1 (by simp)) (fun k hk => hval k (by simp [hk])) hvanch
        (fun k hk => (List.pairwise_append.mp hpw).2.2 k hk f.1 (by simp))
      have ihh := ih (doneK ++ [f.1]) (stepFile pj ps (anchor.getD nilKey) s f) hstep
        (fun g hg => hdec g (by simp [hg]))
        (fun k hk => hval k (by
          simp only [List.map_cons, List.append_assoc, List.cons_append, List.nil_append]
          simpa [List.append_assoc] using hk))
        hvanch
        (by
          have : doneK ++ [f.1] ++ rest.map (·.1) = doneK ++ f.1 :: rest.map (·.1) := by
            simp
          rw [this]
          simpa using hpw)
      obtain ⟨V₁, V₂, hsplit, hinv', hstop', hinit'⟩ := ihh
      refine ⟨f.1 :: V₁, V₂, by simp [hsplit], ?_, ?_, ?_⟩
      · have : doneK ++ f.1 :: V₁ = doneK ++ [f.1] ++ V₁ := by simp
        rw [this]
        unfold processDay at hinv' ⊢
        simpa using hinv'
      · unfold processDay at hstop' ⊢
        simpa using hstop'
      · intro h
        exact absurd h hs

end SessionList

namespace SessionList

theorem processDays_inv {J : Type} (pj : String → Option J) (ps : Nat)
    (anchor : Option RKey) :
    ∀ (l : List (Nat × Option (List DEnt))) (doneK : List RKey) (s : TravSt J),
      TravInv ps anchor doneK s →
      (∀ p ∈ l, p.2.isSome = true) →
      (∀ f ∈ l.flatMap fun p => flatDay p.2, parseRollName f.2.1 = some f.1) →
      (∀ k ∈ doneK ++ (l.flatMap fun p => flatDay p.2).map (·.1), ValidKey k) →
      (∀ a₀, anchor = some a₀ → ValidKey a₀) →
      List.Pairwise (fun x y : RKey => y.code < x.code)
        (doneK ++ (l.flatMap fun p => flatDay p.2).map (·.1)) →
      ∃ (V₁ V₂ : List RKey) (s' : TravSt J),
        (l.flatMap fun p => flatDay p.2).map (·.1) = V₁ ++ V₂ ∧
        processDays pj ps (anchor.getD nilKey) l s = .ok s' ∧
        TravInv ps anchor (doneK ++ V₁) s' ∧
        (s'.stop = false → V₂ = []) ∧
        (s.stop = true → V₁ = [] ∧ s' = s) := by
  intro l
  induction l with
  | nil =>
    intro doneK s hinv _ _ _ _ _
    exact ⟨[], [], s, by simp, rfl, by simpa using hinv, fun _ => rfl,
      fun _ => ⟨rfl, rfl⟩⟩
  | cons p rest ih =>
    intro doneK s hinv hok hdec hval hvanch hpw
    obtain ⟨d, sub⟩ := p
    obtain ⟨ents, hents⟩ := Option.isSome_iff_exists.mp (hok (d, sub) (by simp))
    subst hents
    rw [processDays_cons_some]
    by_cases hs : s.stop = true
    · rw [if_pos hs]
      refine ⟨[], ((((d, some ents) :: rest).flatMap fun p => flatDay p.2).map (·.1)), s,
        by simp, rfl, by simpa using hinv, ?_, fun _ => ⟨rfl, rfl⟩⟩
      intro h
      rw [h] at hs
      exact absurd hs (by simp)
    · rw [if_neg hs]
      by_cases hc : MAX_SCAN_FILES ≤ s.scanned
      · rw [if_pos hc]
        obtain ⟨hsc, hA, hB, hit, hst⟩ := hinv
        refine ⟨[], ((((d, some ents) :: rest).flatMap fun p => flatDay p.2).map (·.1)), _,
          by simp, rfl, ⟨by simpa using hsc, hA, ?_, by simpa using hit, ?_⟩,
          ?_, ?_⟩
        · intro hap
          rcases hB hap with h | h
          · exact Or.inl h
          · exact Or.inr (by simpa using h)
        · intro _
          right
          simpa using hc
        · intro h
          simp at h
        · intro h
          exact absurd h hs
      · rw [if_neg hc]
        have hflat : (((d, some ents) :: rest).flatMap fun p => flatDay p.2) =
            collectDayFiles ents ++ (rest.flatMap fun p => flatDay p.2) := by
          simp [flatDay]
        rw [hflat] at hdec hval hpw
        simp only [List.map_append] at hval hpw
        have hday := processDay_inv pj ps anchor (collectDayFiles ents) doneK s hinv
          (fun f hf => hdec f (by simp [hf]))
          (fun k hk => hval k (by
            rcases List.mem_append.mp hk with h | h
            · simp [h]
            · simp [h]))
          hvanch
          (hpw.sublist (by
            rw [← List.append_assoc]
            exact List.sublist_append_left _ _))
        obtain ⟨V₁, V₂, hsplit, hinv1, hstop1, -⟩ := hday
        obtain ⟨s₁, hs₁⟩ : ∃ s₁,
            processDay pj ps (anchor.getD nilKey) (collectDayFiles ents) s = s₁ := ⟨_, rfl⟩
        rw [hs₁] at hinv1 hstop1
        rw [hs₁]
        by_cases hs1 : s₁.stop = true
        · -- the day stopped the traversal: the rest is never scanned
          have hpw2 : List.Pairwise (fun x y : RKey => y.code < x.code)
              ((doneK ++ V₁) ++ (rest.flatMap fun p => flatDay p.2).map (·.1)) := by
            refine List.Pairwise.sublist ?_ hpw
            rw [List.append_assoc]
            refine List.Sublist.append (List.Sublist.refl _) ?_
            rw [hsplit, List.append_assoc]
            exact List.Sublist.append (List.Sublist.refl _)
              (List.sublist_append_right _ _)
          have hrest := ih (doneK ++ V₁) s₁ hinv1
            (fun q hq => hok q (by simp [hq]))
            (fun f hf => hdec f (by simp [hf]))
            (fun k hk => by
              rcases List.mem_append.mp hk with h | h
              · rcases List.mem_append.mp h with h2 | h2
                · exact hval k (by simp [h2])
                · have hk2 : k ∈ (collectDayFiles ents).map (·.1) := by
                    rw [hsplit]
                    exact List.mem_append.mpr (Or.inl h2)
                  exact hval k (by simp [hk2])
              · exact hval k (by simp [h]))
            hvanch
            hpw2
          obtain ⟨W₁, W₂, s₂, hsplit2, hok2, hinv2, hstop2, hinit2⟩ := hrest
          obtain ⟨hW1, hseq⟩ := hinit2 hs1
          refine ⟨V₁, V₂ ++ (rest.flatMap fun p => flatDay p.2).map (·.1), s₁,
            ?_, ?_, hinv1, ?_, fun h => absurd h hs⟩
          · rw [hflat, List.map_append, hsplit, List.append_assoc]
          · rw [hok2, hseq]
          · intro h
            rw [h] at hs1
            exact absurd hs1 (by simp)
        · have hV2 : V₂ = [] := hstop1 (by
            cases h2 : s₁.stop
            · rfl
            · exact absurd h2 hs1)
          subst hV2
          rw [List.append_nil] at hsplit
          have hpw2 : List.Pairwise (fun x y : RKey => y.code < x.code)
              ((doneK ++ V₁) ++ (rest.flatMap fun p => flatDay p.2).map (·.1)) := by
            rw [List.append_assoc, ← hsplit]
            exact hpw
          have hrest := ih (doneK ++ V₁) s₁ hinv1
            (fun q hq => hok q (by simp [hq]))
            (fun f hf => hdec f (by simp [hf]))
            (fun k hk => by
              rcases List.mem_append.mp hk with h | h
              · rcases List.mem_append.mp h with h2 | h2
                · exact hval k (by simp [h2])
                · rw [← hsplit] at h2
                  exact hval k (by simp [h2])
              · exact hval k (by simp [h]))
            hvanch
            hpw2
          obtain ⟨W₁, W₂, s₂, hsplit2, hok2, hinv2, hstop2, hinit2⟩ := hrest
          refine ⟨V₁ ++ W₁, W₂, s₂, ?_, hok2, by simpa [List.append_assoc] using hinv2,
            hstop2, fun h => absurd h hs⟩
          rw [hflat, List.map_append, hsplit, hsplit2, List.append_assoc]

end SessionList

namespace SessionList

theorem processMonths_inv {J : Type} (pj : String → Option J) (ps : Nat)
    (anchor : Option RKey) :
    ∀ (l : List (Nat × Option (List MEnt))) (doneK : List RKey) (s : TravSt J),
      TravInv ps anchor doneK s →
      (∀ p ∈ l, optP (fun ml => ∀ q ∈ collectDays ml, q.2.isSome = true) p.2) →
      (∀ f ∈ l.flatMap fun p => flatMonth p.2, parseRollName f.2.1 = some f.1) →
      (∀ k ∈ doneK ++ (l.flatMap fun p => flatMonth p.2).map (·.1), ValidKey k) →
      (∀ a₀, anchor = some a₀ → ValidKey a₀) →
      List.Pairwise (fun x y : RKey => y.code < x.code)
        (doneK ++ (l.flatMap fun p => flatMonth p.2).map (·.1)) →
      ∃ (V₁ V₂ : List RKey) (s' : TravSt J),
        (l.flatMap fun p => flatMonth p.2).map (·.1) = V₁ ++ V₂ ∧
        processMonths pj ps (anchor.getD nilKey) l s = .ok s' ∧
        TravInv ps anchor (doneK ++ V₁) s' ∧
        (s'.stop = false → V₂ = []) ∧
        (s.stop = true → V₁ = [] ∧ s' = s) := by
  intro l
  induction l with
  | nil =>
    intro doneK s hinv _ _ _ _ _
    exact ⟨[], [], s, by simp, rfl, by simpa using hinv, fun _ => rfl,
      fun _ => ⟨rfl, rfl⟩⟩
  | cons p rest ih =>
    intro doneK s hinv hok hdec hval hvanch hpw
    obtain ⟨d, sub⟩ := p
    have hopt := hok (d, sub) (by simp)
    match sub, hopt with
    | some ml, hopt =>
      rw [processMonths_cons_some]
      by_cases hs : s.stop = true
      · rw [if_pos hs]
        refine ⟨[], ((((d, some ml) :: rest).flatMap fun p => flatMonth p.2).map (·.1)), s,
          by simp, rfl, by simpa using hinv, ?_, fun _ => ⟨rfl, rfl⟩⟩
        intro h
        rw [h] at hs
        exact absurd hs (by simp)
      · rw [if_neg hs]
        by_cases hc : MAX_SCAN_FILES ≤ s.scanned
        · rw [if_pos hc]
          obtain ⟨hsc, hA, hB, hit, hst⟩ := hinv
          refine ⟨[], ((((d, some ml) :: rest).flatMap fun p => flatMonth p.2).map (·.1)), _,
            by simp, rfl, ⟨by simpa using hsc, hA, ?_, by simpa using hit, ?_⟩, ?_, ?_⟩
          · intro hap
            rcases hB hap with h | h
            · exact Or.inl h
            · exact Or.inr (by simpa using h)
          · intro _
            right
            simpa using hc
          · intro h
            simp at h
          · intro h
            exact absurd h hs
        · rw [if_neg hc]
          have hflat : (((d, some ml) :: rest).flatMap fun p => flatMonth p.2) =
              ((collectDays ml).flatMap fun q => flatDay q.2) ++
                (rest.flatMap fun p => flatMonth p.2) := by
            simp [flatMonth]
          rw [hflat] at hdec hval hpw
          simp only [List.map_append] at hval hpw
          have hdays := processDays_inv pj ps anchor (collectDays ml) doneK s hinv
            hopt
            (fun f hf => hdec f (by simp [hf]))
            (fun k hk => hval k (by
              rcases List.mem_append.mp hk with h | h
              · simp [h]
              · simp [h]))
            hvanch
            (hpw.sublist (by
              rw [← List.append_assoc]
              exact List.sublist_append_left _ _))
          obtain ⟨V₁, V₂, s₁, hsplit, hok1, hinv1, hstop1, -⟩ := hdays
          rw [hok1, exceptBind_ok]
          by_cases hs1 : s₁.stop = true
          · have hpw2 : List.Pairwise (fun x y : RKey => y.code < x.code)
                ((doneK ++ V₁) ++ (rest.flatMap fun p => flatMonth p.2).map (·.1)) := by
              refine List.Pairwise.sublist ?_ hpw
              rw [List.append_assoc]
              refine List.Sublist.append (List.Sublist.refl _) ?_
              rw [hsplit, List.append_assoc]
              exact List.Sublist.append (List.Sublist.refl _)
                (List.sublist_append_right _ _)
            have hrest := ih (doneK ++ V₁) s₁ hinv1
              (fun q hq => hok q (by simp [hq]))
              (fun f hf => hdec f (by simp [hf]))
              (fun k hk => by
                rcases List.mem_append.mp hk with h | h
                · rcases List.mem_append.mp h with h2 | h2
                  · exact hval k (by simp [h2])
                  · have hk2 : k ∈ ((collectDays ml).flatMap fun q => flatDay q.2).map (·.1) := by
                      rw [hsplit]
                      exact List.mem_append.mpr (Or.inl h2)
                    exact hval k (by simp [hk2])
                · exact hval k (by simp [h]))
              hvanch
              hpw2
            obtain ⟨W₁, W₂, s₂, hsplit2, hok2, hinv2, hstop2, hinit2⟩ := hrest
            obtain ⟨hW1, hseq⟩ := hinit2 hs1
            refine ⟨V₁, V₂ ++ (rest.flatMap fun p => flatMonth p.2).map (·.1), s₁,
              ?_, ?_, hinv1, ?_, fun h => absurd h hs⟩
            · rw [hflat, List.map_append, hsplit, List.append_assoc]
            · rw [hok2, hseq]
            · intro h
              rw [h] at hs1
              exact absurd hs1 (by simp)
          · have hV2 : V₂ = [] := hstop1 (by
              cases h2 : s₁.stop
              · rfl
              · exact absurd h2 hs1)
            subst hV2
            rw [List.append_nil] at hsplit
            have hpw2 : List.Pairwise (fun x y : RKey => y.code < x.code)
                ((doneK ++ V₁) ++ (rest.flatMap fun p => flatMonth p.2).map (·.1)) := by
              rw [List.append_assoc, ← hsplit]
              exact hpw
            have hrest := ih (doneK ++ V₁) s₁ hinv1
              (fun q hq => hok q (by simp [hq]))
              (fun f hf => hdec f (by simp [hf]))
              (fun k hk => by
                rcases List.mem_append.mp hk with h | h
                · rcases List.mem_append.mp h with h2 | h2
                  · exact hval k (by simp [h2])
                  · rw [← hsplit] at h2
                    exact hval k (by simp [h2])
                · exact hval k (by simp [h]))
              hvanch
              hpw2
            obtain ⟨W₁, W₂, s₂, hsplit2, hok2, hinv2, hstop2, hinit2⟩ := hrest
            refine ⟨V₁ ++ W₁, W₂, s₂, ?_, hok2, by simpa [List.append_assoc] using hinv2,
              hstop2, fun h => absurd h hs⟩
            rw [hflat, List.map_append, hsplit, hsplit2, List.append_assoc]

end SessionList

namespace SessionList

theorem processYears_inv {J : Type} (pj : String → Option J) (ps : Nat)
    (anchor : Option RKey) :
    ∀ (l : List (Nat × Option (List YEnt))) (doneK : List RKey) (s : TravSt J),
      TravInv ps anchor doneK s →
      (∀ p ∈ l, optP AllOkY p.2) →
      (∀ f ∈ l.flatMap fun p => flatYear p.2, parseRollName f.2.1 = some f.1) →
      (∀ k ∈ doneK ++ (l.flatMap fun p => flatYear p.2).map (·.1), ValidKey k) →
      (∀ a₀, anchor = some a₀ → ValidKey a₀) →
      List.Pairwise (fun x y : RKey => y.code < x.code)
        (doneK ++ (l.flatMap fun p => flatYear p.2).map (·.1)) →
      ∃ (V₁ V₂ : List RKey) (s' : TravSt J),
        (l.flatMap fun p => flatYear p.2).map (·.1) = V₁ ++ V₂ ∧
        processYears pj ps (anchor.getD nilKey) l s = .ok s' ∧
        TravInv ps anchor (doneK ++ V₁) s' ∧
        (s'.stop = false → V₂ = []) ∧
        (s.stop = true → V₁ = [] ∧ s' = s) := by
  intro l
  induction l with
  | nil =>
    intro doneK s hinv _ _ _ _ _
    exact ⟨[], [], s, by simp, rfl, by simpa using hinv, fun _ => rfl,
      fun _ => ⟨rfl, rfl⟩⟩
  | cons p rest ih =>
    intro doneK s hinv hok hdec hval hvanch hpw
    obtain ⟨d, sub⟩ := p
    have hopt := hok (d, sub) (by simp)
    match sub, hopt with
    | some yl, hopt =>
      rw [processYears_cons_some]
      by_cases hs : s.stop = true
      · rw [if_pos hs]
        refine ⟨[], ((((d, some yl) :: rest).flatMap fun p => flatYear p.2).map (·.1)), s,
          by simp, rfl, by simpa using hinv, ?_, fun _ => ⟨rfl, rfl⟩⟩
        intro h
        rw [h] at hs
        exact absurd hs (by simp)
      · rw [if_neg hs]
        by_cases hc : MAX_SCAN_FILES ≤ s.scanned
        · rw [if_pos hc]
          obtain ⟨hsc, hA, hB, hit, hst⟩ := hinv
          refine ⟨[], ((((d, some yl) :: rest).flatMap fun p => flatYear p.2).map (·.1)), _,
            by simp, rfl, ⟨by simpa using hsc, hA, ?_, by simpa using hit, ?_⟩, ?_, ?_⟩
          · intro hap
            rcases hB hap with h | h
            · exact Or.inl h
            · exact Or.inr (by simpa using h)
          · intro _
            right
            simpa using hc
          · intro h
            simp at h
          · intro h
            exact absurd h hs
        · rw [if_neg hc]
          have hflat : (((d, some yl) :: rest).flatMap fun p => flatYear p.2) =
              ((collectMonths yl).flatMap fun q => flatMonth q.2) ++
                (rest.flatMap fun p => flatYear p.2) := by
            simp [flatYear]
          rw [hflat] at hdec hval hpw
          simp only [List.map_append] at hval hpw
          have hdays := processMonths_inv pj ps anchor (collectMonths yl) doneK s hinv
            hopt
            (fun f hf => hdec f (by simp [hf]))
            (fun k hk => hval k (by
              rcases List.mem_append.mp hk with h | h
              · simp [h]
              · simp [h]))
            hvanch
            (hpw.sublist (by
              rw [← List.append_assoc]
              exact List.sublist_append_left _ _))
          obtain ⟨V₁, V₂, s₁, hsplit, hok1, hinv1, hstop1, -⟩ := hdays
          rw [hok1, exceptBind_ok]
          by_cases hs1 : s₁.stop = true
          · have hpw2 : List.Pairwise (fun x y : RKey => y.code < x.code)
                ((doneK ++ V₁) ++ (rest.flatMap fun p => flatYear p.2).map (·.1)) := by
              refine List.Pairwise.sublist ?_ hpw
              rw [List.append_assoc]
              refine List.Sublist.append (List.Sublist.refl _) ?_
              rw [hsplit, List.append_assoc]
              exact List.Sublist.append (List.Sublist.refl _)
                (List.sublist_append_right _ _)
            have hrest := ih (doneK ++ V₁) s₁ hinv1
              (fun q hq => hok q (by simp [hq]))
              (fun f hf => hdec f (by simp [hf]))
              (fun k hk => by
                rcases List.mem_append.mp hk with h | h
                · rcases List.mem_append.mp h with h2 | h2
                  · exact hval k (by simp [h2])
                  · have hk2 : k ∈ ((collectMonths yl).flatMap fun q => flatMonth q.2).map (·.1) := by
                      rw [hsplit]
                      exact List.mem_append.mpr (Or.inl h2)
                    exact hval k (by simp [hk2])
                · exact hval k (by simp [h]))
              hvanch
              hpw2
            obtain ⟨W₁, W₂, s₂, hsplit2, hok2, hinv2, hstop2, hinit2⟩ := hrest
            obtain ⟨hW1, hseq⟩ := hinit2 hs1
            refine ⟨V₁, V₂ ++ (rest.flatMap fun p => flatYear p.2).map (·.1), s₁,
              ?_, ?_, hinv1, ?_, fun h => absurd h hs⟩
            · rw [hflat, List.map_append, hsplit, List.append_assoc]
            · rw [hok2, hseq]
            · intro h
              rw [h] at hs1
              exact absurd hs1 (by simp)
          · have hV2 : V₂ = [] := hstop1 (by
              cases h2 : s₁.stop
              · rfl
              · exact absurd h2 hs1)
            subst hV2
            rw [List.append_nil] at hsplit
            have hpw2 : List.Pairwise (fun x y : RKey => y.code < x.code)
                ((doneK ++ V₁) ++ (rest.flatMap fun p => flatYear p.2).map (·.1)) := by
              rw [List.append_assoc, ← hsplit]
              exact hpw
            have hrest := ih (doneK ++ V₁) s₁ hinv1
              (fun q hq => hok q (by simp [hq]))
              (fun f hf => hdec f (by simp [hf]))
              (fun k hk => by
                rcases List.mem_append.mp hk with h | h
                · rcases List.mem_append.mp h with h2 | h2
                  · exact hval k (by simp [h2])
                  · rw [← hsplit] at h2
                    exact hval k (by simp [h2])
                · exact hval k (by simp [h]))
              hvanch
              hpw2
            obtain ⟨W₁, W₂, s₂, hsplit2, hok2, hinv2, hstop2, hinit2⟩ := hrest
            refine ⟨V₁ ++ W₁, W₂, s₂, ?_, hok2, by simpa [List.append_assoc] using hinv2,
              hstop2, fun h => absurd h hs⟩
            rw [hflat, List.map_append, hsplit, hsplit2, List.append_assoc]


end SessionList

namespace SessionList

theorem wfMonth_ok {y m : Nat} {ml : List MEnt} (h : WfMonth y m ml) :
    ∀ q ∈ collectDays ml, q.2.isSome = true := by
  intro q hq
  have h2 := h.2 q hq
  match q, h2 with
  | (d, some dl), h2 => rfl

theorem wfYear_ok {y : Nat} {yl : List YEnt} (h : WfYear y yl) : AllOkY yl := by
  intro q hq
  have h2 := h.2 q hq
  match q, h2 with
  | (m, some ml), h2 => exact wfMonth_ok h2

theorem wfRoot_ok {rents : List REnt} (h : WfRoot rents) : AllOkR rents := by
  intro q hq
  have h2 := h.2 q hq
  match q, h2 with
  | (y, some yl), h2 => exact wfYear_ok h2

theorem traverse_inv {J : Type} (pj : String → Option J) (rents : List REnt)
    (ps : Nat) (anchor : Option RKey) (hwf : WfRoot rents)
    (hvanch : ∀ a₀, anchor = some a₀ → ValidKey a₀) :
    ∃ (V₁ V₂ : List RKey) (page : Page J),
      visitKeys rents = V₁ ++ V₂ ∧
      traverse pj (some rents) ps anchor = .ok page ∧
      page.items.map (fun it => parseRollName it.name) =
        ((V₁.filter (keepB anchor)).take ps).map some ∧
      page.scanned_files = V₁.length ∧
      page.next_cursor = buildNextCursor page.items ∧
      (page.reached_scan_cap = true ↔ MAX_SCAN_FILES ≤ V₁.length) ∧
      (page.reached_scan_cap = false →
        V₂ = [] ∨ ps ≤ (V₁.filter (keepB anchor)).length) := by
  have hflat := wfRoot_flat hwf
  have hinv0 : TravInv (J := J) ps anchor [] ⟨[], 0, anchor.isNone, false⟩ := by
    refine ⟨rfl, ?_, ?_, by simp, by simp⟩
    · intro h
      simp [h]
    · intro h
      left
      cases hcase : anchor with
      | none => rfl
      | some a₀ =>
        rw [hcase] at h
        simp at h
  have hyok : ∀ p ∈ collectYears rents, optP AllOkY p.2 := by
    intro p hp
    have h2 := hwf.2 p hp
    match p, h2 with
    | (y, some yl), h2 => exact wfYear_ok h2
  have hys := processYears_inv pj ps anchor (collectYears rents) []
    ⟨[], 0, anchor.isNone, false⟩ hinv0 hyok
    (fun f hf => (hflat.2 f hf).2)
    (fun k hk => by
      simp only [List.nil_append] at hk
      obtain ⟨f, hf, hfk⟩ := List.mem_map.mp hk
      exact hfk ▸ (hflat.2 f hf).1)
    hvanch
    (by
      simp only [List.nil_append]
      rw [List.pairwise_map]
      exact hflat.1)
  obtain ⟨V₁, V₂, s', hsplit, hok, hinv', hstop', -⟩ := hys
  obtain ⟨hsc, hA, hB, hit, hst⟩ := hinv'
  simp only [List.nil_append] at hsc hit hst
  rw [traverse_some, hok]
  refine ⟨V₁, V₂, _, hsplit, rfl, by simpa using hit, by simpa using hsc, rfl, ?_, ?_⟩
  · show decide (MAX_SCAN_FILES ≤ s'.scanned) = true ↔ MAX_SCAN_FILES ≤ V₁.length
    rw [hsc]
    simp
  · intro hcap0
    have hcap : decide (MAX_SCAN_FILES ≤ s'.scanned) = false := hcap0
    simp only [decide_eq_false_iff_not, not_le] at hcap
    by_cases hstp : s'.stop = true
    · rcases hst hstp with h | h
      · exact Or.inr h
      · exfalso
        rw [hsc] at h
        omega
    · exact Or.inl (hstop' (by
        cases h2 : s'.stop
        · rfl
        · exact absurd h2 hstp))

end SessionList

namespace SessionList

/-! ## Every returned item re-decodes to a key (no well-formedness needed) -/

theorem stepFile_decodable {J : Type} (pj : String → Option J) (ps : Nat) (a : RKey)
    (s : TravSt J) (f : RKey × String × Content)
    (hdec : parseRollName f.2.1 = some f.1)
    (h : ∀ it ∈ s.items, ∃ k, parseRollName it.name = some k) :
    ∀ it ∈ (stepFile pj ps a s f).items, ∃ k, parseRollName it.name = some k := by
  unfold stepFile
  split_ifs <;> intro it hit
  · exact h it hit
  · exact h it hit
  · exact h it hit
  · exact h it hit
  · rcases List.mem_append.mp hit with h2 | h2
    · exact h it h2
    · simp only [List.mem_singleton] at h2
      subst h2
      exact ⟨f.1, hdec⟩

theorem processDay_decodable {J : Type} (pj : String → Option J) (ps : Nat) (a : RKey) :
    ∀ (files : List (RKey × String × Content)) (s : TravSt J),
      (∀ f ∈ files, parseRollName f.2.1 = some f.1) →
      (∀ it ∈ s.items, ∃ k, parseRollName it.name = some k) →
      ∀ it ∈ (processDay pj ps a files s).items, ∃ k, parseRollName it.name = some k := by
  intro files
  induction files with
  | nil => exact fun s _ h => h
  | cons f rest ih =>
    intro s hdec h
    unfold processDay
    simp only [List.foldl_cons]
    exact ih (stepFile pj ps a s f)
      (fun g hg => hdec g (by simp [hg]))
      (stepFile_decodable pj ps a s f (hdec f (by simp)) h)

theorem processDays_decodable {J : Type} (pj : String → Option J) (ps : Nat) (a : RKey) :
    ∀ (l : List (Nat × Option (List DEnt))) (s s' : TravSt J),
      processDays pj ps a l s = .ok s' →
      (∀ it ∈ s.items, ∃ k, parseRollName it.name = some k) →
      ∀ it ∈ s'.items, ∃ k, parseRollName it.name = some k := by
  intro l
  induction l with
  | nil =>
    intro s s' h hd
    injection h with h
    subst h
    exact hd
  | cons p rest ih =>
    intro s s' h hd
    obtain ⟨d, sub⟩ := p
    match sub, h with
    | none, h =>
      rw [processDays_cons_none] at h
      split at h
      · injection h with h
        subst h
        exact hd
      · split at h
        · injection h with h
          subst h
          exact hd
        · exact absurd h (by simp)
    | some ents, h =>
      rw [processDays_cons_some] at h
      split at h
      · injection h with h
        subst h
        exact hd
      · split at h
        · injection h with h
          subst h
          exact hd
        · exact ih _ _ h (processDay_decodable pj ps a (collectDayFiles ents) s
            collectDayFiles_decode hd)

theorem processMonths_decodable {J : Type} (pj : String → Option J) (ps : Nat) (a : RKey) :
    ∀ (l : List (Nat × Option (List MEnt))) (s s' : TravSt J),
      processMonths pj ps a l s = .ok s' →
      (∀ it ∈ s.items, ∃ k, parseRollName it.name = some k) →
      ∀ it ∈ s'.items, ∃ k, parseRollName it.name = some k := by
  intro l
  induction l with
  | nil =>
    intro s s' h hd
    injection h with h
    subst h
    exact hd
  | cons p rest ih =>
    intro s s' h hd
    obtain ⟨d, sub⟩ := p
    match sub, h with
    | none, h =>
      rw [processMonths_cons_none] at h
      split at h
      · injection h with h
        subst h
        exact hd
      · split at h
        · injection h with h
          subst h
          exact hd
        · exact absurd h (by simp)
    | some ml, h =>
      rw [processMonths_cons_some] at h
      split at h
      · injection h with h
        subst h
        exact hd
      · split at h
        · injection h with h
          subst h
          exact hd
        · cases hdd : processDays pj ps a (collectDays ml) s with
          | error e =>
            rw [hdd] at h
            exact absurd h (by simp [Bind.bind, Except.bind])
          | ok s1 =>
            rw [hdd, exceptBind_ok] at h
            exact ih _ _ h (processDays_decodable pj ps a (collectDays ml) s s1 hdd hd)

theorem processYears_decodable {J : Type} (pj : String → Option J) (ps : Nat) (a : RKey) :
    ∀ (l : List (Nat × Option (List YEnt))) (s s' : TravSt J),
      processYears pj ps a l s = .ok s' →
      (∀ it ∈ s.items, ∃ k, parseRollName it.name = some k) →
      ∀ it ∈ s'.items, ∃ k, parseRollName it.name = some k := by
  intro l
  induction l with
  | nil =>
    intro s s' h hd
    injection h with h
    subst h
    exact hd
  | cons p rest ih =>
    intro s s' h hd
    obtain ⟨d, sub⟩ := p
    match sub, h with
    | none, h =>
      rw [processYears_cons_none] at h
      split at h
      · injection h with h
        subst h
        exact hd
      · split at h
        · injection h with h
          subst h
          exact hd
        · exact absurd h (by simp)
    | some yl, h =>
      rw [processYears_cons_some] at h
      split at h
      · injection h with h
        subst h
        exact hd
      · split at h
        · injection h with h
          subst h
          exact hd
        · cases hdd : processMonths pj ps a (collectMonths yl) s with
          | error e =>
            rw [hdd] at h
            exact absurd h (by simp [Bind.bind, Except.bind])
          | ok s1 =>
            rw [hdd, exceptBind_ok] at h
            exact ih _ _ h (processMonths_decodable pj ps a (collectMonths yl) s s1 hdd hd)

theorem traverse_decodable {J : Type} (pj : String → Option J)
    (root : Option (List REnt)) (ps : Nat) (anchor : Option RKey) (page : Page J)
    (h : traverse pj root ps anchor = .ok page) :
    (∀ it ∈ page.items, ∃ k, parseRollName it.name = some k) ∧
      page.next_cursor = buildNextCursor page.items := by
  match root with
  | none => exact absurd h (by simp [traverse])
  | some rents =>
    rw [traverse_some] at h
    cases hy : processYears pj ps (anchor.getD nilKey) (collectYears rents)
        ⟨[], 0, anchor.isNone, false⟩ with
    | error e =>
      rw [hy] at h
      exact absurd h (by simp [Except.map])
    | ok s' =>
      rw [hy] at h
      simp only [Except.map] at h
      injection h with h
      subst h
      exact ⟨processYears_decodable pj ps (anchor.getD nilKey) (collectYears rents)
        _ s' hy (by simp), rfl⟩

end SessionList

namespace SessionList

/-! ## Evaluation helpers for the witness tree -/

theorem mergeSort_pair {α : Type} (le : α → α → Bool) (a b : α) :
    List.mergeSort [a, b] le = if le a b then [a, b] else [b, a] := by
  rw [List.mergeSort]
  simp [List.merge]

theorem fx_years : collectYears Fx.rents = [(2024, some [Fx.mon1])] := by
  unfold collectYears
  refine Eq.trans (b := sortDescByFst [(2024, some [Fx.mon1])]) ?_ ?_
  · congr 1
  · unfold sortDescByFst
    rw [List.mergeSort_singleton]

theorem fx_months : collectMonths [Fx.mon1] = [(1, some [Fx.day2])] := by
  unfold collectMonths
  refine Eq.trans (b := sortDescByFst [(1, some [Fx.day2])]) ?_ ?_
  · congr 1
  · unfold sortDescByFst
    rw [List.mergeSort_singleton]

theorem fx_days : collectDays [Fx.day2] = [(2, some [Fx.f2, Fx.f1])] := by
  unfold collectDays
  refine Eq.trans (b := sortDescByFst [(2, some [Fx.f2, Fx.f1])]) ?_ ?_
  · congr 1
  · unfold sortDescByFst
    rw [List.mergeSort_singleton]

theorem fx_dayFiles :
    collectDayFiles [Fx.f2, Fx.f1] =
      [(Fx.key1, Fx.n1, some [some "1"]), (Fx.key2, Fx.n2, some [some "2"])] := by
  unfold collectDayFiles
  refine Eq.trans
    (b := List.mergeSort [(Fx.key2, Fx.n2, (some [some "2"] : Content)),
      (Fx.key1, Fx.n1, (some [some "1"] : Content))]
      fun x y => RKey.code y.1 ≤ RKey.code x.1) ?_ ?_
  · congr 1
  · rw [mergeSort_pair]
    decide

theorem fx_wfRoot : WfRoot Fx.rents := by
  unfold WfRoot
  rw [fx_years]
  refine ⟨by decide, ?_⟩
  intro p hp
  rw [List.mem_singleton] at hp
  subst hp
  show WfYear 2024 [Fx.mon1]
  unfold WfYear
  rw [fx_months]
  refine ⟨by decide, ?_⟩
  intro p hp
  rw [List.mem_singleton] at hp
  subst hp
  show WfMonth 2024 1 [Fx.day2]
  unfold WfMonth
  rw [fx_days]
  refine ⟨by decide, ?_⟩
  intro p hp
  rw [List.mem_singleton] at hp
  subst hp
  show WfDay 2024 1 2 [Fx.f2, Fx.f1]
  unfold WfDay
  rw [fx_dayFiles]
  exact ⟨by decide, by decide⟩

theorem fx_page1 : traverse Fx.pjNum (some (Fx.rents)) 5 none = .ok Fx.page1 := by
  rw [traverse_some, fx_years, processYears_cons_some, fx_months, processMonths_cons_some,
    fx_days, processDays_cons_some, fx_dayFiles]
  rfl

end SessionList

namespace SessionList

/-! ## The claims -/

/-- C1: on a well-formed root, a request whose cursor decodes to a valid
anchor key returns a page whose items are exactly the first `page_size`
visit-order files with key strictly below the anchor: the scanned prefix
`V₁` of the visit order is filtered by `keyLt · a₀` (files at or newer
than the anchor are skipped, the first strictly smaller key opens the
page), every returned item's key is strictly below the anchor, and unless
the scan cap was hit the page either exhausts the tree or is full — so a
follow-up page has no gap and no overlap and never repeats an item. -/
theorem c1_anchor_pagination {J : Type} (pj : String → Option J) (rents : List REnt)
    (ps : Nat) (a₀ : RKey) (hwf : WfRoot rents) (hva : ValidKey a₀) :
    ∃ (V₁ V₂ : List RKey) (page : Page J),
      visitKeys rents = V₁ ++ V₂ ∧
      traverse pj (some rents) ps (some a₀) = .ok page ∧
      page.items.map (fun it => parseRollName it.name) =
        ((V₁.filter fun k => keyLt k a₀).take ps).map some ∧
      (∀ it ∈ page.items, ∀ k, parseRollName it.name = some k → keyLt k a₀ = true) ∧
      (page.reached_scan_cap = false →
        V₂ = [] ∨ ps ≤ (V₁.filter fun k => keyLt k a₀).length) := by
  obtain ⟨V₁, V₂, page, hsplit, htrav, hitems, hscan, hcur, hcap, hfull⟩ :=
    traverse_inv pj rents ps (some a₀) hwf
      (fun a h => by injection h with h; exact h ▸ hva)
  have hkeep : keepB (some a₀) = fun k => keyLt k a₀ := funext fun _ => rfl
  rw [hkeep] at hitems hfull
  refine ⟨V₁, V₂, page, hsplit, htrav, hitems, ?_, hfull⟩
  intro it hit k hk
  have hmem : parseRollName it.name ∈ page.items.map fun it => parseRollName it.name :=
    List.mem_map_of_mem _ hit
  rw [hitems] at hmem
  obtain ⟨k', hk', hkeq⟩ := List.mem_map.mp hmem
  have hk'f : k' ∈ V₁.filter fun k => keyLt k a₀ := List.take_subset _ _ hk'
  have hlt := (List.mem_filter.mp hk'f).2
  rw [hk] at hkeq
  injection hkeq with hkeq
  exact hkeq ▸ hlt

theorem c1_anchor_pagination_witness :
    WfRoot Fx.rents ∧ ValidKey Fx.key1 ∧
      ∃ (V₁ V₂ : List RKey) (page : Page Nat),
        visitKeys Fx.rents = V₁ ++ V₂ ∧
        traverse Fx.pjNum (some Fx.rents) 5 (some Fx.key1) = .ok page ∧
        page.items.map (fun it => parseRollName it.name) =
          ((V₁.filter fun k => keyLt k Fx.key1).take 5).map some ∧
        (∀ it ∈ page.items, ∀ k, parseRollName it.name = some k → keyLt k Fx.key1 = true) ∧
        (page.reached_scan_cap = false →
          V₂ = [] ∨ 5 ≤ (V₁.filter fun k => keyLt k Fx.key1).length) :=
  ⟨fx_wfRoot, by decide,
    c1_anchor_pagination Fx.pjNum Fx.rents 5 Fx.key1 fx_wfRoot (by decide)⟩

/-- C2: on a well-formed root every successful request's items decode to a
key sequence that is strictly descending (each later key `keyLt` each
earlier one, i.e. timestamp descending with ties broken by id descending)
and free of duplicates, whatever order the filesystem listed the
directories in (the hypotheses mention no listing order). -/
theorem c2_items_strictly_descending {J : Type} (pj : String → Option J)
    (rents : List REnt) (ps : Nat) (anchor : Option RKey) (hwf : WfRoot rents)
    (hva : ∀ a₀, anchor = some a₀ → ValidKey a₀) :
    ∃ (page : Page J) (ks : List RKey),
      traverse pj (some rents) ps anchor = .ok page ∧
      page.items.map (fun it => parseRollName it.name) = ks.map some ∧
      List.Pairwise (fun a b => keyLt b a = true) ks ∧ ks.Nodup := by
  obtain ⟨V₁, V₂, page, hsplit, htrav, hitems, -, -, -, -⟩ :=
    traverse_inv pj rents ps anchor hwf hva
  have hflat := wfRoot_flat hwf
  have hvk : List.Pairwise (fun a b : RKey => b.code < a.code) (visitKeys rents) := by
    unfold visitKeys
    exact List.pairwise_map.mpr hflat.1
  have hsub : ((V₁.filter (keepB anchor)).take ps).Sublist (visitKeys rents) := by
    rw [hsplit]
    exact ((List.take_sublist _ _).trans (List.filter_sublist _)).trans
      (List.sublist_append_left V₁ V₂)
  have hpw : List.Pairwise (fun a b : RKey => b.code < a.code)
      ((V₁.filter (keepB anchor)).take ps) := hvk.sublist hsub
  have hval : ∀ k ∈ (V₁.filter (keepB anchor)).take ps, ValidKey k := by
    intro k hk
    have hm : k ∈ visitKeys rents := hsub.subset hk
    unfold visitKeys at hm
    obtain ⟨f, hf, hfk⟩ := List.mem_map.mp hm
    exact hfk ▸ (hflat.2 f hf).1
  refine ⟨page, (V₁.filter (keepB anchor)).take ps, htrav, hitems, ?_, ?_⟩
  · refine List.Pairwise.imp_of_mem ?_ hpw
    intro a b ha hb hlt
    exact (keyLt_iff_code (hval b hb) (hval a ha)).mpr hlt
  · exact hpw.imp fun h => fun he => absurd (he ▸ h) (lt_irrefl _)

theorem c2_items_strictly_descending_witness :
    WfRoot Fx.rents ∧
      ∃ (page : Page Nat) (ks : List RKey),
        traverse Fx.pjNum (some Fx.rents) 5 none = .ok page ∧
        page.items.map (fun it => parseRollName it.name) = ks.map some ∧
        List.Pairwise (fun a b => keyLt b a = true) ks ∧ ks.Nodup :=
  ⟨fx_wfRoot, c2_items_strictly_descending Fx.pjNum Fx.rents 5 none fx_wfRoot
    (fun _ h => Option.noConfusion h)⟩

/-- C3 (amended): the head reader consumes only the first 5 lines of the
file — it equals the spec's skip-blanks collector run on that 5-line
window, so a blank or unparsable line inside the window costs one of the
5 slots instead of being skipped for free — collects at most 5 records,
and an unopenable file yields an empty head. -/
theorem c3_head_reader_first_lines {J : Type} (pj : String → Option J)
    (lines : List (Option String)) :
    readFirstJsonlRecords pj lines 5 = specHeadRead pj (lines.take 5) 5 ∧
    (readFirstJsonlRecords pj lines 5).length ≤ 5 ∧
    headOf pj none = [] := by
  refine ⟨?_, ?_, rfl⟩
  · rw [specHeadRead_all pj (lines.take 5) 5 (by simp)]
    rfl
  · calc (readFirstJsonlRecords pj lines 5).length
        ≤ (lines.take 5).length := List.length_filterMap_le _ _
      _ ≤ 5 := by simp

theorem c3_head_reader_counterexample :
    readFirstJsonlRecords Fx.pjNum
        [some "", some "1", some "2", some "3", some "4", some "5"] 5 ≠
      specHeadRead Fx.pjNum
        [some "", some "1", some "2", some "3", some "4", some "5"] 5 := by
  decide

/-- C4: filename decoding agrees with the spec's description — strip the
`rollout-` prefix and `.jsonl` suffix, then accept the rightmost hyphen
split whose suffix parses as a UUID and whose prefix parses as a
`YYYY-MM-DDThh-mm-ss` timestamp (`specRollDecode`) — every collected day
file re-decodes to its key, and a file whose name fails the grammar never
appears among the collected (hence scanned) files and raises no error. -/
theorem c4_filename_decode (name : String) (ents : List DEnt) :
    parseRollName name = specRollDecode name ∧
    (∀ f ∈ collectDayFiles ents, parseRollName f.2.1 = some f.1) ∧
    (∀ n c, DEnt.file n c ∈ ents → parseRollName n = none →
      ∀ f ∈ collectDayFiles ents, f.2.1 ≠ n) := by
  refine ⟨parseRollName_eq_spec name, collectDayFiles_decode, ?_⟩
  intro n c _ hnone f hf hfn
  have hdec := collectDayFiles_decode f hf
  rw [hfn, hnone] at hdec
  exact absurd hdec (by simp)

/-- C5: the scan counter of a completed request exceeds the 50,000-file
cap by at most one day's worth of files (`maxDayR`, the largest decoded
day listing in the tree), and `reached_scan_cap` is reported exactly when
the final `scanned_files` is at least the cap. -/
theorem c5_scan_cap_soft {J : Type} (pj : String → Option J) (rents : List REnt)
    (ps : Nat) (anchor : Option RKey) (p : Page J)
    (h : traverse pj (some rents) ps anchor = .ok p) :
    p.scanned_files ≤ MAX_SCAN_FILES - 1 + maxDayR rents ∧
      (p.reached_scan_cap = true ↔ MAX_SCAN_FILES ≤ p.scanned_files) :=
  traverse_scanned pj rents ps anchor p h

theorem c5_scan_cap_soft_witness :
    traverse Fx.pjNum (some Fx.rents) 5 none = .ok Fx.page1 ∧
      (Fx.page1.scanned_files ≤ MAX_SCAN_FILES - 1 + maxDayR Fx.rents ∧
        (Fx.page1.reached_scan_cap = true ↔ MAX_SCAN_FILES ≤ Fx.page1.scanned_files)) :=
  ⟨fx_page1, c5_scan_cap_soft Fx.pjNum Fx.rents 5 none Fx.page1 fx_page1⟩

/-- C6: a cursor string the decoder rejects is the same as no cursor at
all — the request runs with no anchor from the newest file and surfaces
no error. -/
theorem c6_malformed_cursor_restarts {J : Type} (pj : String → Option J)
    (root : Option (Option (List REnt))) (ps : Nat) (tok : String)
    (h : parseCursor tok = none) :
    getConversations pj root ps (some tok) = getConversations pj root ps none := by
  unfold getConversations
  cases root with
  | none => rfl
  | some r =>
    have hb : (some tok).bind parseCursor = (none : Option String).bind parseCursor := by
      simp [h]
    rw [hb]

theorem c6_malformed_cursor_restarts_witness :
    parseCursor "not-a-cursor" = none ∧
      getConversations Fx.pjNum (some (some Fx.rents)) 5 (some "not-a-cursor") =
        getConversations Fx.pjNum (some (some Fx.rents)) 5 none :=
  ⟨rfl, c6_malformed_cursor_restarts Fx.pjNum (some (some Fx.rents)) 5 "not-a-cursor" rfl⟩

/-- C9: cursor encoding round-trips — every successful page's
`next_cursor` is the encoding of the key its last item's filename decodes
to, and decoding that cursor returns exactly that key; in general any key
decodable from a rollout filename survives `encodeCursor` then
`parseCursor` unchanged. -/
theorem c9_cursor_roundtrip {J : Type} (pj : String → Option J)
    (root : Option (List REnt)) (ps : Nat) (anchor : Option RKey) (page : Page J)
    (h : traverse pj root ps anchor = .ok page) :
    (∀ it, page.items.getLast? = some it →
      ∃ k, parseRollName it.name = some k ∧
        page.next_cursor = some (encodeCursor k) ∧
        parseCursor (encodeCursor k) = some k) ∧
    (∀ (nm : String) (k : RKey), parseRollName nm = some k →
      parseCursor (encodeCursor k) = some k) := by
  obtain ⟨hdec, hnext⟩ := traverse_decodable pj root ps anchor page h
  constructor
  · intro it hlast
    obtain ⟨k, hk⟩ := hdec it (List.mem_of_getLast?_eq_some hlast)
    refine ⟨k, hk, ?_, parseCursor_encode (parseRollName_valid hk)⟩
    rw [hnext]
    unfold buildNextCursor
    rw [hlast]
    show (parseRollName it.name).map encodeCursor = some (encodeCursor k)
    rw [hk]
    rfl
  · intro nm k hk
    exact parseCursor_encode (parseRollName_valid hk)

theorem c9_cursor_roundtrip_witness :
    traverse Fx.pjNum (some Fx.rents) 5 none = .ok Fx.page1 ∧
      ((∀ it, Fx.page1.items.getLast? = some it →
        ∃ k, parseRollName it.name = some k ∧
          Fx.page1.next_cursor = some (encodeCursor k) ∧
          parseCursor (encodeCursor k) = some k) ∧
      (∀ (nm : String) (k : RKey), parseRollName nm = some k →
        parseCursor (encodeCursor k) = some k)) :=
  ⟨fx_page1, c9_cursor_roundtrip Fx.pjNum (some Fx.rents) 5 none Fx.page1 fx_page1⟩

end SessionList

namespace ConfigEdit

/-- C10: the patcher's emitted step sequence keeps `config.toml` whole at
every prefix — after any number of its steps the file holds either the
original contents or the complete new serialization, never a partial
write, and after all steps it holds the new serialization — while a read
or parse failure of the existing document yields an error with the
on-disk file unchanged. -/
theorem c10_atomic_config_write {Doc : Type} (parseToml : String → Option Doc)
    (newDoc : Doc) (applyOv : Doc → Doc) (serialize : Doc → String)
    (readFails : Bool) (config : Option String) :
    (∀ d ops, loadDoc parseToml newDoc readFails config = .ok d →
      persistOps parseToml newDoc applyOv serialize readFails config = .ok ops →
      (∀ n, (runOps ⟨config, none⟩ (ops.take n)).config = config ∨
        (runOps ⟨config, none⟩ (ops.take n)).config = some (serialize (applyOv d))) ∧
      (runOps ⟨config, none⟩ ops).config = some (serialize (applyOv d))) ∧
    (loadDoc parseToml newDoc readFails config = .error () →
      persistRun parseToml newDoc applyOv serialize readFails config =
        (.error (), ⟨config, none⟩)) := by
  constructor
  · intro d ops hld hops
    unfold persistOps at hops
    rw [hld] at hops
    have h2 : (Except.ok [FsOp.createTmp, FsOp.writeTmp (serialize (applyOv d)),
        FsOp.renameTmpOverConfig] : Except Unit (List FsOp)) = Except.ok ops := hops
    injection h2 with h2
    subst h2
    constructor
    · intro n
      match n with
      | 0 => exact Or.inl rfl
      | 1 => exact Or.inl rfl
      | 2 => exact Or.inl rfl
      | n + 3 =>
        refine Or.inr ?_
        rw [List.take_of_length_le (by simp)]
        rfl
    · rfl
  · intro hld
    unfold persistRun persistOps
    rw [hld]
    rfl

end ConfigEdit

namespace SessionList

/-! ## Determinism under directory-enumeration order: sorted transport -/

theorem forall₂_fst_eq {α : Type} {R : (Nat × α) → (Nat × α) → Prop}
    (hR : ∀ p q, R p q → p.1 = q.1) :
    ∀ {l₁ l₂ : List (Nat × α)}, List.Forall₂ R l₁ l₂ →
      l₁.map (·.1) = l₂.map (·.1) := by
  intro l₁ l₂ h
  induction h with
  | nil => rfl
  | cons hpq _ ih => simp only [List.map_cons, ih, hR _ _ hpq]

theorem forall₂_filterMap {α β : Type} {R : α → α → Prop} {S : β → β → Prop}
    (f : α → Option β) :
    ∀ {l₁ l₂ : List α}, List.Forall₂ R l₁ l₂ →
      (∀ a ∈ l₁, ∀ b ∈ l₂, R a b → optRel S (f a) (f b)) →
      List.Forall₂ S (l₁.filterMap f) (l₂.filterMap f) := by
  intro l₁ l₂ h
  induction h with
  | nil => exact fun _ => List.Forall₂.nil
  | cons hpq htail ih =>
    rename_i a b l₁' l₂'
    intro hpt
    have hhead := hpt a (by simp) b (by simp) hpq
    have hrest := ih fun x hx y hy hxy => hpt x (by simp [hx]) y (by simp [hy]) hxy
    rw [List.filterMap_cons, List.filterMap_cons]
    cases hfa : f a with
    | none =>
      cases hfb : f b with
      | none => exact hrest
      | some v => rw [hfa, hfb] at hhead; exact (hhead : False).elim
    | some u =>
      cases hfb : f b with
      | none => rw [hfa, hfb] at hhead; exact (hhead : False).elim
      | some v =>
        rw [hfa, hfb] at hhead
        exact List.Forall₂.cons (hhead : S u v) hrest

theorem mem_fst_unique {α : Type} {l : List (Nat × α)}
    (hnd : (l.map (·.1)).Nodup) {p q : Nat × α} (hp : p ∈ l) (hq : q ∈ l)
    (h : p.1 = q.1) : p = q := by
  obtain ⟨i, hi⟩ := List.mem_iff_get.mp hp
  obtain ⟨j, hj⟩ := List.mem_iff_get.mp hq
  have hnd' := List.nodup_iff_injective_get.mp hnd
  have hij : (⟨i.1, by simpa using i.2⟩ : Fin (l.map (·.1)).length) =
      ⟨j.1, by simpa using j.2⟩ := by
    apply hnd'
    simp only [List.get_map, hi, hj, h]
  have hv : i = j := by
    have h' := hij
    rw [Fin.mk.injEq] at h'
    exact Fin.ext h'
  rw [← hi, ← hj, hv]

theorem sort_transport {α : Type} {R : (Nat × α) → (Nat × α) → Prop}
    (hR : ∀ p q, R p q → p.1 = q.1)
    {A B C : List (Nat × α)} (hAB : A.Perm B) (hBC : List.Forall₂ R B C)
    (hnd : (A.map (·.1)).Nodup) :
    List.Forall₂ R (sortDescByFst A) (sortDescByFst C) := by
  have hfstBC : B.map (·.1) = C.map (·.1) := forall₂_fst_eq hR hBC
  have hndB : (B.map (·.1)).Nodup := ((hAB.map (·.1)).nodup_iff).mp hnd
  have hndC : (C.map (·.1)).Nodup := hfstBC ▸ hndB
  have hpermA : (sortDescByFst A).Perm A := List.mergeSort_perm _ _
  have hpermC : (sortDescByFst C).Perm C := List.mergeSort_perm _ _
  -- strict descending sortedness of both sorted lists
  have hstrict : ∀ (L : List (Nat × α)), (L.map (·.1)).Nodup →
      List.Pairwise (fun p q : Nat × α => q.1 < p.1) (sortDescByFst L) := by
    intro L hndL
    have hle := sortDescByFst_sorted L
    have hne : List.Pairwise (fun p q : Nat × α => p.1 ≠ q.1) (sortDescByFst L) := by
      have hndS : ((sortDescByFst L).map (·.1)).Nodup :=
        (((List.mergeSort_perm L _).map (·.1)).nodup_iff).mpr hndL
      exact nodup_fst_pairwise hndS
    exact (hle.and hne).imp fun h => by omega
  have hsA := hstrict A hnd
  have hsC := hstrict C hndC
  -- the two sorted lists carry the same first components
  haveI : IsAntisymm Nat (fun a b => b < a) :=
    ⟨fun a b h1 h2 => absurd (Nat.lt_trans h1 h2) (Nat.lt_irrefl _)⟩
  have hfsts : (sortDescByFst A).map (·.1) = (sortDescByFst C).map (·.1) := by
    refine List.eq_of_perm_of_sorted (r := fun a b => b < a) ?_ ?_ ?_
    · exact (hpermA.map _).trans <| ((hAB.map _).trans (hfstBC ▸ (hpermC.map _).symm))
    · exact List.pairwise_map.mpr (hsA.imp fun h => h)
    · exact List.pairwise_map.mpr (hsC.imp fun h => h)
  -- relate the two sorted lists index by index
  have hlen : (sortDescByFst A).length = (sortDescByFst C).length := by
    have := congrArg List.length hfsts
    simpa using this
  rw [List.forall₂_iff_get]
  refine ⟨hlen, ?_⟩
  intro i h₁ h₂
  set p := (sortDescByFst A).get ⟨i, h₁⟩ with hp
  set q := (sortDescByFst C).get ⟨i, h₂⟩ with hq
  have hfsti : p.1 = q.1 := by
    have hc := List.getElem_of_eq hfsts (i := i) (by simpa using h₁)
    simp only [List.getElem_map] at hc
    simpa [hp, hq, List.get_eq_getElem] using hc
  have hpB : p ∈ B := (hAB.mem_iff).mp (hpermA.mem_iff.mp (List.get_mem _ _ _))
  have hqC : q ∈ C := hpermC.mem_iff.mp (List.get_mem _ _ _)
  -- the Forall₂ partner of p in C is the unique element with p's key, i.e. q
  obtain ⟨j, hj⟩ := List.mem_iff_get.mp hpB
  obtain ⟨hlenBC, hgetBC⟩ := List.forall₂_iff_get.mp hBC
  have hRpc : R p (C.get ⟨j.1, by omega⟩) := by
    have := hgetBC j.1 j.2 (by omega)
    rw [hj] at this
    exact this
  have hCjC : C.get ⟨j.1, by omega⟩ ∈ C := List.get_mem _ _ _
  have heq : C.get ⟨j.1, by omega⟩ = q := by
    refine mem_fst_unique hndC hCjC hqC ?_
    rw [← hR _ _ hRpc, hfsti]
  rw [heq] at hRpc
  exact hRpc

end SessionList

namespace SessionList

/-! ## Determinism: one day's sorted file list is enumeration-independent -/

theorem collectDayFiles_perm {l₁ l₂ : List DEnt} (hp : l₁.Perm l₂) :
    (collectDayFiles l₁).Perm (collectDayFiles l₂) := by
  unfold collectDayFiles
  exact ((List.mergeSort_perm _ _).trans (hp.filterMap _)).trans
    (List.mergeSort_perm _ _).symm

theorem wfDay_perm {y m d : Nat} {l₁ l₂ : List DEnt} (hp : l₁.Perm l₂)
    (hwf : WfDay y m d l₁) : WfDay y m d l₂ := by
  obtain ⟨hnd, hval⟩ := hwf
  have hcp := collectDayFiles_perm hp
  refine ⟨((hcp.map _).nodup_iff).mp hnd, ?_⟩
  intro f hf
  exact hval f (hcp.mem_iff.mpr hf)

theorem collectDayFiles_eq_of_perm {y m d : Nat} {l₁ l₂ : List DEnt}
    (hp : l₁.Perm l₂) (hwf : WfDay y m d l₁) :
    collectDayFiles l₁ = collectDayFiles l₂ := by
  haveI : IsAntisymm (RKey × String × Content)
      (fun x z : RKey × String × Content => z.1.code < x.1.code) :=
    ⟨fun a b h1 h2 => absurd (Nat.lt_trans h1 h2) (Nat.lt_irrefl _)⟩
  exact List.eq_of_perm_of_sorted (collectDayFiles_perm hp)
    (wfDay_sorted hwf) (wfDay_sorted (wfDay_perm hp hwf))

end SessionList

namespace SessionList

/-! ## Determinism: collected shard lists match level by level -/

theorem collectDays_rel {y m : Nat} {ml₁ ml₂ : List MEnt}
    (hpm : permMod MEq ml₁ ml₂) (hwf : WfMonth y m ml₁) :
    List.Forall₂ DayRel (collectDays ml₁) (collectDays ml₂) := by
  obtain ⟨l', hperm, hf2⟩ := hpm
  unfold collectDays
  refine sort_transport (fun p q h => h.1) (hperm.filterMap _) ?_ ?_
  · refine forall₂_filterMap _ hf2 ?_
    intro a ha b hb hab
    match a, b, hab, ha with
    | MEnt.dir n₁ s₁, MEnt.dir n₂ s₂, hab, ha =>
      obtain ⟨hn, hsub⟩ := hab
      subst hn
      show optRel DayRel ((parseRustUInt 255 n₁).map fun v => (v, s₁))
        ((parseRustUInt 255 n₁).map fun v => (v, s₂))
      cases hv : parseRustUInt 255 n₁ with
      | none => exact trivial
      | some v =>
        show DayRel (v, s₁) (v, s₂)
        refine ⟨rfl, ?_⟩
        show s₁.map collectDayFiles = s₂.map collectDayFiles
        match s₁, s₂, hsub, ha with
        | none, none, _, _ => rfl
        | none, some d₂, hsub, _ => exact (hsub : False).elim
        | some d₁, none, hsub, _ => exact (hsub : False).elim
        | some d₁, some d₂, hsub, ha =>
          obtain ⟨d', hdp, hde⟩ := hsub
          have hde' : d' = d₂ := List.forall₂_eq_eq_eq ▸ hde
          subst hde'
          have hmem : (v, some d₁) ∈ collectDays ml₁ := by
            unfold collectDays sortDescByFst
            rw [List.mem_mergeSort]
            refine List.mem_filterMap.mpr ⟨MEnt.dir n₁ (some d₁), ?_, ?_⟩
            · exact hperm.mem_iff.mpr ha
            · simp [hv]
          have hwd := hwf.2 _ hmem
          exact congrArg some (collectDayFiles_eq_of_perm hdp hwd)
    | MEnt.file n₁, MEnt.file n₂, hab, ha => exact trivial
  · have h1 := hwf.1
    unfold collectDays sortDescByFst at h1
    exact (((List.mergeSort_perm _ _).map _).nodup_iff).mp h1

theorem collectMonths_rel {y : Nat} {yl₁ yl₂ : List YEnt}
    (hpm : permMod YEq yl₁ yl₂) (hwf : WfYear y yl₁) :
    List.Forall₂ MonRel (collectMonths yl₁) (collectMonths yl₂) := by
  obtain ⟨l', hperm, hf2⟩ := hpm
  unfold collectMonths
  refine sort_transport (fun p q h => h.1) (hperm.filterMap _) ?_ ?_
  · refine forall₂_filterMap _ hf2 ?_
    intro a ha b hb hab
    match a, b, hab, ha with
    | YEnt.dir n₁ s₁, YEnt.dir n₂ s₂, hab, ha =>
      obtain ⟨hn, hsub⟩ := hab
      subst hn
      show optRel MonRel ((parseRustUInt 255 n₁).map fun v => (v, s₁))
        ((parseRustUInt 255 n₁).map fun v => (v, s₂))
      cases hv : parseRustUInt 255 n₁ with
      | none => exact trivial
      | some v =>
        show MonRel (v, s₁) (v, s₂)
        refine ⟨rfl, ?_⟩
        show optRel (fun m₁ m₂ => List.Forall₂ DayRel (collectDays m₁) (collectDays m₂)) s₁ s₂
        match s₁, s₂, hsub, ha with
        | none, none, _, _ => exact trivial
        | none, some m₂, hsub, _ => exact (hsub : False).elim
        | some m₁, none, hsub, _ => exact (hsub : False).elim
        | some m₁, some m₂, hsub, ha =>
          have hmem : (v, some m₁) ∈ collectMonths yl₁ := by
            unfold collectMonths sortDescByFst
            rw [List.mem_mergeSort]
            refine List.mem_filterMap.mpr ⟨YEnt.dir n₁ (some m₁), ?_, ?_⟩
            · exact hperm.mem_iff.mpr ha
            · simp [hv]
          exact collectDays_rel hsub (hwf.2 _ hmem)
    | YEnt.file n₁, YEnt.file n₂, hab, ha => exact trivial
  · have h1 := hwf.1
    unfold collectMonths sortDescByFst at h1
    exact (((List.mergeSort_perm _ _).map _).nodup_iff).mp h1

theorem collectYears_rel {r₁ r₂ : List REnt}
    (hpm : permMod REq r₁ r₂) (hwf : WfRoot r₁) :
    List.Forall₂ YrRel (collectYears r₁) (collectYears r₂) := by
  obtain ⟨l', hperm, hf2⟩ := hpm
  unfold collectYears
  refine sort_transport (fun p q h => h.1) (hperm.filterMap _) ?_ ?_
  · refine forall₂_filterMap _ hf2 ?_
    intro a ha b hb hab
    match a, b, hab, ha with
    | REnt.dir n₁ s₁, REnt.dir n₂ s₂, hab, ha =>
      obtain ⟨hn, hsub⟩ := hab
      subst hn
      show optRel YrRel ((parseRustUInt 65535 n₁).map fun v => (v, s₁))
        ((parseRustUInt 65535 n₁).map fun v => (v, s₂))
      cases hv : parseRustUInt 65535 n₁ with
      | none => exact trivial
      | some v =>
        show YrRel (v, s₁) (v, s₂)
        refine ⟨rfl, ?_⟩
        show optRel (fun y₁ y₂ => List.Forall₂ MonRel (collectMonths y₁) (collectMonths y₂)) s₁ s₂
        match s₁, s₂, hsub, ha with
        | none, none, _, _ => exact trivial
        | none, some y₂, hsub, _ => exact (hsub : False).elim
        | some y₁, none, hsub, _ => exact (hsub : False).elim
        | some y₁, some y₂, hsub, ha =>
          have hmem : (v, some y₁) ∈ collectYears r₁ := by
            unfold collectYears sortDescByFst
            rw [List.mem_mergeSort]
            refine List.mem_filterMap.mpr ⟨REnt.dir n₁ (some y₁), ?_, ?_⟩
            · exact hperm.mem_iff.mpr ha
            · simp [hv]
          exact collectMonths_rel hsub (hwf.2 _ hmem)
    | REnt.file n₁, REnt.file n₂, hab, ha => exact trivial
  · have h1 := hwf.1
    unfold collectYears sortDescByFst at h1
    exact (((List.mergeSort_perm _ _).map _).nodup_iff).mp h1

end SessionList

namespace SessionList

/-! ## Determinism: the traversal only consumes the collected lists -/

theorem processDays_congr {J : Type} (pj : String → Option J) (ps : Nat) (a : RKey)
    {L₁ L₂ : List (Nat × Option (List DEnt))} (h : List.Forall₂ DayRel L₁ L₂) :
    ∀ s : TravSt J, processDays pj ps a L₁ s = processDays pj ps a L₂ s := by
  induction h with
  | nil => intro s; rfl
  | cons hpq htail ih =>
    rename_i p q L₁' L₂'
    intro s
    obtain ⟨d₁, sub₁⟩ := p
    obtain ⟨d₂, sub₂⟩ := q
    obtain ⟨-, hsub⟩ := hpq
    match sub₁, sub₂, hsub with
    | none, none, _ =>
      rw [processDays_cons_none, processDays_cons_none]
    | none, some e₂, hsub => exact absurd hsub (by simp)
    | some e₁, none, hsub => exact absurd hsub (by simp)
    | some e₁, some e₂, hsub =>
      have hce : collectDayFiles e₁ = collectDayFiles e₂ := by
        have h' : some (collectDayFiles e₁) = some (collectDayFiles e₂) := hsub
        injection h' with h'
      rw [processDays_cons_some, processDays_cons_some, hce, ih]

theorem processMonths_congr {J : Type} (pj : String → Option J) (ps : Nat) (a : RKey)
    {L₁ L₂ : List (Nat × Option (List MEnt))} (h : List.Forall₂ MonRel L₁ L₂) :
    ∀ s : TravSt J, processMonths pj ps a L₁ s = processMonths pj ps a L₂ s := by
  induction h with
  | nil => intro s; rfl
  | cons hpq htail ih =>
    rename_i p q L₁' L₂'
    intro s
    obtain ⟨d₁, sub₁⟩ := p
    obtain ⟨d₂, sub₂⟩ := q
    obtain ⟨-, hsub⟩ := hpq
    match sub₁, sub₂, hsub with
    | none, none, _ =>
      rw [processMonths_cons_none, processMonths_cons_none]
    | none, some m₂, hsub => exact (hsub : False).elim
    | some m₁, none, hsub => exact (hsub : False).elim
    | some m₁, some m₂, hsub =>
      rw [processMonths_cons_some, processMonths_cons_some,
        processDays_congr pj ps a (hsub : List.Forall₂ DayRel _ _)]
      have harm : (fun s' => processMonths pj ps a L₁' s') =
          (fun s' => processMonths pj ps a L₂' s') := funext fun s' => ih s'
      rw [harm]

theorem processYears_congr {J : Type} (pj : String → Option J) (ps : Nat) (a : RKey)
    {L₁ L₂ : List (Nat × Option (List YEnt))} (h : List.Forall₂ YrRel L₁ L₂) :
    ∀ s : TravSt J, processYears pj ps a L₁ s = processYears pj ps a L₂ s := by
  induction h with
  | nil => intro s; rfl
  | cons hpq htail ih =>
    rename_i p q L₁' L₂'
    intro s
    obtain ⟨d₁, sub₁⟩ := p
    obtain ⟨d₂, sub₂⟩ := q
    obtain ⟨-, hsub⟩ := hpq
    match sub₁, sub₂, hsub with
    | none, none, _ =>
      rw [processYears_cons_none, processYears_cons_none]
    | none, some y₂, hsub => exact (hsub : False).elim
    | some y₁, none, hsub => exact (hsub : False).elim
    | some y₁, some y₂, hsub =>
      rw [processYears_cons_some, processYears_cons_some,
        processMonths_congr pj ps a (hsub : List.Forall₂ MonRel _ _)]
      have harm : (fun s' => processYears pj ps a L₁' s') =
          (fun s' => processYears pj ps a L₂' s') := funext fun s' => ih s'
      rw [harm]

theorem traverse_enum_order {J : Type} (pj : String → Option J)
    {r₁ r₂ : List REnt} (hpm : permMod REq r₁ r₂) (hwf : WfRoot r₁)
    (ps : Nat) (anchor : Option RKey) :
    traverse pj (some r₁) ps anchor = traverse pj (some r₂) ps anchor := by
  rw [traverse_some, traverse_some,
    processYears_congr pj ps (anchor.getD nilKey) (collectYears_rel hpm hwf)]

end SessionList

namespace SessionList

/-! ## C8: the claim and its witness inputs -/

theorem fx_equiv : rootsEquiv (some (some Fx.rents)) (some (some Fx.rentsB)) := by
  show permMod REq Fx.rents Fx.rentsB
  refine ⟨Fx.rents, List.Perm.refl _, ?_⟩
  refine List.Forall₂.cons ?_ List.Forall₂.nil
  show REq Fx.yr (REnt.dir "2024" (some [YEnt.dir "01" (some [MEnt.dir "02" (some [Fx.f1, Fx.f2])])]))
  refine ⟨rfl, ?_⟩
  show permMod YEq [Fx.mon1] [YEnt.dir "01" (some [MEnt.dir "02" (some [Fx.f1, Fx.f2])])]
  refine ⟨[Fx.mon1], List.Perm.refl _, List.Forall₂.cons ⟨rfl, ?_⟩ List.Forall₂.nil⟩
  show permMod MEq [Fx.day2] [MEnt.dir "02" (some [Fx.f1, Fx.f2])]
  refine ⟨[Fx.day2], List.Perm.refl _, List.Forall₂.cons ⟨rfl, ?_⟩ List.Forall₂.nil⟩
  show permMod Eq [Fx.f2, Fx.f1] [Fx.f1, Fx.f2]
  exact ⟨[Fx.f1, Fx.f2], List.Perm.swap Fx.f1 Fx.f2 [],
    List.forall₂_eq_eq_eq ▸ rfl⟩

/-- C8: the listing is deterministic with respect to the filesystem's
enumeration order — for two requests over the same root contents (every
directory listed in possibly different orders, related by `rootsEquiv`),
the same page size and the same cursor, a well-formed tree yields the
identical page: same items in the same order, same `next_cursor`, same
`scanned_files` and `reached_scan_cap`. -/
theorem c8_enumeration_deterministic {J : Type} (pj : String → Option J)
    (r₁ r₂ : Option (Option (List REnt))) (ps : Nat) (cursor : Option String)
    (hequiv : rootsEquiv r₁ r₂)
    (hwf : ∀ rents, r₁ = some (some rents) → WfRoot rents) :
    getConversations pj r₁ ps cursor = getConversations pj r₂ ps cursor := by
  match r₁, r₂, hequiv with
  | none, none, _ => rfl
  | none, some b, hequiv => exact (hequiv : False).elim
  | some a, none, hequiv => exact (hequiv : False).elim
  | some none, some none, _ => rfl
  | some none, some (some b), hequiv => exact (hequiv : False).elim
  | some (some a), some none, hequiv => exact (hequiv : False).elim
  | some (some a), some (some b), hequiv =>
    unfold getConversations
    exact traverse_enum_order pj (hequiv : permMod REq a b) (hwf a rfl) ps _

theorem c8_enumeration_deterministic_witness :
    rootsEquiv (some (some Fx.rents)) (some (some Fx.rentsB)) ∧
      getConversations Fx.pjNum (some (some Fx.rents)) 5 none =
        getConversations Fx.pjNum (some (some Fx.rentsB)) 5 none :=
  ⟨fx_equiv,
    c8_enumeration_deterministic Fx.pjNum (some (some Fx.rents)) (some (some Fx.rentsB))
      5 none fx_equiv
      (fun r h => by injection h with h; injection h with h; exact h ▸ fx_wfRoot)⟩

end SessionList

namespace SessionList

/-! ## Listing failures the traversal reaches are fatal (C7)

`processX_append` splits a directory loop at any position;
`quiet_processX` shows that while fewer files have been scanned than
both the cap and the page size, no break fires (the state stays
`stop = false` with an exact scan count), so a subsequent unreadable
listing is reached and propagates its error. -/

theorem exceptBind_error {α β : Type} (f : α → Except Unit β) :
    (Except.error () : Except Unit α) >>= f = Except.error () := rfl

theorem processDays_stopped {J : Type} (pj : String → Option J) (ps : Nat) (a : RKey) :
    ∀ (L : List (Nat × Option (List DEnt))) (s : TravSt J), s.stop = true →
      processDays pj ps a L s = .ok s
  | [], _, _ => rfl
  | (_, none) :: _, _, h => by rw [processDays_cons_none, if_pos h]
  | (_, some _) :: _, _, h => by rw [processDays_cons_some, if_pos h]

theorem processMonths_stopped {J : Type} (pj : String → Option J) (ps : Nat) (a : RKey) :
    ∀ (L : List (Nat × Option (List MEnt))) (s : TravSt J), s.stop = true →
      processMonths pj ps a L s = .ok s
  | [], _, _ => rfl
  | (_, none) :: _, _, h => by rw [processMonths_cons_none, if_pos h]
  | (_, some _) :: _, _, h => by rw [processMonths_cons_some, if_pos h]

theorem processYears_stopped {J : Type} (pj : String → Option J) (ps : Nat) (a : RKey) :
    ∀ (L : List (Nat × Option (List YEnt))) (s : TravSt J), s.stop = true →
      processYears pj ps a L s = .ok s
  | [], _, _ => rfl
  | (_, none) :: _, _, h => by rw [processYears_cons_none, if_pos h]
  | (_, some _) :: _, _, h => by rw [processYears_cons_some, if_pos h]

theorem processDays_cons_cap {J : Type} (pj : String → Option J) (ps : Nat) (a : RKey)
    (d : Nat) (sub : Option (List DEnt)) (rest : List (Nat × Option (List DEnt)))
    (s : TravSt J) (hs : ¬s.stop = true) (hc : MAX_SCAN_FILES ≤ s.scanned) :
    processDays pj ps a ((d, sub) :: rest) s =
      .ok ⟨s.items, s.scanned, s.anchorPassed, true⟩ := by
  cases sub with
  | none => rw [processDays_cons_none, if_neg hs, if_pos hc]
  | some ents => rw [processDays_cons_some, if_neg hs, if_pos hc]

theorem processMonths_cons_cap {J : Type} (pj : String → Option J) (ps : Nat) (a : RKey)
    (d : Nat) (sub : Option (List MEnt)) (rest : List (Nat × Option (List MEnt)))
    (s : TravSt J) (hs : ¬s.stop = true) (hc : MAX_SCAN_FILES ≤ s.scanned) :
    processMonths pj ps a ((d, sub) :: rest) s =
      .ok ⟨s.items, s.scanned, s.anchorPassed, true⟩ := by
  cases sub with
  | none => rw [processMonths_cons_none, if_neg hs, if_pos hc]
  | some ml => rw [processMonths_cons_some, if_neg hs, if_pos hc]

theorem processYears_cons_cap {J : Type} (pj : String → Option J) (ps : Nat) (a : RKey)
    (d : Nat) (sub : Option (List YEnt)) (rest : List (Nat × Option (List YEnt)))
    (s : TravSt J) (hs : ¬s.stop = true) (hc : MAX_SCAN_FILES ≤ s.scanned) :
    processYears pj ps a ((d, sub) :: rest) s =
      .ok ⟨s.items, s.scanned, s.anchorPassed, true⟩ := by
  cases sub with
  | none => rw [processYears_cons_none, if_neg hs, if_pos hc]
  | some yl => rw [processYears_cons_some, if_neg hs, if_pos hc]

theorem processDays_append {J : Type} (pj : String → Option J) (ps : Nat) (a : RKey) :
    ∀ (L₁ L₂ : List (Nat × Option (List DEnt))) (s : TravSt J),
      processDays pj ps a (L₁ ++ L₂) s =
        processDays pj ps a L₁ s >>= fun s' => processDays pj ps a L₂ s' := by
  intro L₁
  induction L₁ with
  | nil => intro L₂ s; rfl
  | cons p L₁' ih =>
    intro L₂ s
    obtain ⟨d, sub⟩ := p
    rw [List.cons_append]
    by_cases hs : s.stop = true
    · rw [processDays_stopped pj ps a ((d, sub) :: (L₁' ++ L₂)) s hs,
        processDays_stopped pj ps a ((d, sub) :: L₁') s hs, exceptBind_ok,
        processDays_stopped pj ps a L₂ s hs]
    · by_cases hc : MAX_SCAN_FILES ≤ s.scanned
      · rw [processDays_cons_cap pj ps a d sub (L₁' ++ L₂) s hs hc,
          processDays_cons_cap pj ps a d sub L₁' s hs hc, exceptBind_ok,
          processDays_stopped pj ps a L₂ _ rfl]
      · cases sub with
        | none =>
          rw [processDays_cons_none, processDays_cons_none, if_neg hs, if_neg hc]
          exact (exceptBind_error _).symm
        | some ents =>
          rw [processDays_cons_some, processDays_cons_some, if_neg hs, if_neg hs,
            if_neg hc, if_neg hc, ih]

theorem processMonths_append {J : Type} (pj : String → Option J) (ps : Nat) (a : RKey) :
    ∀ (L₁ L₂ : List (Nat × Option (List MEnt))) (s : TravSt J),
      processMonths pj ps a (L₁ ++ L₂) s =
        processMonths pj ps a L₁ s >>= fun s' => processMonths pj ps a L₂ s' := by
  intro L₁
  induction L₁ with
  | nil => intro L₂ s; rfl
  | cons p L₁' ih =>
    intro L₂ s
    obtain ⟨d, sub⟩ := p
    rw [List.cons_append]
    by_cases hs : s.stop = true
    · rw [processMonths_stopped pj ps a ((d, sub) :: (L₁' ++ L₂)) s hs,
        processMonths_stopped pj ps a ((d, sub) :: L₁') s hs, exceptBind_ok,
        processMonths_stopped pj ps a L₂ s hs]
    · by_cases hc : MAX_SCAN_FILES ≤ s.scanned
      · rw [processMonths_cons_cap pj ps a d sub (L₁' ++ L₂) s hs hc,
          processMonths_cons_cap pj ps a d sub L₁' s hs hc, exceptBind_ok,
          processMonths_stopped pj ps a L₂ _ rfl]
      · cases sub with
        | none =>
          rw [processMonths_cons_none, processMonths_cons_none, if_neg hs, if_neg hc]
          exact (exceptBind_error _).symm
        | some ml =>
          rw [processMonths_cons_some, processMonths_cons_some, if_neg hs, if_neg hs,
            if_neg hc, if_neg hc]
          cases hpd : processDays pj ps a (collectDays ml) s with
          | error e => rfl
          | ok s₁ => rw [exceptBind_ok, exceptBind_ok, ih]

theorem processYears_append {J : Type} (pj : String → Option J) (ps : Nat) (a : RKey) :
    ∀ (L₁ L₂ : List (Nat × Option (List YEnt))) (s : TravSt J),
      processYears pj ps a (L₁ ++ L₂) s =
        processYears pj ps a L₁ s >>= fun s' => processYears pj ps a L₂ s' := by
  intro L₁
  induction L₁ with
  | nil => intro L₂ s; rfl
  | cons p L₁' ih =>
    intro L₂ s
    obtain ⟨d, sub⟩ := p
    rw [List.cons_append]
    by_cases hs : s.stop = true
    · rw [processYears_stopped pj ps a ((d, sub) :: (L₁' ++ L₂)) s hs,
        processYears_stopped pj ps a ((d, sub) :: L₁') s hs, exceptBind_ok,
        processYears_stopped pj ps a L₂ s hs]
    · by_cases hc : MAX_SCAN_FILES ≤ s.scanned
      · rw [processYears_cons_cap pj ps a d sub (L₁' ++ L₂) s hs hc,
          processYears_cons_cap pj ps a d sub L₁' s hs hc, exceptBind_ok,
          processYears_stopped pj ps a L₂ _ rfl]
      · cases sub with
        | none =>
          rw [processYears_cons_none, processYears_cons_none, if_neg hs, if_neg hc]
          exact (exceptBind_error _).symm
        | some yl =>
          rw [processYears_cons_some, processYears_cons_some, if_neg hs, if_neg hs,
            if_neg hc, if_neg hc]
          cases hpm : processMonths pj ps a (collectMonths yl) s with
          | error e => rfl
          | ok s₁ => rw [exceptBind_ok, exceptBind_ok, ih]

end SessionList

namespace SessionList

theorem quiet_stepFile {J : Type} (pj : String → Option J) (ps : Nat) (a : RKey)
    (s : TravSt J) (f : RKey × String × Content) (hs : s.stop = false)
    (hlt : s.items.length < ps) :
    (stepFile pj ps a s f).stop = false ∧
      (stepFile pj ps a s f).scanned = s.scanned + 1 ∧
      (stepFile pj ps a s f).items.length ≤ s.items.length + 1 := by
  unfold stepFile
  rw [if_neg (by simp [hs]), if_neg (fun h => absurd h.2 (by omega))]
  by_cases h3 : ¬s.anchorPassed = true ∧ ¬keyLt f.1 a = true
  · rw [if_pos h3]
    exact ⟨rfl, rfl, Nat.le_succ _⟩
  · rw [if_neg h3, if_neg (by omega : ¬s.items.length = ps)]
    exact ⟨rfl, rfl, by simp⟩

theorem quiet_processDay {J : Type} (pj : String → Option J) (ps : Nat) (a : RKey) :
    ∀ (F : List (RKey × String × Content)) (s : TravSt J), s.stop = false →
      s.items.length + F.length ≤ ps →
      (processDay pj ps a F s).stop = false ∧
        (processDay pj ps a F s).scanned = s.scanned + F.length ∧
        (processDay pj ps a F s).items.length ≤ s.items.length + F.length := by
  intro F
  induction F with
  | nil => exact fun s hs _ => ⟨hs, rfl, Nat.le_refl _⟩
  | cons f rest ih =>
    intro s hs hb
    simp only [List.length_cons] at hb
    have hlt : s.items.length < ps := by omega
    obtain ⟨h1, h2, h3⟩ := quiet_stepFile pj ps a s f hs hlt
    have hstep : processDay pj ps a (f :: rest) s =
        processDay pj ps a rest (stepFile pj ps a s f) := rfl
    rw [hstep]
    obtain ⟨g1, g2, g3⟩ := ih (stepFile pj ps a s f) h1 (by omega)
    refine ⟨g1, ?_, ?_⟩
    · rw [g2, h2]
      simp only [List.length_cons]
      omega
    · simp only [List.length_cons]
      omega

theorem quiet_processDays {J : Type} (pj : String → Option J) (ps : Nat) (a : RKey) :
    ∀ (L : List (Nat × Option (List DEnt))) (s : TravSt J), s.stop = false →
      s.scanned + (L.flatMap fun p => flatDay p.2).length < MAX_SCAN_FILES →
      s.items.length + (L.flatMap fun p => flatDay p.2).length ≤ ps →
      processDays pj ps a L s = .error () ∨
        ∃ s', processDays pj ps a L s = .ok s' ∧ s'.stop = false ∧
          s'.scanned = s.scanned + (L.flatMap fun p => flatDay p.2).length ∧
          s'.items.length ≤ s.items.length + (L.flatMap fun p => flatDay p.2).length := by
  intro L
  induction L with
  | nil =>
    intro s hs _ _
    exact Or.inr ⟨s, rfl, hs, by simp, by simp⟩
  | cons p rest ih =>
    intro s hs hcap hps
    obtain ⟨d, sub⟩ := p
    have hflat : (((d, sub) :: rest).flatMap fun p => flatDay p.2).length =
        (flatDay sub).length + (rest.flatMap fun p => flatDay p.2).length := by
      simp
    have h0 : ¬MAX_SCAN_FILES ≤ s.scanned := by omega
    cases sub with
    | none =>
      rw [processDays_cons_none, if_neg (by simp [hs]), if_neg h0]
      exact Or.inl rfl
    | some ents =>
      have hcd : (flatDay (some ents)).length = (collectDayFiles ents).length := rfl
      rw [processDays_cons_some, if_neg (by simp [hs]), if_neg h0]
      obtain ⟨q1, q2, q3⟩ :=
        quiet_processDay pj ps a (collectDayFiles ents) s hs (by omega)
      refine (ih _ q1 (by omega) (by omega)).imp id ?_
      rintro ⟨s', e1, e2, e3, e4⟩
      exact ⟨s', e1, e2, by omega, by omega⟩

theorem quiet_processMonths {J : Type} (pj : String → Option J) (ps : Nat) (a : RKey) :
    ∀ (L : List (Nat × Option (List MEnt))) (s : TravSt J), s.stop = false →
      s.scanned + (L.flatMap fun p => flatMonth p.2).length < MAX_SCAN_FILES →
      s.items.length + (L.flatMap fun p => flatMonth p.2).length ≤ ps →
      processMonths pj ps a L s = .error () ∨
        ∃ s', processMonths pj ps a L s = .ok s' ∧ s'.stop = false ∧
          s'.scanned = s.scanned + (L.flatMap fun p => flatMonth p.2).length ∧
          s'.items.length ≤ s.items.length + (L.flatMap fun p => flatMonth p.2).length := by
  intro L
  induction L with
  | nil =>
    intro s hs _ _
    exact Or.inr ⟨s, rfl, hs, by simp, by simp⟩
  | cons p rest ih =>
    intro s hs hcap hps
    obtain ⟨d, sub⟩ := p
    have hflat : (((d, sub) :: rest).flatMap fun p => flatMonth p.2).length =
        (flatMonth sub).length + (rest.flatMap fun p => flatMonth p.2).length := by
      simp
    have h0 : ¬MAX_SCAN_FILES ≤ s.scanned := by omega
    cases sub with
    | none =>
      rw [processMonths_cons_none, if_neg (by simp [hs]), if_neg h0]
      exact Or.inl rfl
    | some ml =>
      have hcd : (flatMonth (some ml)).length =
          ((collectDays ml).flatMap fun p => flatDay p.2).length := rfl
      rw [processMonths_cons_some, if_neg (by simp [hs]), if_neg h0]
      cases quiet_processDays pj ps a (collectDays ml) s hs (by omega) (by omega) with
      | inl herr =>
        rw [herr]
        exact Or.inl (exceptBind_error _)
      | inr h =>
        obtain ⟨s₁, he, e2, e3, e4⟩ := h
        rw [he, exceptBind_ok]
        refine (ih s₁ e2 (by omega) (by omega)).imp id ?_
        rintro ⟨s', f1, f2, f3, f4⟩
        exact ⟨s', f1, f2, by omega, by omega⟩

theorem quiet_processYears {J : Type} (pj : String → Option J) (ps : Nat) (a : RKey) :
    ∀ (L : List (Nat × Option (List YEnt))) (s : TravSt J), s.stop = false →
      s.scanned + (L.flatMap fun p => flatYear p.2).length < MAX_SCAN_FILES →
      s.items.length + (L.flatMap fun p => flatYear p.2).length ≤ ps →
      processYears pj ps a L s = .error () ∨
        ∃ s', processYears pj ps a L s = .ok s' ∧ s'.stop = false ∧
          s'.scanned = s.scanned + (L.flatMap fun p => flatYear p.2).length ∧
          s'.items.length ≤ s.items.length + (L.flatMap fun p => flatYear p.2).length := by
  intro L
  induction L with
  | nil =>
    intro s hs _ _
    exact Or.inr ⟨s, rfl, hs, by simp, by simp⟩
  | cons p rest ih =>
    intro s hs hcap hps
    obtain ⟨d, sub⟩ := p
    have hflat : (((d, sub) :: rest).flatMap fun p => flatYear p.2).length =
        (flatYear sub).length + (rest.flatMap fun p => flatYear p.2).length := by
      simp
    have h0 : ¬MAX_SCAN_FILES ≤ s.scanned := by omega
    cases sub with
    | none =>
      rw [processYears_cons_none, if_neg (by simp [hs]), if_neg h0]
      exact Or.inl rfl
    | some yl =>
      have hcd : (flatYear (some yl)).length =
          ((collectMonths yl).flatMap fun p => flatMonth p.2).length := rfl
      rw [processYears_cons_some, if_neg (by simp [hs]), if_neg h0]
      cases quiet_processMonths pj ps a (collectMonths yl) s hs (by omega) (by omega) with
      | inl herr =>
        rw [herr]
        exact Or.inl (exceptBind_error _)
      | inr h =>
        obtain ⟨s₁, he, e2, e3, e4⟩ := h
        rw [he, exceptBind_ok]
        refine (ih s₁ e2 (by omega) (by omega)).imp id ?_
        rintro ⟨s', f1, f2, f3, f4⟩
        exact ⟨s', f1, f2, by omega, by omega⟩

end SessionList

namespace SessionList

/-! ## Fatality of an unreadable listing at any reached position -/

theorem fatal_days {J : Type} (pj : String → Option J) (ps : Nat) (a : RKey)
    (D₁ : List (Nat × Option (List DEnt))) (d : Nat)
    (D₂ : List (Nat × Option (List DEnt))) (s : TravSt J) (hs : s.stop = false)
    (hcap : s.scanned + (D₁.flatMap fun p => flatDay p.2).length < MAX_SCAN_FILES)
    (hps : s.items.length + (D₁.flatMap fun p => flatDay p.2).length ≤ ps) :
    processDays pj ps a (D₁ ++ (d, none) :: D₂) s = .error () := by
  rw [processDays_append]
  cases quiet_processDays pj ps a D₁ s hs hcap hps with
  | inl herr =>
    rw [herr]
    exact exceptBind_error _
  | inr h =>
    obtain ⟨s', he, e2, e3, e4⟩ := h
    rw [he, exceptBind_ok, processDays_cons_none, if_neg (by simp [e2]),
      if_neg (by omega)]

theorem fatal_months {J : Type} (pj : String → Option J) (ps : Nat) (a : RKey)
    (M₁ : List (Nat × Option (List MEnt))) (m : Nat)
    (M₂ : List (Nat × Option (List MEnt))) (s : TravSt J) (hs : s.stop = false)
    (hcap : s.scanned + (M₁.flatMap fun p => flatMonth p.2).length < MAX_SCAN_FILES)
    (hps : s.items.length + (M₁.flatMap fun p => flatMonth p.2).length ≤ ps) :
    processMonths pj ps a (M₁ ++ (m, none) :: M₂) s = .error () := by
  rw [processMonths_append]
  cases quiet_processMonths pj ps a M₁ s hs hcap hps with
  | inl herr =>
    rw [herr]
    exact exceptBind_error _
  | inr h =>
    obtain ⟨s', he, e2, e3, e4⟩ := h
    rw [he, exceptBind_ok, processMonths_cons_none, if_neg (by simp [e2]),
      if_neg (by omega)]

theorem fatal_months_day {J : Type} (pj : String → Option J) (ps : Nat) (a : RKey)
    (M₁ : List (Nat × Option (List MEnt))) (m : Nat) (ml : List MEnt)
    (M₂ : List (Nat × Option (List MEnt))) (D₁ : List (Nat × Option (List DEnt)))
    (d : Nat) (D₂ : List (Nat × Option (List DEnt))) (s : TravSt J)
    (hD : collectDays ml = D₁ ++ (d, none) :: D₂) (hs : s.stop = false)
    (hcap : s.scanned + (M₁.flatMap fun p => flatMonth p.2).length +
      (D₁.flatMap fun p => flatDay p.2).length < MAX_SCAN_FILES)
    (hps : s.items.length + (M₁.flatMap fun p => flatMonth p.2).length +
      (D₁.flatMap fun p => flatDay p.2).length ≤ ps) :
    processMonths pj ps a (M₁ ++ (m, some ml) :: M₂) s = .error () := by
  rw [processMonths_append]
  cases quiet_processMonths pj ps a M₁ s hs (by omega) (by omega) with
  | inl herr =>
    rw [herr]
    exact exceptBind_error _
  | inr h =>
    obtain ⟨s₁, he, e2, e3, e4⟩ := h
    rw [he, exceptBind_ok, processMonths_cons_some, if_neg (by simp [e2]),
      if_neg (by omega), hD, fatal_days pj ps a D₁ d D₂ s₁ e2 (by omega) (by omega)]
    exact exceptBind_error _

theorem fatal_years_year {J : Type} (pj : String → Option J) (ps : Nat) (a : RKey)
    (Y₁ : List (Nat × Option (List YEnt))) (y : Nat)
    (Y₂ : List (Nat × Option (List YEnt))) (s : TravSt J) (hs : s.stop = false)
    (hcap : s.scanned + (Y₁.flatMap fun p => flatYear p.2).length < MAX_SCAN_FILES)
    (hps : s.items.length + (Y₁.flatMap fun p => flatYear p.2).length ≤ ps) :
    processYears pj ps a (Y₁ ++ (y, none) :: Y₂) s = .error () := by
  rw [processYears_append]
  cases quiet_processYears pj ps a Y₁ s hs hcap hps with
  | inl herr =>
    rw [herr]
    exact exceptBind_error _
  | inr h =>
    obtain ⟨s', he, e2, e3, e4⟩ := h
    rw [he, exceptBind_ok, processYears_cons_none, if_neg (by simp [e2]),
      if_neg (by omega)]

theorem fatal_years_month {J : Type} (pj : String → Option J) (ps : Nat) (a : RKey)
    (Y₁ : List (Nat × Option (List YEnt))) (y : Nat) (yl : List YEnt)
    (Y₂ : List (Nat × Option (List YEnt))) (M₁ : List (Nat × Option (List MEnt)))
    (m : Nat) (M₂ : List (Nat × Option (List MEnt))) (s : TravSt J)
    (hM : collectMonths yl = M₁ ++ (m, none) :: M₂) (hs : s.stop = false)
    (hcap : s.scanned + (Y₁.flatMap fun p => flatYear p.2).length +
      (M₁.flatMap fun p => flatMonth p.2).length < MAX_SCAN_FILES)
    (hps : s.items.length + (Y₁.flatMap fun p => flatYear p.2).length +
      (M₁.flatMap fun p => flatMonth p.2).length ≤ ps) :
    processYears pj ps a (Y₁ ++ (y, some yl) :: Y₂) s = .error () := by
  rw [processYears_append]
  cases quiet_processYears pj ps a Y₁ s hs (by omega) (by omega) with
  | inl herr =>
    rw [herr]
    exact exceptBind_error _
  | inr h =>
    obtain ⟨s₁, he, e2, e3, e4⟩ := h
    rw [he, exceptBind_ok, processYears_cons_some, if_neg (by simp [e2]),
      if_neg (by omega), hM, fatal_months pj ps a M₁ m M₂ s₁ e2 (by omega) (by omega)]
    exact exceptBind_error _

theorem fatal_years_day {J : Type} (pj : String → Option J) (ps : Nat) (a : RKey)
    (Y₁ : List (Nat × Option (List YEnt))) (y : Nat) (yl : List YEnt)
    (Y₂ : List (Nat × Option (List YEnt))) (M₁ : List (Nat × Option (List MEnt)))
    (m : Nat) (ml : List MEnt) (M₂ : List (Nat × Option (List MEnt)))
    (D₁ : List (Nat × Option (List DEnt))) (d : Nat)
    (D₂ : List (Nat × Option (List DEnt))) (s : TravSt J)
    (hM : collectMonths yl = M₁ ++ (m, some ml) :: M₂)
    (hD : collectDays ml = D₁ ++ (d, none) :: D₂) (hs : s.stop = false)
    (hcap : s.scanned + (Y₁.flatMap fun p => flatYear p.2).length +
      (M₁.flatMap fun p => flatMonth p.2).length +
      (D₁.flatMap fun p => flatDay p.2).length < MAX_SCAN_FILES)
    (hps : s.items.length + (Y₁.flatMap fun p => flatYear p.2).length +
      (M₁.flatMap fun p => flatMonth p.2).length +
      (D₁.flatMap fun p => flatDay p.2).length ≤ ps) :
    processYears pj ps a (Y₁ ++ (y, some yl) :: Y₂) s = .error () := by
  rw [processYears_append]
  cases quiet_processYears pj ps a Y₁ s hs (by omega) (by omega) with
  | inl herr =>
    rw [herr]
    exact exceptBind_error _
  | inr h =>
    obtain ⟨s₁, he, e2, e3, e4⟩ := h
    rw [he, exceptBind_ok, processYears_cons_some, if_neg (by simp [e2]),
      if_neg (by omega), hM,
      fatal_months_day pj ps a M₁ m ml M₂ D₁ d D₂ s₁ hD e2 (by omega) (by omega)]
    exact exceptBind_error _

end SessionList

namespace SessionList

/-- C7: a missing sessions root yields the non-error empty page (no
items, no cursor, zero scanned, cap not reached); with every listing
readable the request succeeds; and every failure to read a shard
directory or file list that the traversal reaches is fatal — the root
listing itself, or a year, month or day (file-list) listing at any
position, whenever fewer files precede it in visit order than both the
scan cap and the page size (so no break has fired and the listing is
actually read): the error propagates to the caller and no partial page
is returned. -/
theorem c7_missing_root_vs_fatal {J : Type} (pj : String → Option J) (ps : Nat)
    (cursor : Option String) (anchor : Option RKey) :
    getConversations pj none ps cursor = .ok ⟨[], none, 0, false⟩ ∧
    getConversations pj (some none) ps cursor = .error () ∧
    (∀ rents, AllOkR rents → ∃ page, traverse (J := J) pj (some rents) ps anchor = .ok page) ∧
    (∀ rents Y₁ y Y₂, collectYears rents = Y₁ ++ (y, none) :: Y₂ →
      (Y₁.flatMap fun p => flatYear p.2).length < MAX_SCAN_FILES →
      (Y₁.flatMap fun p => flatYear p.2).length ≤ ps →
      traverse (J := J) pj (some rents) ps anchor = .error ()) ∧
    (∀ rents Y₁ y yl Y₂ M₁ m M₂,
      collectYears rents = Y₁ ++ (y, some yl) :: Y₂ →
      collectMonths yl = M₁ ++ (m, none) :: M₂ →
      (Y₁.flatMap fun p => flatYear p.2).length +
        (M₁.flatMap fun p => flatMonth p.2).length < MAX_SCAN_FILES →
      (Y₁.flatMap fun p => flatYear p.2).length +
        (M₁.flatMap fun p => flatMonth p.2).length ≤ ps →
      traverse (J := J) pj (some rents) ps anchor = .error ()) ∧
    (∀ rents Y₁ y yl Y₂ M₁ m ml M₂ D₁ d D₂,
      collectYears rents = Y₁ ++ (y, some yl) :: Y₂ →
      collectMonths yl = M₁ ++ (m, some ml) :: M₂ →
      collectDays ml = D₁ ++ (d, none) :: D₂ →
      (Y₁.flatMap fun p => flatYear p.2).length +
        (M₁.flatMap fun p => flatMonth p.2).length +
        (D₁.flatMap fun p => flatDay p.2).length < MAX_SCAN_FILES →
      (Y₁.flatMap fun p => flatYear p.2).length +
        (M₁.flatMap fun p => flatMonth p.2).length +
        (D₁.flatMap fun p => flatDay p.2).length ≤ ps →
      traverse (J := J) pj (some rents) ps anchor = .error ()) := by
  refine ⟨rfl, rfl, fun rents hok => traverse_ok pj rents ps anchor hok, ?_, ?_, ?_⟩
  · intro rents Y₁ y Y₂ hY hcap hps
    rw [traverse_some, hY,
      fatal_years_year pj ps (anchor.getD nilKey) Y₁ y Y₂
        ⟨[], 0, anchor.isNone, false⟩ rfl (by simpa using hcap) (by simpa using hps)]
    rfl
  · intro rents Y₁ y yl Y₂ M₁ m M₂ hY hM hcap hps
    rw [traverse_some, hY,
      fatal_years_month pj ps (anchor.getD nilKey) Y₁ y yl Y₂ M₁ m M₂
        ⟨[], 0, anchor.isNone, false⟩ hM rfl (by simpa using hcap) (by simpa using hps)]
    rfl
  · intro rents Y₁ y yl Y₂ M₁ m ml M₂ D₁ d D₂ hY hM hD hcap hps
    rw [traverse_some, hY,
      fatal_years_day pj ps (anchor.getD nilKey) Y₁ y yl Y₂ M₁ m ml M₂ D₁ d D₂
        ⟨[], 0, anchor.isNone, false⟩ hM hD rfl (by simpa using hcap) (by simpa using hps)]
    rfl

end SessionList
